import Mathlib

/-!
Verification development for the pattern-matching elaboration pass
(src/term/transform/encode_pattern_matching.rs).

The pass rewrites multi-clause pattern-matching definitions over ADTs into a
tree of single-dispatch functions in plain lambda calculus, using Scott
encoding.  Below, the Rust data model and every function of the source file
are shallowly embedded:
  - machine maps (BTreeMap / IndexMap) become association lists;
  - panics (unwrap, unreachable, out-of-bounds indexing) become Option;
  - the recursive tree construction takes a fuel argument so that every
    definition is structural (and hence computable by the kernel); the
    mutually recursive builders receive the recursive continuation as an
    explicit parameter, and the driver ties the knot.
-/

/-- Association-list lookup by key (models map indexing / get). -/
def assocLookup {α β : Type} [BEq α] (l : List (α × β)) (k : α) : Option β :=
  (l.find? (fun p => p.1 == k)).map (fun p => p.2)

/-- Decimal digit character, as produced by Rust formatting. -/
def digitChar (n : Nat) : Char := Char.ofNat (48 + n)

/-- Fuelled most-significant-first decimal digits. -/
def decDigitsAux : Nat → Nat → List Char
  | 0, _ => []
  | fuel + 1, n =>
    if n < 10 then [digitChar n] else decDigitsAux fuel (n / 10) ++ [digitChar (n % 10)]

/-- Decimal representation of a natural number, as Rust format produces. -/
def natStr (n : Nat) : String := String.mk (decDigitsAux (n + 1) n)

/-- Names are plain strings. -/
abbrev Name := String

/-- Definition identifiers (DefId in the source). -/
abbrev DefId := Nat

/-- The Term model: exactly the five primitives used by the pass
(Era, Lam, App, Var, Ref). -/
inductive Term where
  | era : Term
  | lam : Option Name → Term → Term
  | app : Term → Term → Term
  | var : Name → Term
  | ref : DefId → Term
deriving Repr, DecidableEq

/-- RulePat from the source: a variable pattern or a constructor pattern
with sub-patterns. -/
inductive RulePat where
  | var : Name → RulePat
  | ctr : Name → List RulePat → RulePat
deriving Repr

/-- Whether a pattern is a variable pattern. -/
def RulePat.isVarPat : RulePat → Bool
  | RulePat.var _ => true
  | RulePat.ctr _ _ => false

/-- A rule: a list of parameter patterns plus a body term. -/
structure Rule where
  pats : List RulePat
  body : Term
deriving Repr

/-- Rule arity (length of the pattern list), as in the source. -/
def Rule.arity (r : Rule) : Nat := r.pats.length

/-- The parameter type information computed by the type checker:
either an ADT type (with the ADT name) or not. -/
inductive Ty where
  | any : Ty
  | adt : Name → Ty
deriving Repr, DecidableEq

/-- Whether a parameter type is an ADT type. -/
def Ty.isAdtTy : Ty → Bool
  | Ty.adt _ => true
  | Ty.any => false

/-- The Book (Program): a definition table keyed by DefId, the
bidirectional DefId/Name table, the ADT table (each ADT an ordered list of
constructor-name/arity pairs), and a counter supplying fresh DefIds for
insertion. -/
structure Book where
  defs : List (DefId × List Rule)
  defNames : List (DefId × Name)
  adts : List (Name × List (Name × Nat))
  fresh : DefId
deriving Repr

/-- Name of a definition id (book.def_names.name). -/
def Book.nameOfId (b : Book) (i : DefId) : Option Name :=
  assocLookup b.defNames i

/-- Id of a definition name (book.def_names.def_id). -/
def Book.idOfName (b : Book) (n : Name) : Option DefId :=
  (b.defNames.find? (fun p => p.2 == n)).map (fun p => p.1)

/-- Rules of a definition id (book.defs indexing). -/
def Book.rulesOfId (b : Book) (i : DefId) : Option (List Rule) :=
  assocLookup b.defs i

/-- Overwrite the rules of an existing definition (get_mut assignment). -/
def Book.setRules (b : Book) (i : DefId) (rs : List Rule) : Book :=
  { b with defs := b.defs.map (fun p => if p.1 == i then (p.1, rs) else p) }

/-- Insert a brand-new definition under a fresh id (book.insert_def). -/
def Book.insertDef (b : Book) (n : Name) (rs : List Rule) : Book :=
  { b with
    defs := b.defs ++ [(b.fresh, rs)],
    defNames := b.defNames ++ [(b.fresh, n)],
    fresh := b.fresh + 1 }

/-- Source function make_rule_name: the generated rule-body definition name,
built by decimal formatting of the 0-based rule index. -/
def make_rule_name (defName : Name) (ruleIdx : Nat) : Name :=
  defName ++ "$R" ++ natStr ruleIdx

/-- Source closure make_next_fn_name in the branch builder. -/
def make_next_fn_name (crntName ctrName : Name) : Name :=
  crntName ++ "$P" ++ ctrName

/-- Fresh term-level variable names x0, x1, ... generated by the builders. -/
def xName (counter : Nat) : Name := "x" ++ natStr counter

/-- The lambda-wrapping step shared by make_rule_body (on constructor
fields) and make_non_pattern_matching_def: a variable pattern becomes a
lambda, a constructor pattern is the unreachable branch, modelled as
none. -/
def varLamStep (v : RulePat) (body : Term) : Option Term :=
  match v with
  | RulePat.var nam => some (Term.lam (some nam) body)
  | RulePat.ctr _ _ => none

/-- Source function make_rule_body: wrap the body in one lambda per pattern
variable, iterating patterns right-to-left (and constructor fields
right-to-left).  A non-variable sub-pattern is the unreachable branch,
modelled as none. -/
def make_rule_body (body : Term) (pats : List RulePat) : Option Term :=
  pats.foldrM
    (fun pat body =>
      match pat with
      | RulePat.var nam => some (Term.lam (some nam) body)
      | RulePat.ctr _ vars => vars.foldrM varLamStep body)
    body

/-- Source function make_non_pattern_matching_def: move the argument
variables of rule 0 into the body as lambdas (right-to-left) and clear the
rule's pattern list.  A constructor pattern is the unreachable branch. -/
def make_non_pattern_matching_def (book : Book) (defId : DefId) : Option Book := do
  let rules ← book.rulesOfId defId
  let rule ← rules.get? 0
  let body ← rule.pats.foldrM varLamStep rule.body
  some (book.setRules defId (rules.set 0 { pats := [], body := body }))

/-- Source function add_case_to_book: overwrite an existing definition of
that name with a single zero-pattern rule, or insert a new one. -/
def add_case_to_book (book : Book) (nam : Name) (body : Term) : Option Book :=
  match book.idOfName nam with
  | some defId =>
    match book.rulesOfId defId with
    | some _ => some (book.setRules defId [{ pats := [], body := body }])
    | none => none
  | none => some (book.insertDef nam [{ pats := [], body := body }])

/-- The filter_rules helper of the branch builder: keep the rules whose
pattern at the argument position is a variable or names the given
constructor; out-of-bounds indexing is none. -/
def filter_rules (defRules : List Rule) (crntRules : List Nat) (argIdx : Nat)
    (ctr : Name) : Option (List Nat) :=
  match crntRules with
  | [] => some []
  | ruleIdx :: rest => do
    let r ← defRules.get? ruleIdx
    let p ← r.pats.get? argIdx
    let keep :=
      match p with
      | RulePat.var _ => true
      | RulePat.ctr nam _ => nam == ctr
    let rest' ← filter_rules defRules rest argIdx ctr
    some (if keep then ruleIdx :: rest' else rest')

/-- The any-iterator of the driver deciding whether some live rule has a
constructor pattern at the current argument index (short-circuiting, with
out-of-bounds indexing as none). -/
def any_ctr_at (defRules : List Rule) (crntRules : List Nat) (argIdx : Nat) :
    Option Bool :=
  match crntRules with
  | [] => some false
  | i :: rest => do
    let r ← defRules.get? i
    let p ← r.pats.get? argIdx
    match p with
    | RulePat.ctr _ _ => some true
    | RulePat.var _ => any_ctr_at defRules rest argIdx

/-- The application-building step of the leaf builder (the use_var counter
counting up over matched path element / rule pattern pairs). -/
def leafAppStep (book : Book) : (Term × Nat) → (RulePat × RulePat) → Option (Term × Nat) :=
  fun tc mp =>
    match mp with
    | (RulePat.var _, RulePat.var _) =>
      some (Term.app tc.1 (Term.var (xName tc.2)), tc.2 + 1)
    | (RulePat.ctr _ vars, RulePat.ctr _ _) =>
      some (vars.foldl
        (fun (tc : Term × Nat) _ =>
          (Term.app tc.1 (Term.var (xName tc.2)), tc.2 + 1))
        tc)
    | (RulePat.ctr ctrNam vars, RulePat.var _) => do
      let ctrRefId ← book.idOfName ctrNam
      let ctrTc := vars.foldl
        (fun (tc : Term × Nat) _ =>
          (Term.app tc.1 (Term.var (xName tc.2)), tc.2 + 1))
        (Term.ref ctrRefId, tc.2)
      some (Term.app tc.1 ctrTc.1, ctrTc.2)
    | (RulePat.var _, RulePat.ctr _ _) => none

/-- The lambda-wrapping step of the leaf builder (the make_var counter
counting down, one variable per slot of the matched path element). -/
def leafLamStep : (Term × Nat) → RulePat → (Term × Nat) :=
  fun tc matched =>
    match matched with
    | RulePat.var _ =>
      (Term.lam (some (xName (tc.2 - 1))) tc.1, tc.2 - 1)
    | RulePat.ctr _ vars =>
      vars.foldl
        (fun (tc : Term × Nat) _ =>
          (Term.lam (some (xName (tc.2 - 1))) tc.1, tc.2 - 1))
        tc

/-- Source function make_leaf_pattern_matching_case: build the call to the
winning rule's extracted body definition, with the variable-counter
discipline (use_var counts up over applications, make_var counts down over
lambdas) and the constructor reconstruction for path-Ctr/rule-Var
positions. -/
def make_leaf_pattern_matching_case (book : Book) (defId : DefId)
    (crntName : Name) (ruleIdx : Nat) (matchPath : List RulePat) :
    Option Book := do
  let defName ← book.nameOfId defId
  let ruleDefName := make_rule_name defName ruleIdx
  let ruleDefId ← book.idOfName ruleDefName
  let rules ← book.rulesOfId defId
  let rule ← rules.get? ruleIdx
  let tc ← (matchPath.zip rule.pats).foldlM (leafAppStep book) (Term.ref ruleDefId, 0)
  let tc' := matchPath.reverse.foldl leafLamStep tc
  add_case_to_book book crntName tc'.1

/-- The type of the recursive continuation handed to the branch and
pass-through builders: the driver itself, with the book, the generated name,
the live rules and the match path still to be supplied. -/
abbrev CaseCont := Book → Name → List Nat → List RulePat → Option Book

/-- The subfunction-construction loop of the branch builder: one recursive
driver call per constructor of the scrutinised ADT (in declared order),
with the filtered live-rule set and the match path extended by a
constructor pattern carrying one fresh Var per field. -/
def make_branch_sub_cases (next : CaseCont) (book : Book) (defId : DefId)
    (crntName : Name) (crntRules : List Nat) (matchPath : List RulePat) :
    List (Name × Nat) → Option Book
  | [] => some book
  | (nextCtr, nextCtrAri) :: rest => do
    let rules ← book.rulesOfId defId
    let subName := make_next_fn_name crntName nextCtr
    let subRules ← filter_rules rules crntRules matchPath.length nextCtr
    let newVars := RulePat.ctr nextCtr (List.replicate nextCtrAri (RulePat.var ""))
    let book ← next book subName subRules (matchPath ++ [newVars])
    make_branch_sub_cases next book defId crntName crntRules matchPath rest

/-- Source function make_branch_pattern_matching_case: compile one
subfunction per constructor, then install the Scott dispatcher under the
current name. -/
def make_branch_pattern_matching_case (next : CaseCont) (book : Book)
    (defType : List Ty) (defId : DefId) (crntName : Name)
    (crntRules : List Nat) (matchPath : List RulePat) : Option Book := do
  let ty ← defType.get? matchPath.length
  let nextType ←
    match ty with
    | Ty.adt n => some n
    | Ty.any => none
  let nextCtrs ← assocLookup book.adts nextType
  let book ← make_branch_sub_cases next book defId crntName crntRules matchPath nextCtrs
  let term := Term.var "x"
  let term ← nextCtrs.foldlM
    (fun term (ctr : Name × Nat) => do
      let name := make_next_fn_name crntName ctr.1
      let subId ← book.idOfName name
      some (Term.app term (Term.ref subId)))
    term
  let useStep : (Term × Nat) → RulePat → (Term × Nat) :=
    fun tc pat =>
      match pat with
      | RulePat.var _ => (Term.app tc.1 (Term.var (xName tc.2)), tc.2 + 1)
      | RulePat.ctr _ vars =>
        vars.foldl
          (fun (tc : Term × Nat) _ =>
            (Term.app tc.1 (Term.var (xName tc.2)), tc.2 + 1))
          tc
  let tc := matchPath.foldl useStep (term, 0)
  let lamStep : (Term × Nat) → RulePat → (Term × Nat) :=
    fun tc pat =>
      match pat with
      | RulePat.var _ =>
        (Term.lam (some (xName (tc.2 - 1))) tc.1, tc.2 - 1)
      | RulePat.ctr _ vars =>
        vars.foldl
          (fun (tc : Term × Nat) _ =>
            (Term.lam (some (xName (tc.2 - 1))) tc.1, tc.2 - 1))
          tc
  let tc' := matchPath.reverse.foldl lamStep tc
  let term := Term.lam (some "x") tc'.1
  add_case_to_book book crntName term

/-- Source function make_non_pattern_matching_case: recurse under the
pass-through name with a Var appended to the match path and the live rules
unchanged, then install the two-parameter forwarding function that applies
the next-level reference to the rest-of-call parameter and then to the
deferred argument. -/
def make_non_pattern_matching_case (next : CaseCont) (book : Book)
    (crntName : Name) (crntRules : List Nat) (matchPath : List RulePat) :
    Option Book := do
  let argName : Name := "x"
  let nxtName : Name := "nxt"
  let nxtDefName := crntName ++ "$P"
  let book ← next book nxtDefName crntRules (matchPath ++ [RulePat.var argName])
  let nxtDefId ← book.idOfName nxtDefName
  let term := Term.lam (some argName) (Term.lam (some nxtName)
    (Term.app (Term.app (Term.ref nxtDefId) (Term.var nxtName)) (Term.var argName)))
  add_case_to_book book crntName term

/-- Source function make_pattern_matching_case, the decision-tree driver:
leaf when the first live rule is irrefutable from the current index on,
else branch when some live rule matches a constructor at the current index,
else pass-through.  The fuel argument makes the recursion structural; the
builders receive the driver at the remaining fuel as their continuation. -/
def make_pattern_matching_case : Nat → Book → List Ty → DefId → Name →
    List Nat → List RulePat → Option Book
  | 0, _, _, _, _, _, _ => none
  | fuel + 1, book, defType, defId, crntName, crntRules, matchPath => do
    let rules ← book.rulesOfId defId
    let fstRuleIdx ← crntRules.get? 0
    let fstRule ← rules.get? fstRuleIdx
    let crntArgIdx := matchPath.length
    let allArgsDone := decide (fstRule.arity ≤ crntArgIdx)
    let isFstRuleIrrefutable :=
      allArgsDone || (fstRule.pats.drop crntArgIdx).all RulePat.isVarPat
    if isFstRuleIrrefutable then
      make_leaf_pattern_matching_case book defId crntName fstRuleIdx matchPath
    else do
      let isMatchingCase ← any_ctr_at rules crntRules crntArgIdx
      if isMatchingCase then
        make_branch_pattern_matching_case
          (fun book nm rs mp => make_pattern_matching_case fuel book defType defId nm rs mp)
          book defType defId crntName crntRules matchPath
      else
        make_non_pattern_matching_case
          (fun book nm rs mp => make_pattern_matching_case fuel book defType defId nm rs mp)
          book crntName crntRules matchPath

/-- Source function make_pattern_matching_def: extract each rule body into
its own zero-parameter definition (replacing the original bodies by Era),
then run the decision-tree driver from the empty match path with all rules
live. -/
def make_pattern_matching_def (fuel : Nat) (book : Book) (defId : DefId)
    (defType : List Ty) : Option Book := do
  let defName ← book.nameOfId defId
  let rules ← book.rulesOfId defId
  let crntRules := List.range rules.length
  let ruleBodies ← rules.mapM (fun r => make_rule_body r.body r.pats)
  let book := book.setRules defId (rules.map (fun r => { r with body := Term.era }))
  let book := ruleBodies.enum.foldl
    (fun (book : Book) p =>
      book.insertDef (make_rule_name defName p.1) [{ pats := [], body := p.2 }])
    book
  make_pattern_matching_case fuel book defType defId defName crntRules []

/-- Source entry point encode_pattern_matching_functions: for every
definition id present at the start, run the matching elaboration when some
parameter has ADT type, else just move the argument variables into the
body. -/
def encode_pattern_matching_functions (fuel : Nat) (book : Book)
    (defTypes : List (DefId × List Ty)) : Option Book :=
  (book.defs.map (fun p => p.1)).foldlM
    (fun (book : Book) defId => do
      let defType ← assocLookup defTypes defId
      if defType.any Ty.isAdtTy then
        make_pattern_matching_def fuel book defId defType
      else
        make_non_pattern_matching_def book defId)
    book

/-! Basic lemmas about association-list lookup and the Book operations. -/

theorem assocLookup_cons {α β : Type} [BEq α] (p : α × β) (l : List (α × β)) (k : α) :
    assocLookup (p :: l) k = if p.1 == k then some p.2 else assocLookup l k := by
  simp only [assocLookup, List.find?_cons]
  cases h : p.1 == k <;> simp [h]

theorem assocLookup_append {α β : Type} [BEq α] (l₁ l₂ : List (α × β)) (k : α) :
    assocLookup (l₁ ++ l₂) k = (assocLookup l₁ k).or (assocLookup l₂ k) := by
  simp only [assocLookup, List.find?_append]
  cases h : l₁.find? (fun p => p.1 == k) <;> simp [Option.or]

theorem assocLookup_mem {α β : Type} [BEq α] [LawfulBEq α] {l : List (α × β)} {k : α}
    {v : β} (h : assocLookup l k = some v) : (k, v) ∈ l := by
  induction l with
  | nil => simp [assocLookup] at h
  | cons p rest ih =>
    rw [assocLookup_cons] at h
    by_cases hk : p.1 = k
    · rw [if_pos (beq_iff_eq.mpr hk)] at h
      cases p with
      | mk a b =>
        simp only at hk h
        injection h with h
        subst hk h
        exact List.mem_cons_self _ _
    · rw [if_neg (by simp [hk])] at h
      exact List.mem_cons_of_mem _ (ih h)

theorem assocLookup_isSome_of_mem {α β : Type} [BEq α] [LawfulBEq α]
    {l : List (α × β)} {k : α} {v : β} (h : (k, v) ∈ l) :
    ∃ v', assocLookup l k = some v' := by
  induction l with
  | nil => simp at h
  | cons p rest ih =>
    rw [assocLookup_cons]
    by_cases hk : p.1 = k
    · exact ⟨p.2, by rw [if_pos (beq_iff_eq.mpr hk)]⟩
    · rw [if_neg (by simp [hk])]
      rcases List.mem_cons.mp h with h | h
      · exact absurd (congrArg Prod.fst h.symm) hk
      · exact ih h

theorem assocLookup_map_if {β : Type} (l : List (DefId × β)) (i : DefId) (rs : β)
    (j : DefId) :
    assocLookup (l.map (fun p => if p.1 == i then (p.1, rs) else p)) j =
      if j = i then (assocLookup l i).map (fun _ => rs) else assocLookup l j := by
  induction l with
  | nil =>
    by_cases hji : j = i <;> simp [assocLookup, hji]
  | cons p rest ih =>
    simp only [List.map_cons]
    by_cases hpi : p.1 = i
    · rw [if_pos (beq_iff_eq.mpr hpi)]
      by_cases hji : j = i
      · have h1 : ((p.1 : DefId) == j) = true := beq_iff_eq.mpr (hpi.trans hji.symm)
        have h2 : ((p.1 : DefId) == i) = true := beq_iff_eq.mpr hpi
        rw [assocLookup_cons, assocLookup_cons, if_pos hji, if_pos h1, if_pos h2]
        rfl
      · have hpj : ¬ p.1 = j := fun h => hji ((hpi.symm.trans h).symm)
        have h1 : ¬ (((p.1 : DefId) == j) = true) := by simp [hpj]
        rw [assocLookup_cons, if_neg h1, ih, if_neg hji, if_neg hji,
          assocLookup_cons, if_neg h1]
    · have h2 : ¬ (((p.1 : DefId) == i) = true) := by simp [hpi]
      rw [if_neg h2]
      by_cases hpj : p.1 = j
      · have hji : ¬ j = i := fun h => hpi (hpj.trans h)
        have h1 : ((p.1 : DefId) == j) = true := beq_iff_eq.mpr hpj
        rw [assocLookup_cons, if_pos h1, if_neg hji, assocLookup_cons, if_pos h1]
      · have h1 : ¬ (((p.1 : DefId) == j) = true) := by simp [hpj]
        rw [assocLookup_cons, if_neg h1, ih]
        by_cases hji : j = i
        · rw [if_pos hji, if_pos hji, assocLookup_cons p rest i, if_neg h2]
        · rw [if_neg hji, if_neg hji, assocLookup_cons p rest j, if_neg h1]

theorem rulesOfId_setRules (b : Book) (i : DefId) (rs : List Rule) (j : DefId) :
    (b.setRules i rs).rulesOfId j =
      if j = i then (b.rulesOfId i).map (fun _ => rs) else b.rulesOfId j :=
  assocLookup_map_if b.defs i rs j

theorem setRules_defNames (b : Book) (i : DefId) (rs : List Rule) :
    (b.setRules i rs).defNames = b.defNames := rfl

theorem setRules_adts (b : Book) (i : DefId) (rs : List Rule) :
    (b.setRules i rs).adts = b.adts := rfl

theorem setRules_fresh (b : Book) (i : DefId) (rs : List Rule) :
    (b.setRules i rs).fresh = b.fresh := rfl

theorem setRules_keys (b : Book) (i : DefId) (rs : List Rule) :
    (b.setRules i rs).defs.map (fun p => p.1) = b.defs.map (fun p => p.1) := by
  simp only [Book.setRules, List.map_map]
  apply List.map_congr_left
  intro p _
  by_cases h : p.1 = i
  · simp [h]
  · simp [h]

theorem idOfName_setRules (b : Book) (i : DefId) (rs : List Rule) (nm : Name) :
    (b.setRules i rs).idOfName nm = b.idOfName nm := rfl

theorem nameOfId_setRules (b : Book) (i : DefId) (rs : List Rule) (j : DefId) :
    (b.setRules i rs).nameOfId j = b.nameOfId j := rfl

theorem rulesOfId_insertDef (b : Book) (n : Name) (rs : List Rule) (j : DefId) :
    (b.insertDef n rs).rulesOfId j =
      (b.rulesOfId j).or (if b.fresh == j then some rs else none) := by
  simp only [Book.insertDef, Book.rulesOfId, assocLookup_append]
  congr 1
  rw [assocLookup_cons]
  simp [assocLookup]

theorem nameOfId_insertDef (b : Book) (n : Name) (rs : List Rule) (j : DefId) :
    (b.insertDef n rs).nameOfId j =
      (b.nameOfId j).or (if b.fresh == j then some n else none) := by
  simp only [Book.insertDef, Book.nameOfId, assocLookup_append]
  congr 1
  rw [assocLookup_cons]
  simp [assocLookup]

theorem idOfName_insertDef (b : Book) (n : Name) (rs : List Rule) (m : Name) :
    (b.insertDef n rs).idOfName m =
      (b.idOfName m).or (if n == m then some b.fresh else none) := by
  simp only [Book.insertDef, Book.idOfName, List.find?_append]
  cases h : b.defNames.find? (fun p => p.2 == m) with
  | none =>
    cases hm : (n == m) with
    | true => simp [List.find?_cons, hm, Option.or]
    | false => simp [List.find?_cons, hm, Option.or]
  | some q => simp [Option.or]

theorem insertDef_adts (b : Book) (n : Name) (rs : List Rule) :
    (b.insertDef n rs).adts = b.adts := rfl

theorem insertDef_fresh (b : Book) (n : Name) (rs : List Rule) :
    (b.insertDef n rs).fresh = b.fresh + 1 := rfl

theorem insertDef_defNames (b : Book) (n : Name) (rs : List Rule) :
    (b.insertDef n rs).defNames = b.defNames ++ [(b.fresh, n)] := rfl

theorem insertDef_keys (b : Book) (n : Name) (rs : List Rule) :
    (b.insertDef n rs).defs.map (fun p => p.1) =
      b.defs.map (fun p => p.1) ++ [b.fresh] := by
  simp [Book.insertDef]

theorem idOfName_mem {b : Book} {nm : Name} {j : DefId}
    (h : b.idOfName nm = some j) : (j, nm) ∈ b.defNames := by
  simp only [Book.idOfName, Option.map_eq_some'] at h
  obtain ⟨q, hq, hj⟩ := h
  have hmem := List.mem_of_find?_eq_some hq
  have hp := List.find?_some hq
  have : q.2 = nm := by simpa using hp
  have : q = (j, nm) := by
    cases q
    simp_all
  rw [← this]
  exact hmem

theorem idOfName_mono {b b' : Book} {nm : Name} {j : DefId}
    (hext : ∃ l, b'.defNames = b.defNames ++ l)
    (h : b.idOfName nm = some j) : b'.idOfName nm = some j := by
  obtain ⟨l, hl⟩ := hext
  simp only [Book.idOfName, hl, List.find?_append]
  simp only [Book.idOfName] at h
  cases hf : b.defNames.find? (fun p => p.2 == nm) with
  | none => simp [hf] at h
  | some q =>
    rw [hf] at h
    simp [Option.or, h]

theorem nameOfId_mono {b b' : Book} {j : DefId} {nm : Name}
    (hext : ∃ l, b'.defNames = b.defNames ++ l)
    (h : b.nameOfId j = some nm) : b'.nameOfId j = some nm := by
  obtain ⟨l, hl⟩ := hext
  simp only [Book.nameOfId, hl, assocLookup_append]
  simp only [Book.nameOfId] at h
  rw [h]
  rfl

/-! Well-formedness of the Book and the preservation relation satisfied by
every elaboration step of the pass. -/

/-- Well-formedness of the Book table used by the pass: all tabled ids are
below the fresh counter, and every name-table entry has a backing
definition. -/
def Book.wfc (b : Book) : Prop :=
  (∀ p ∈ b.defs, p.1 < b.fresh) ∧
  (∀ p ∈ b.defNames, p.1 < b.fresh) ∧
  (∀ p ∈ b.defNames, ∃ rs, b.rulesOfId p.1 = some rs)

/-- Shape of every definition the pass installs: one rule, no patterns. -/
def goodRules (rs : List Rule) : Prop := ∃ t, rs = [{ pats := [], body := t }]

/-- A string that is empty or starts with the reserved dollar character
(every suffix the pass appends to a name is of this shape). -/
def startsDollar (s : String) : Prop := s = "" ∨ s.data.head? = some '$'

theorem wfc_setRules {b : Book} (h : b.wfc) (i : DefId) (rs : List Rule) :
    (b.setRules i rs).wfc := by
  obtain ⟨h1, h2, h3⟩ := h
  refine ⟨?_, ?_, ?_⟩
  · intro p hp
    simp only [Book.setRules, List.mem_map] at hp
    obtain ⟨q, hq, hpq⟩ := hp
    have : p.1 = q.1 := by
      by_cases hqi : q.1 = i
      · rw [← hpq]; simp [hqi]
      · rw [← hpq]; simp [hqi]
    rw [setRules_fresh, this]
    exact h1 q hq
  · intro p hp
    rw [setRules_fresh]
    exact h2 p hp
  · intro p hp
    rw [setRules_defNames] at hp
    obtain ⟨rs₀, hrs₀⟩ := h3 p hp
    rw [rulesOfId_setRules]
    by_cases hpi : p.1 = i
    · rw [if_pos hpi]
      rw [hpi] at hrs₀
      exact ⟨rs, by rw [hrs₀]; rfl⟩
    · rw [if_neg hpi]
      exact ⟨rs₀, hrs₀⟩

theorem wfc_insertDef {b : Book} (h : b.wfc) (n : Name) (rs : List Rule) :
    (b.insertDef n rs).wfc := by
  obtain ⟨h1, h2, h3⟩ := h
  refine ⟨?_, ?_, ?_⟩
  · intro p hp
    simp only [Book.insertDef, List.mem_append, List.mem_singleton] at hp
    rw [insertDef_fresh]
    rcases hp with hp | hp
    · exact Nat.lt_succ_of_lt (h1 p hp)
    · rw [hp]
      exact Nat.lt_succ_self _
  · intro p hp
    rw [insertDef_defNames, List.mem_append, List.mem_singleton] at hp
    rw [insertDef_fresh]
    rcases hp with hp | hp
    · exact Nat.lt_succ_of_lt (h2 p hp)
    · rw [hp]
      exact Nat.lt_succ_self _
  · intro p hp
    rw [insertDef_defNames, List.mem_append, List.mem_singleton] at hp
    rw [rulesOfId_insertDef]
    rcases hp with hp | hp
    · obtain ⟨rs₀, hrs₀⟩ := h3 p hp
      exact ⟨rs₀, by rw [hrs₀]; rfl⟩
    · rw [hp]
      simp only [beq_self_eq_true, if_true]
      cases hr : b.rulesOfId b.fresh with
      | none => exact ⟨rs, rfl⟩
      | some w => exact ⟨w, rfl⟩

/-- The preservation relation established by every step of the pass rooted
at the generated name nm: the tables only grow, new ids are fresh, and any
changed or added definition entry is a generated case (single zero-pattern
rule) registered under a name extending nm by a dollar-suffix. -/
structure Pres (nm : Name) (b b' : Book) : Prop where
  adts_eq : b'.adts = b.adts
  fresh_le : b.fresh ≤ b'.fresh
  names_ext : ∃ l, b'.defNames = b.defNames ++ l
  keys_ext : ∃ l, b'.defs.map (fun p => p.1) = b.defs.map (fun p => p.1) ++ l
  new_names : ∀ p ∈ b'.defNames, p ∈ b.defNames ∨ b.fresh ≤ p.1
  entries : ∀ i rs', b'.rulesOfId i = some rs' →
    b.rulesOfId i = some rs' ∨
      (goodRules rs' ∧ ∃ n s, (i, n) ∈ b'.defNames ∧ n = nm ++ s ∧ startsDollar s)
  wf_pres : b.wfc → b'.wfc

theorem pres_refl (nm : Name) (b : Book) : Pres nm b b :=
  { adts_eq := rfl
    fresh_le := Nat.le_refl _
    names_ext := ⟨[], by simp⟩
    keys_ext := ⟨[], by simp⟩
    new_names := fun p hp => Or.inl hp
    entries := fun _ _ h => Or.inl h
    wf_pres := fun h => h }

theorem pres_trans {nm : Name} {b b' b'' : Book} (h1 : Pres nm b b')
    (h2 : Pres nm b' b'') : Pres nm b b'' :=
  { adts_eq := h2.adts_eq.trans h1.adts_eq
    fresh_le := Nat.le_trans h1.fresh_le h2.fresh_le
    names_ext := by
      obtain ⟨l1, e1⟩ := h1.names_ext
      obtain ⟨l2, e2⟩ := h2.names_ext
      exact ⟨l1 ++ l2, by rw [e2, e1, List.append_assoc]⟩
    keys_ext := by
      obtain ⟨l1, e1⟩ := h1.keys_ext
      obtain ⟨l2, e2⟩ := h2.keys_ext
      exact ⟨l1 ++ l2, by rw [e2, e1, List.append_assoc]⟩
    new_names := by
      intro p hp
      rcases h2.new_names p hp with h | h
      · exact h1.new_names p h
      · exact Or.inr (Nat.le_trans h1.fresh_le h)
    entries := by
      intro i rs' h
      rcases h2.entries i rs' h with h | ⟨hg, n, s, hmem, hn, hs⟩
      · rcases h1.entries i rs' h with h | ⟨hg, n, s, hmem, hn, hs⟩
        · exact Or.inl h
        · obtain ⟨l2, e2⟩ := h2.names_ext
          exact Or.inr ⟨hg, n, s, by rw [e2]; exact List.mem_append_left _ hmem, hn, hs⟩
      · exact Or.inr ⟨hg, n, s, hmem, hn, hs⟩
    wf_pres := fun h => h2.wf_pres (h1.wf_pres h) }

theorem empty_string_append (s : String) : "" ++ s = s := by
  apply String.ext
  simp only [String.data_append]
  rfl

theorem startsDollar_append {e s : String} (he : startsDollar e)
    (hs : startsDollar s) : startsDollar (e ++ s) := by
  rcases he with he | he
  · subst he
    rw [empty_string_append]
    exact hs
  · right
    simp only [String.data_append]
    cases hd : e.data with
    | nil => rw [hd] at he; simp at he
    | cons c cs =>
      rw [hd] at he
      simp only [List.head?] at he
      simp [he, hd]

theorem pres_weaken {nm e : Name} {b b' : Book} (he : startsDollar e)
    (h : Pres (nm ++ e) b b') : Pres nm b b' :=
  { adts_eq := h.adts_eq
    fresh_le := h.fresh_le
    names_ext := h.names_ext
    keys_ext := h.keys_ext
    new_names := h.new_names
    wf_pres := h.wf_pres
    entries := by
      intro i rs' hi
      rcases h.entries i rs' hi with hi | ⟨hg, n, s, hmem, hn, hs⟩
      · exact Or.inl hi
      · refine Or.inr ⟨hg, n, e ++ s, hmem, ?_, ?_⟩
        · rw [hn, String.append_assoc]
        · exact startsDollar_append he hs }

theorem string_append_empty (s : String) : s ++ "" = s := by
  apply String.ext
  simp only [String.data_append]
  exact List.append_nil _

theorem add_case_pres {b b' : Book} {nm : Name} {t : Term}
    (h : add_case_to_book b nm t = some b') : Pres nm b b' := by
  cases hid : b.idOfName nm with
  | some j =>
    cases hr : b.rulesOfId j with
    | none =>
      simp only [add_case_to_book, hid, hr] at h
      exact Option.noConfusion h
    | some w =>
      simp only [add_case_to_book, hid, hr, Option.some.injEq] at h
      subst h
      refine
        { adts_eq := rfl
          fresh_le := Nat.le_refl _
          names_ext := ⟨[], by simp [setRules_defNames]⟩
          keys_ext := ⟨[], by simp [setRules_keys]⟩
          new_names := fun p hp => Or.inl (by rwa [setRules_defNames] at hp)
          wf_pres := fun hwf => wfc_setRules hwf _ _
          entries := ?_ }
      intro i rs' hi
      rw [rulesOfId_setRules] at hi
      by_cases hij : i = j
      · rw [if_pos hij, hr] at hi
        simp only [Option.map_some', Option.some.injEq] at hi
        refine Or.inr ⟨⟨t, hi.symm⟩, nm, "", ?_, (string_append_empty nm).symm, Or.inl rfl⟩
        rw [setRules_defNames, hij]
        exact idOfName_mem hid
      · rw [if_neg hij] at hi
        exact Or.inl hi
  | none =>
    simp only [add_case_to_book, hid, Option.some.injEq] at h
    subst h
    refine
      { adts_eq := rfl
        fresh_le := Nat.le_succ _
        names_ext := ⟨[(b.fresh, nm)], insertDef_defNames b nm _⟩
        keys_ext := ⟨[b.fresh], insertDef_keys b nm _⟩
        new_names := ?_
        wf_pres := fun hwf => wfc_insertDef hwf _ _
        entries := ?_ }
    · intro p hp
      rw [insertDef_defNames, List.mem_append, List.mem_singleton] at hp
      rcases hp with hp | hp
      · exact Or.inl hp
      · exact Or.inr (by rw [hp])
    · intro i rs' hi
      rw [rulesOfId_insertDef] at hi
      cases hbi : b.rulesOfId i with
      | some w =>
        rw [hbi] at hi
        simp only [Option.or] at hi
        exact Or.inl hi
      | none =>
        rw [hbi] at hi
        simp only [Option.or] at hi
        by_cases hif : b.fresh = i
        · rw [if_pos (beq_iff_eq.mpr hif)] at hi
          injection hi with hi
          refine Or.inr ⟨⟨t, hi.symm⟩, nm, "", ?_, (string_append_empty nm).symm, Or.inl rfl⟩
          rw [insertDef_defNames, ← hif]
          exact List.mem_append_right _ (List.mem_singleton.mpr rfl)
        · rw [if_neg (by simp [hif])] at hi
          exact absurd hi (by simp)

theorem add_case_install {b b' : Book} {nm : Name} {t : Term} (hwf : b.wfc)
    (h : add_case_to_book b nm t = some b') :
    ∃ j, b'.idOfName nm = some j ∧
      b'.rulesOfId j = some [{ pats := [], body := t }] := by
  cases hid : b.idOfName nm with
  | some j =>
    cases hr : b.rulesOfId j with
    | none =>
      simp only [add_case_to_book, hid, hr] at h
      exact Option.noConfusion h
    | some w =>
      simp only [add_case_to_book, hid, hr, Option.some.injEq] at h
      subst h
      refine ⟨j, ?_, ?_⟩
      · rw [idOfName_setRules]
        exact hid
      · rw [rulesOfId_setRules, if_pos rfl, hr]
        rfl
  | none =>
    simp only [add_case_to_book, hid, Option.some.injEq] at h
    subst h
    refine ⟨b.fresh, ?_, ?_⟩
    · rw [idOfName_insertDef, hid]
      simp [Option.or]
    · rw [rulesOfId_insertDef]
      have hbf : b.rulesOfId b.fresh = none := by
        cases hq : b.rulesOfId b.fresh with
        | none => rfl
        | some w =>
          have hmem := assocLookup_mem hq
          have hlt := hwf.1 (b.fresh, w) hmem
          simp at hlt
      rw [hbf]
      simp [Option.or]

theorem add_case_total {b : Book} (hwf : b.wfc) (nm : Name) (t : Term) :
    ∃ b', add_case_to_book b nm t = some b' := by
  cases hid : b.idOfName nm with
  | some j =>
    have hmem := idOfName_mem hid
    obtain ⟨rs, hrs⟩ := hwf.2.2 (j, nm) hmem
    have hrs' : b.rulesOfId j = some rs := hrs
    refine ⟨b.setRules j [{ pats := [], body := t }], ?_⟩
    simp only [add_case_to_book, hid, hrs']
  | none =>
    refine ⟨b.insertDef nm [{ pats := [], body := t }], ?_⟩
    simp only [add_case_to_book, hid]

theorem make_leaf_pres {book : Book} {defId : DefId} {crntName : Name}
    {ruleIdx : Nat} {matchPath : List RulePat} {b' : Book}
    (h : make_leaf_pattern_matching_case book defId crntName ruleIdx matchPath = some b') :
    Pres crntName book b' := by
  simp only [make_leaf_pattern_matching_case, Option.bind_eq_bind, Option.bind_eq_some] at h
  obtain ⟨dn, hdn, rid, hrid, rs, hrs, r, hr, tc, htc, h⟩ := h
  exact add_case_pres h

theorem startsDollar_dollarP (s : String) : startsDollar ("$P" ++ s) := by
  right
  simp only [String.data_append]
  rfl

theorem pres_next_fn_name {crntName c : Name} {b b' : Book}
    (h : Pres (make_next_fn_name crntName c) b b') : Pres crntName b b' := by
  apply pres_weaken (startsDollar_dollarP c)
  have : make_next_fn_name crntName c = crntName ++ ("$P" ++ c) := by
    rw [make_next_fn_name, String.append_assoc]
  rwa [this] at h

theorem make_non_case_pres {next : CaseCont} {book b' : Book} {crntName : Name}
    {crntRules : List Nat} {matchPath : List RulePat}
    (hnext : ∀ b nm rs mp b'', next b nm rs mp = some b'' → Pres nm b b'')
    (h : make_non_pattern_matching_case next book crntName crntRules matchPath = some b') :
    Pres crntName book b' := by
  simp only [make_non_pattern_matching_case, Option.bind_eq_bind, Option.bind_eq_some] at h
  obtain ⟨b1, hb1, nid, hnid, h⟩ := h
  have p1 : Pres (crntName ++ "$P") book b1 := hnext _ _ _ _ _ hb1
  exact pres_trans (pres_weaken (show startsDollar "$P" from Or.inr rfl) p1) (add_case_pres h)

theorem make_branch_sub_cases_pres {next : CaseCont}
    (hnext : ∀ b nm rs mp b'', next b nm rs mp = some b'' → Pres nm b b'') :
    ∀ (ctrs : List (Name × Nat)) {book b' : Book} {defId : DefId} {crntName : Name}
      {crntRules : List Nat} {matchPath : List RulePat},
      make_branch_sub_cases next book defId crntName crntRules matchPath ctrs = some b' →
      Pres crntName book b' := by
  intro ctrs
  induction ctrs with
  | nil =>
    intro book b' _ _ _ _ h
    simp only [make_branch_sub_cases, Option.some.injEq] at h
    rw [← h]
    exact pres_refl _ _
  | cons c rest ih =>
    intro book b' defId crntName crntRules matchPath h
    obtain ⟨cn, ca⟩ := c
    simp only [make_branch_sub_cases, Option.bind_eq_bind, Option.bind_eq_some] at h
    obtain ⟨rs, hrs, sr, hsr, b1, hb1, h⟩ := h
    exact pres_trans (pres_next_fn_name (hnext _ _ _ _ _ hb1)) (ih h)

theorem make_branch_pres {next : CaseCont} {book b' : Book} {defType : List Ty}
    {defId : DefId} {crntName : Name} {crntRules : List Nat} {matchPath : List RulePat}
    (hnext : ∀ b nm rs mp b'', next b nm rs mp = some b'' → Pres nm b b'')
    (h : make_branch_pattern_matching_case next book defType defId crntName crntRules
      matchPath = some b') :
    Pres crntName book b' := by
  simp only [make_branch_pattern_matching_case, Option.bind_eq_bind, Option.bind_eq_some] at h
  obtain ⟨ty, hty, h⟩ := h
  cases ty with
  | any => simp at h
  | adt tn =>
    simp only [Option.some_bind, Option.bind_eq_some] at h
    obtain ⟨ctrs, hctrs, b1, hb1, t2, ht2, h⟩ := h
    exact pres_trans (make_branch_sub_cases_pres hnext ctrs hb1) (add_case_pres h)

theorem make_pattern_matching_case_pres :
    ∀ (fuel : Nat) (book : Book) (defType : List Ty) (defId : DefId)
      (crntName : Name) (crntRules : List Nat) (matchPath : List RulePat) (b' : Book),
      make_pattern_matching_case fuel book defType defId crntName crntRules matchPath =
        some b' →
      Pres crntName book b' := by
  intro fuel
  induction fuel with
  | zero =>
    intro book dt di nm rs mp b' h
    simp [make_pattern_matching_case] at h
  | succ fuel ih =>
    intro book dt di nm rs mp b' h
    have hnext : ∀ b nm' rs' mp' b'',
        make_pattern_matching_case fuel b dt di nm' rs' mp' = some b'' →
        Pres nm' b b'' := fun b nm' rs' mp' b'' hb => ih b dt di nm' rs' mp' b'' hb
    simp only [make_pattern_matching_case, Option.bind_eq_bind, Option.bind_eq_some] at h
    obtain ⟨rules, hrules, i0, hi0, r0, hr0, h⟩ := h
    split at h
    · exact make_leaf_pres h
    · simp only [Option.bind_eq_bind, Option.bind_eq_some] at h
      obtain ⟨bv, hbv, h⟩ := h
      split at h
      · exact make_branch_pres hnext h
      · exact make_non_case_pres hnext h

theorem make_pattern_matching_case_install {fuel : Nat} {book : Book}
    {defType : List Ty} {defId : DefId} {crntName : Name} {crntRules : List Nat}
    {matchPath : List RulePat} {b' : Book} (hwf : book.wfc)
    (h : make_pattern_matching_case fuel book defType defId crntName crntRules
      matchPath = some b') :
    ∃ j t, b'.idOfName crntName = some j ∧
      b'.rulesOfId j = some [{ pats := [], body := t }] := by
  cases fuel with
  | zero => simp [make_pattern_matching_case] at h
  | succ fuel =>
    have hnext : ∀ b nm' rs' mp' b'',
        make_pattern_matching_case fuel b defType defId nm' rs' mp' = some b'' →
        Pres nm' b b'' := fun b nm' rs' mp' b'' hb =>
      make_pattern_matching_case_pres fuel b defType defId nm' rs' mp' b'' hb
    simp only [make_pattern_matching_case, Option.bind_eq_bind, Option.bind_eq_some] at h
    obtain ⟨rules, hrules, i0, hi0, r0, hr0, h⟩ := h
    split at h
    · simp only [make_leaf_pattern_matching_case, Option.bind_eq_bind,
        Option.bind_eq_some] at h
      obtain ⟨dn, hdn, rid, hrid, rs, hrs, r, hr, tc, htc, h⟩ := h
      obtain ⟨j, hj, hrj⟩ := add_case_install hwf h
      exact ⟨j, _, hj, hrj⟩
    · simp only [Option.bind_eq_bind, Option.bind_eq_some] at h
      obtain ⟨bv, hbv, h⟩ := h
      split at h
      · simp only [make_branch_pattern_matching_case, Option.bind_eq_bind,
          Option.bind_eq_some] at h
        obtain ⟨ty, hty, h⟩ := h
        cases ty with
        | any => simp at h
        | adt tn =>
          simp only [Option.some_bind, Option.bind_eq_some] at h
          obtain ⟨ctrs, hctrs, b1, hb1, t2, ht2, h⟩ := h
          have hwf1 : b1.wfc := (make_branch_sub_cases_pres hnext ctrs hb1).wf_pres hwf
          obtain ⟨j, hj, hrj⟩ := add_case_install hwf1 h
          exact ⟨j, _, hj, hrj⟩
      · simp only [make_non_pattern_matching_case, Option.bind_eq_bind,
          Option.bind_eq_some] at h
        obtain ⟨b1, hb1, nid, hnid, h⟩ := h
        have hwf1 : b1.wfc := ((hnext _ _ _ _ _ hb1)).wf_pres hwf
        obtain ⟨j, hj, hrj⟩ := add_case_install hwf1 h
        exact ⟨j, _, hj, hrj⟩

/-! Concrete example programs used by the end-to-end claims and witnesses. -/

/-- Scott-encoded True. -/
def bTrue : Term := Term.lam (some "t") (Term.lam (some "f") (Term.var "t"))

/-- Scott-encoded False. -/
def bFalse : Term := Term.lam (some "t") (Term.lam (some "f") (Term.var "f"))

/-- The end-to-end example program: ADT Bool with constructors True, False
(declared in that order) and not(True) = False; not(False) = True. -/
def notBook : Book :=
  { defs := [(0, [{ pats := [], body := bTrue }]),
             (1, [{ pats := [], body := bFalse }]),
             (2, [{ pats := [RulePat.ctr "True" []], body := Term.ref 1 },
                  { pats := [RulePat.ctr "False" []], body := Term.ref 0 }])],
    defNames := [(0, "True"), (1, "False"), (2, "not")],
    adts := [("Bool", [("True", 0), ("False", 0)])],
    fresh := 3 }

/-- TypeInfo for the end-to-end example. -/
def notTypes : List (DefId × List Ty) := [(0, []), (1, []), (2, [Ty.adt "Bool"])]

/-- The dispatcher body the pass is expected to install under the name not:
a single outer lambda applying the scrutinee to the two case references in
constructor-declaration order. -/
def notDispatch : Term :=
  Term.lam (some "x") (Term.app (Term.app (Term.var "x") (Term.ref 5)) (Term.ref 6))

/-- Claim C9: on the Bool/not example, the pass produces the zero-argument
rule-body definitions not$R0 (body a bare Reference to False) and not$R1
(body a bare Reference to True), and installs under the name not a
dispatcher that is a single outer lambda for the scrutinee whose body
applies the scrutinee to references to the two case functions in
constructor-declaration order. -/
theorem claim_c9 :
    ∃ b, encode_pattern_matching_functions 10 notBook notTypes = some b ∧
      b.idOfName "False" = some 1 ∧
      b.idOfName "True" = some 0 ∧
      b.idOfName "not$R0" = some 3 ∧
      b.rulesOfId 3 = some [{ pats := [], body := Term.ref 1 }] ∧
      b.idOfName "not$R1" = some 4 ∧
      b.rulesOfId 4 = some [{ pats := [], body := Term.ref 0 }] ∧
      b.idOfName "not$PTrue" = some 5 ∧
      b.idOfName "not$PFalse" = some 6 ∧
      b.idOfName "not" = some 2 ∧
      b.rulesOfId 2 = some [{ pats := [], body := notDispatch }] :=
  ⟨_, rfl, rfl, rfl, rfl, rfl, rfl, rfl, rfl, rfl, rfl, rfl⟩

/-- Lambda-wrapping of an all-variable pattern list succeeds and produces
the parameters as lambdas, first parameter outermost. -/
theorem foldrM_var_pats (ns : List Name) (b : Term) :
    (ns.map RulePat.var).foldrM varLamStep b
    = some (ns.foldr (fun n t => Term.lam (some n) t) b) := by
  induction ns with
  | nil => rfl
  | cons n ns ih => simp [List.foldrM_cons, ih, varLamStep]

/-- Claim C7: on a definition whose single rule has all-variable patterns,
the pass keeps exactly that one definition (tables and fresh counter
unchanged, so no sub-definition is created), clears the pattern list in
place and moves the parameters into the body as lambdas, the original
left-to-right parameter order becoming outermost-to-innermost. -/
theorem claim_c7 (book : Book) (defId : DefId) (ns : List Name) (body : Term)
    (h : book.rulesOfId defId = some [{ pats := ns.map RulePat.var, body := body }]) :
    ∃ b', make_non_pattern_matching_def book defId = some b' ∧
      b' = book.setRules defId
        [{ pats := [], body := ns.foldr (fun n t => Term.lam (some n) t) body }] ∧
      b'.defs.map (fun p => p.1) = book.defs.map (fun p => p.1) ∧
      b'.defNames = book.defNames ∧
      b'.adts = book.adts ∧
      b'.fresh = book.fresh := by
  refine ⟨_, ?_, rfl, setRules_keys _ _ _, setRules_defNames _ _ _, rfl, rfl⟩
  simp only [make_non_pattern_matching_def, h, Option.bind_eq_bind, Option.some_bind,
    List.get?, foldrM_var_pats, List.set]

/-- A one-rule, all-variable-pattern definition for the claim C7 witness. -/
def idBook : Book :=
  { defs := [(0, [{ pats := [RulePat.var "a", RulePat.var "b"], body := Term.var "a" }])],
    defNames := [(0, "konst")],
    adts := [],
    fresh := 1 }

/-- Witness for claim C7 at a concrete two-parameter definition. -/
theorem claim_c7_witness :
    idBook.rulesOfId 0 =
      some [{ pats := ["a", "b"].map RulePat.var, body := Term.var "a" }] ∧
    ∃ b', make_non_pattern_matching_def idBook 0 = some b' ∧
      b' = idBook.setRules 0
        [{ pats := [], body := ["a", "b"].foldr (fun n t => Term.lam (some n) t) (Term.var "a") }] ∧
      b'.defs.map (fun p => p.1) = idBook.defs.map (fun p => p.1) ∧
      b'.defNames = idBook.defNames ∧
      b'.adts = idBook.adts ∧
      b'.fresh = idBook.fresh :=
  ⟨rfl, claim_c7 idBook 0 ["a", "b"] (Term.var "a") rfl⟩

/-- Claim C6: the pass-through builder recurses into the driver with a Var
appended to the match path, the live rules unchanged, under the name formed
by appending the token $P (no constructor suffix) to the current name, and
installs under the current name the two-parameter function whose body
applies the Reference to that $P sub-definition first to its second
parameter (the rest of the call) and then to its first parameter (the
deferred argument). -/
theorem claim_c6 (next : CaseCont) (book b1 : Book) (crntName : Name)
    (crntRules : List Nat) (matchPath : List RulePat) (nxtId : DefId)
    (h1 : next book (crntName ++ "$P") crntRules (matchPath ++ [RulePat.var "x"]) = some b1)
    (h2 : b1.idOfName (crntName ++ "$P") = some nxtId) :
    make_non_pattern_matching_case next book crntName crntRules matchPath =
      add_case_to_book b1 crntName
        (Term.lam (some "x") (Term.lam (some "nxt")
          (Term.app (Term.app (Term.ref nxtId) (Term.var "nxt")) (Term.var "x")))) := by
  simp only [make_non_pattern_matching_case, h1, Option.bind_eq_bind, Option.some_bind, h2]

/-- The two-parameter example g(a, True) = False; g(b, False) = True after
the rule-body extraction preamble: parameter 0 does not discriminate, so
the driver takes the pass-through case on it. -/
def gMid : Book :=
  { defs := [(0, [{ pats := [], body := bTrue }]),
             (1, [{ pats := [], body := bFalse }]),
             (2, [{ pats := [RulePat.var "a", RulePat.ctr "True" []], body := Term.era },
                  { pats := [RulePat.var "b", RulePat.ctr "False" []], body := Term.era }]),
             (3, [{ pats := [], body := Term.lam (some "a") (Term.ref 1) }]),
             (4, [{ pats := [], body := Term.lam (some "b") (Term.ref 0) }])],
    defNames := [(0, "True"), (1, "False"), (2, "g"), (3, "g$R0"), (4, "g$R1")],
    adts := [("Bool", [("True", 0), ("False", 0)])],
    fresh := 5 }

/-- TypeInfo of the definition g in the pass-through example. -/
def gTypes : List Ty := [Ty.any, Ty.adt "Bool"]

/-- Result of the driver run for the pass-through sub-name g$P. -/
def gB1 : Book :=
  { defs := [(0, [{ pats := [], body := bTrue }]),
             (1, [{ pats := [], body := bFalse }]),
             (2, [{ pats := [RulePat.var "a", RulePat.ctr "True" []], body := Term.era },
                  { pats := [RulePat.var "b", RulePat.ctr "False" []], body := Term.era }]),
             (3, [{ pats := [], body := Term.lam (some "a") (Term.ref 1) }]),
             (4, [{ pats := [], body := Term.lam (some "b") (Term.ref 0) }]),
             (5, [{ pats := [], body := Term.lam (some "x0") (Term.app (Term.ref 3) (Term.var "x0")) }]),
             (6, [{ pats := [], body := Term.lam (some "x0") (Term.app (Term.ref 4) (Term.var "x0")) }]),
             (7, [{ pats := [], body :=
               Term.lam (some "x") (Term.lam (some "x0")
                 (Term.app (Term.app (Term.app (Term.var "x") (Term.ref 5)) (Term.ref 6))
                   (Term.var "x0"))) }])],
    defNames := [(0, "True"), (1, "False"), (2, "g"), (3, "g$R0"), (4, "g$R1"),
                 (5, "g$P$PTrue"), (6, "g$P$PFalse"), (7, "g$P")],
    adts := [("Bool", [("True", 0), ("False", 0)])],
    fresh := 8 }

/-- Witness for claim C6 at the concrete pass-through example. -/
theorem claim_c6_witness :
    make_pattern_matching_case 5 gMid gTypes 2 ("g" ++ "$P") [0, 1]
        ([] ++ [RulePat.var "x"]) = some gB1 ∧
    gB1.idOfName ("g" ++ "$P") = some 7 ∧
    make_non_pattern_matching_case
        (fun b nm rs mp => make_pattern_matching_case 5 b gTypes 2 nm rs mp)
        gMid "g" [0, 1] [] =
      add_case_to_book gB1 "g"
        (Term.lam (some "x") (Term.lam (some "nxt")
          (Term.app (Term.app (Term.ref 7) (Term.var "nxt")) (Term.var "x")))) :=
  ⟨rfl, rfl,
    claim_c6 (fun b nm rs mp => make_pattern_matching_case 5 b gTypes 2 nm rs mp)
      gMid gB1 "g" [0, 1] [] 7 rfl rfl⟩

/-! Claim C3: the three-way decision of the driver. -/

/-- The irrefutability condition on the first live rule, as the spec words
it: all arguments consumed, or every remaining pattern is a variable. -/
def leafCondition (fstRule : Rule) (k : Nat) : Prop :=
  fstRule.arity ≤ k ∨ ∀ p ∈ fstRule.pats.drop k, p.isVarPat = true

/-- Some live rule has a constructor pattern at argument index k, as the
spec words it. -/
def branchCondition (rules : List Rule) (crntRules : List Nat) (k : Nat) : Prop :=
  ∃ i ∈ crntRules, ∃ r, rules.get? i = some r ∧
    ∃ c vs, r.pats.get? k = some (RulePat.ctr c vs)

theorem leafCondition_iff (fstRule : Rule) (k : Nat) :
    (decide (fstRule.arity ≤ k) || (fstRule.pats.drop k).all RulePat.isVarPat) = true
      ↔ leafCondition fstRule k := by
  simp [leafCondition, List.all_eq_true, Bool.or_eq_true, decide_eq_true_iff]

theorem any_ctr_at_spec (rules : List Rule) (k : Nat) :
    ∀ crntRules : List Nat,
      (∀ i ∈ crntRules, ∃ r, rules.get? i = some r ∧ k < r.pats.length) →
      ∃ bv, any_ctr_at rules crntRules k = some bv ∧
        (bv = true ↔ branchCondition rules crntRules k) := by
  intro crntRules
  induction crntRules with
  | nil =>
    intro _
    refine ⟨false, rfl, ?_⟩
    simp [branchCondition]
  | cons i rest ih =>
    intro hv
    obtain ⟨r, hr, hk⟩ := hv i (List.mem_cons_self i rest)
    obtain ⟨p, hp⟩ : ∃ p, r.pats.get? k = some p := ⟨_, List.get?_eq_get hk⟩
    cases p with
    | ctr c vs =>
      refine ⟨true, ?_, ?_⟩
      · simp only [any_ctr_at, hr, hp, Option.bind_eq_bind, Option.some_bind]
      · constructor
        · intro _
          exact ⟨i, List.mem_cons_self _ _, r, hr, c, vs, hp⟩
        · intro _
          rfl
    | var v =>
      obtain ⟨bv, hbv, hiff⟩ := ih (fun j hj => hv j (List.mem_cons_of_mem _ hj))
      refine ⟨bv, ?_, ?_⟩
      · simp only [any_ctr_at, hr, hp, Option.bind_eq_bind, Option.some_bind, hbv]
      · rw [hiff]
        constructor
        · rintro ⟨j, hj, r', hr', c, vs, hp'⟩
          exact ⟨j, List.mem_cons_of_mem _ hj, r', hr', c, vs, hp'⟩
        · rintro ⟨j, hj, r', hr', c, vs, hp'⟩
          rcases List.mem_cons.mp hj with rfl | hj'
          · rw [hr] at hr'
            injection hr' with hr'
            rw [← hr'] at hp'
            rw [hp] at hp'
            exact absurd hp' (by simp)
          · exact ⟨j, hj', r', hr', c, vs, hp'⟩

/-- Claim C3: at a driver call with live rules crntRules and path length k,
the driver emits a leaf for the first live rule exactly under the
irrefutability condition; otherwise it emits a branch exactly when some
live rule has a constructor at index k, and a pass-through otherwise; and
the three spec conditions are mutually exclusive and exhaustive. -/
theorem claim_c3 (fuel : Nat) (book : Book) (defType : List Ty) (defId : DefId)
    (crntName : Name) (crntRules : List Nat) (matchPath : List RulePat)
    (rules : List Rule) (i0 : Nat) (fstRule : Rule)
    (hrules : book.rulesOfId defId = some rules)
    (hi0 : crntRules.get? 0 = some i0)
    (hr0 : rules.get? i0 = some fstRule) :
    (leafCondition fstRule matchPath.length →
      make_pattern_matching_case (fuel + 1) book defType defId crntName crntRules
          matchPath =
        make_leaf_pattern_matching_case book defId crntName i0 matchPath) ∧
    (¬ leafCondition fstRule matchPath.length →
      (∀ i ∈ crntRules, ∃ r, rules.get? i = some r ∧ matchPath.length < r.pats.length) →
      branchCondition rules crntRules matchPath.length →
      make_pattern_matching_case (fuel + 1) book defType defId crntName crntRules
          matchPath =
        make_branch_pattern_matching_case
          (fun b nm rs mp => make_pattern_matching_case fuel b defType defId nm rs mp)
          book defType defId crntName crntRules matchPath) ∧
    (¬ leafCondition fstRule matchPath.length →
      (∀ i ∈ crntRules, ∃ r, rules.get? i = some r ∧ matchPath.length < r.pats.length) →
      ¬ branchCondition rules crntRules matchPath.length →
      make_pattern_matching_case (fuel + 1) book defType defId crntName crntRules
          matchPath =
        make_non_pattern_matching_case
          (fun b nm rs mp => make_pattern_matching_case fuel b defType defId nm rs mp)
          book crntName crntRules matchPath) ∧
    ((leafCondition fstRule matchPath.length ∨
        (¬ leafCondition fstRule matchPath.length ∧
          branchCondition rules crntRules matchPath.length) ∨
        (¬ leafCondition fstRule matchPath.length ∧
          ¬ branchCondition rules crntRules matchPath.length)) ∧
      ¬ (leafCondition fstRule matchPath.length ∧
          ¬ leafCondition fstRule matchPath.length)) := by
  refine ⟨?_, ?_, ?_, ?_⟩
  · intro hL
    simp only [make_pattern_matching_case, hrules, hi0, hr0, Option.bind_eq_bind,
      Option.some_bind]
    rw [if_pos ((leafCondition_iff fstRule matchPath.length).mpr hL)]
  · intro hL hv hB
    obtain ⟨bv, hbv, hiff⟩ := any_ctr_at_spec rules matchPath.length crntRules hv
    have hbt : bv = true := hiff.mpr hB
    simp only [make_pattern_matching_case, hrules, hi0, hr0, Option.bind_eq_bind,
      Option.some_bind]
    rw [if_neg (fun hc => hL ((leafCondition_iff fstRule matchPath.length).mp hc))]
    subst hbt
    rw [hbv]
    simp only [Option.some_bind]
    rw [if_pos trivial]
  · intro hL hv hB
    obtain ⟨bv, hbv, hiff⟩ := any_ctr_at_spec rules matchPath.length crntRules hv
    have hbf : bv = false := by
      cases bv
      · rfl
      · exact absurd (hiff.mp rfl) hB
    simp only [make_pattern_matching_case, hrules, hi0, hr0, Option.bind_eq_bind,
      Option.some_bind]
    rw [if_neg (fun hc => hL ((leafCondition_iff fstRule matchPath.length).mp hc))]
    rw [hbv, hbf]
    simp only [Option.some_bind, Bool.false_eq_true, if_false]
  · constructor
    · by_cases hL : leafCondition fstRule matchPath.length
      · exact Or.inl hL
      · by_cases hB : branchCondition rules crntRules matchPath.length
        · exact Or.inr (Or.inl ⟨hL, hB⟩)
        · exact Or.inr (Or.inr ⟨hL, hB⟩)
    · rintro ⟨h1, h2⟩
      exact h2 h1

/-- The not example after the rule-body extraction preamble (bodies already
replaced by Era, rule-body definitions inserted). -/
def notMidRule0 : Rule := { pats := [RulePat.ctr "True" []], body := Term.era }

/-- Second rule of the Era'd not example. -/
def notMidRule1 : Rule := { pats := [RulePat.ctr "False" []], body := Term.era }

/-- The not example book at driver time. -/
def notMid : Book :=
  { defs := [(0, [{ pats := [], body := bTrue }]),
             (1, [{ pats := [], body := bFalse }]),
             (2, [notMidRule0, notMidRule1]),
             (3, [{ pats := [], body := Term.ref 1 }]),
             (4, [{ pats := [], body := Term.ref 0 }])],
    defNames := [(0, "True"), (1, "False"), (2, "not"), (3, "not$R0"), (4, "not$R1")],
    adts := [("Bool", [("True", 0), ("False", 0)])],
    fresh := 5 }

/-- Witness for claim C3: on the not example at path length 0 the driver
selects the branch case. -/
theorem claim_c3_witness :
    notMid.rulesOfId 2 = some [notMidRule0, notMidRule1] ∧
    [0, 1].get? 0 = some 0 ∧
    [notMidRule0, notMidRule1].get? 0 = some notMidRule0 ∧
    make_pattern_matching_case 3 notMid [Ty.adt "Bool"] 2 "not" [0, 1] [] =
      make_branch_pattern_matching_case
        (fun b nm rs mp => make_pattern_matching_case 2 b [Ty.adt "Bool"] 2 nm rs mp)
        notMid [Ty.adt "Bool"] 2 "not" [0, 1] [] :=
  ⟨rfl, rfl, rfl,
    (claim_c3 2 notMid [Ty.adt "Bool"] 2 "not" [0, 1] [] [notMidRule0, notMidRule1]
        0 notMidRule0 rfl rfl rfl).2.1
      (by unfold leafCondition; decide)
      (by
        intro i hi
        rcases List.mem_cons.mp hi with rfl | hi
        · exact ⟨notMidRule0, rfl, by decide⟩
        · rcases List.mem_cons.mp hi with rfl | hi
          · exact ⟨notMidRule1, rfl, by decide⟩
          · exact absurd hi (by simp))
      ⟨0, by simp, notMidRule0, rfl, "True", [], rfl⟩⟩

/-! Claim C4: constructor completeness of the branch builder and the
live-rule filter. -/

/-- The keep-test of the rule filter, as the spec words it: a live rule
stays when its pattern at the index is a variable or names the given
constructor. -/
def keepRule (rules : List Rule) (k : Nat) (c : Name) (i : Nat) : Bool :=
  match (rules.get? i).bind (fun r => r.pats.get? k) with
  | some (RulePat.var _) => true
  | some (RulePat.ctr n _) => n == c
  | none => false

theorem filter_rules_spec (rules : List Rule) (k : Nat) (c : Name) :
    ∀ crntRules : List Nat,
      (∀ i ∈ crntRules, ∃ r, rules.get? i = some r ∧ k < r.pats.length) →
      filter_rules rules crntRules k c = some (crntRules.filter (keepRule rules k c)) := by
  intro crntRules
  induction crntRules with
  | nil => intro _; rfl
  | cons i rest ih =>
    intro hv
    obtain ⟨r, hr, hk⟩ := hv i (List.mem_cons_self i rest)
    obtain ⟨p, hp⟩ : ∃ p, r.pats.get? k = some p := ⟨_, List.get?_eq_get hk⟩
    have hrest := ih (fun j hj => hv j (List.mem_cons_of_mem _ hj))
    cases p with
    | var v =>
      have hkeep : keepRule rules k c i = true := by
        unfold keepRule
        rw [hr, Option.some_bind, hp]
      simp only [filter_rules, hr, hp, Option.bind_eq_bind, Option.some_bind, hrest,
        List.filter_cons, hkeep, if_true]
    | ctr n vs =>
      have hkeep : keepRule rules k c i = (n == c) := by
        unfold keepRule
        rw [hr, Option.some_bind, hp]
      simp only [filter_rules, hr, hp, Option.bind_eq_bind, Option.some_bind, hrest,
        List.filter_cons, hkeep]

theorem make_branch_sub_cases_installs {next : CaseCont}
    (hnextPres : ∀ b nm rs mp b'', next b nm rs mp = some b'' → Pres nm b b'')
    (hnextInstall : ∀ b nm rs mp b'', b.wfc → next b nm rs mp = some b'' →
      ∃ j t, b''.idOfName nm = some j ∧ b''.rulesOfId j = some [{ pats := [], body := t }]) :
    ∀ (ctrs : List (Name × Nat)) {book b1 : Book} {defId : DefId} {crntName : Name}
      {crntRules : List Nat} {matchPath : List RulePat},
      book.wfc →
      make_branch_sub_cases next book defId crntName crntRules matchPath ctrs = some b1 →
      ∀ q ∈ ctrs, ∃ j, b1.idOfName (make_next_fn_name crntName q.1) = some j := by
  intro ctrs
  induction ctrs with
  | nil =>
    intro book b1 _ _ _ _ _ _ q hq
    exact absurd hq (by simp)
  | cons c rest ih =>
    intro book b1 defId crntName crntRules matchPath hwf h q hq
    obtain ⟨cn, ca⟩ := c
    simp only [make_branch_sub_cases, Option.bind_eq_bind, Option.bind_eq_some] at h
    obtain ⟨rs, hrs, sr, hsr, bc, hbc, h⟩ := h
    rcases List.mem_cons.mp hq with rfl | hq'
    · obtain ⟨j, t, hj, _⟩ := hnextInstall _ _ _ _ _ hwf hbc
      have hrest := make_branch_sub_cases_pres hnextPres rest h
      exact ⟨j, idOfName_mono hrest.names_ext hj⟩
    · exact ih ((hnextPres _ _ _ _ _ hbc).wf_pres hwf) h q hq'

/-- Claim C4: the rule filter of the branch builder keeps exactly the live
rules (in order) whose pattern at the branch position is a variable or
names the given constructor; and a successful branch builder run registers
one sub-function per constructor of the scrutinised ADT, regardless of how
many live rules name constructors. -/
theorem claim_c4 :
    (∀ (rules : List Rule) (k : Nat) (c : Name) (crntRules : List Nat),
      (∀ i ∈ crntRules, ∃ r, rules.get? i = some r ∧ k < r.pats.length) →
      filter_rules rules crntRules k c =
        some (crntRules.filter (keepRule rules k c))) ∧
    (∀ (next : CaseCont) (book b' : Book) (defType : List Ty) (defId : DefId)
      (crntName : Name) (crntRules : List Nat) (matchPath : List RulePat)
      (tn : Name) (ctrs : List (Name × Nat)),
      (∀ b nm rs mp b'', next b nm rs mp = some b'' → Pres nm b b'') →
      (∀ b nm rs mp b'', b.wfc → next b nm rs mp = some b'' →
        ∃ j t, b''.idOfName nm = some j ∧
          b''.rulesOfId j = some [{ pats := [], body := t }]) →
      book.wfc →
      defType.get? matchPath.length = some (Ty.adt tn) →
      assocLookup book.adts tn = some ctrs →
      make_branch_pattern_matching_case next book defType defId crntName crntRules
        matchPath = some b' →
      ∀ q ∈ ctrs, ∃ j, b'.idOfName (make_next_fn_name crntName q.1) = some j) := by
  constructor
  · intro rules k c crntRules hv
    exact filter_rules_spec rules k c crntRules hv
  · intro next book b' defType defId crntName crntRules matchPath tn ctrs
      hnextPres hnextInstall hwf hty hctrs h
    simp only [make_branch_pattern_matching_case, Option.bind_eq_bind,
      Option.bind_eq_some] at h
    obtain ⟨ty, hty', h⟩ := h
    rw [hty] at hty'
    injection hty' with hty'
    subst hty'
    simp only [Option.some_bind, Option.bind_eq_some] at h
    obtain ⟨ctrs', hctrs', b1, hb1, t2, ht2, h⟩ := h
    rw [hctrs] at hctrs'
    injection hctrs' with hctrs'
    subst hctrs'
    intro q hq
    obtain ⟨j, hj⟩ :=
      make_branch_sub_cases_installs hnextPres hnextInstall ctrs hwf hb1 q hq
    exact ⟨j, idOfName_mono (add_case_pres h).names_ext hj⟩

/-- Result of the branch builder on the Era'd not example. -/
def notBranchOut : Book :=
  { defs := [(0, [{ pats := [], body := bTrue }]),
             (1, [{ pats := [], body := bFalse }]),
             (2, [{ pats := [], body := notDispatch }]),
             (3, [{ pats := [], body := Term.ref 1 }]),
             (4, [{ pats := [], body := Term.ref 0 }]),
             (5, [{ pats := [], body := Term.ref 3 }]),
             (6, [{ pats := [], body := Term.ref 4 }])],
    defNames := [(0, "True"), (1, "False"), (2, "not"), (3, "not$R0"), (4, "not$R1"),
                 (5, "not$PTrue"), (6, "not$PFalse")],
    adts := [("Bool", [("True", 0), ("False", 0)])],
    fresh := 7 }

/-- Well-formedness of the Era'd not example book. -/
theorem notMid_wfc : notMid.wfc := by
  refine ⟨by decide, by decide, ?_⟩
  intro p hp
  fin_cases hp <;> exact ⟨_, rfl⟩

/-- Witness for claim C4: the concrete filter run and the two registered
sub-functions (one per constructor of Bool) on the not example. -/
theorem claim_c4_witness :
    filter_rules [notMidRule0, notMidRule1] [0, 1] 0 "True" =
      some ([0, 1].filter (keepRule [notMidRule0, notMidRule1] 0 "True")) ∧
    (make_branch_pattern_matching_case
        (fun b nm rs mp => make_pattern_matching_case 2 b [Ty.adt "Bool"] 2 nm rs mp)
        notMid [Ty.adt "Bool"] 2 "not" [0, 1] [] = some notBranchOut) ∧
    ∀ q ∈ [("True", 0), ("False", 0)],
      ∃ j, notBranchOut.idOfName (make_next_fn_name "not" q.1) = some j := by
  refine ⟨?_, rfl, ?_⟩
  · apply claim_c4.1
    intro i hi
    rcases List.mem_cons.mp hi with rfl | hi
    · exact ⟨notMidRule0, rfl, by decide⟩
    · rcases List.mem_cons.mp hi with rfl | hi
      · exact ⟨notMidRule1, rfl, by decide⟩
      · exact absurd hi (by simp)
  · apply claim_c4.2 (fun b nm rs mp => make_pattern_matching_case 2 b [Ty.adt "Bool"] 2 nm rs mp)
      notMid notBranchOut [Ty.adt "Bool"] 2 "not" [0, 1] [] "Bool"
      [("True", 0), ("False", 0)]
      (fun b nm rs mp b'' hb => make_pattern_matching_case_pres 2 b [Ty.adt "Bool"] 2 nm rs mp b'' hb)
      (fun b nm rs mp b'' hwf hb => make_pattern_matching_case_install hwf hb)
      notMid_wfc rfl rfl rfl

/-! Claim C5: the shape of the installed branch dispatcher. -/

/-- Variables a committed path element contributes in the dispatcher: one
for a Var element, one per field for a Ctr element. -/
def patVars : RulePat → Nat
  | RulePat.var _ => 1
  | RulePat.ctr _ vs => vs.length

/-- Total variable count of a committed path. -/
def pathVarCount : List RulePat → Nat
  | [] => 0
  | p :: rest => patVars p + pathVarCount rest

/-- A term applied to k dispatcher variables starting at index lo. -/
def appXVars : Term → Nat → Nat → Term
  | t, _, 0 => t
  | t, lo, k + 1 => appXVars (Term.app t (Term.var (xName lo))) (lo + 1) k

/-- k lambdas binding the dispatcher variables from index lo up, outermost
first. -/
def lamXVars : Nat → Nat → Term → Term
  | _, 0, t => t
  | lo, k + 1, t => Term.lam (some (xName lo)) (lamXVars (lo + 1) k t)

/-- A term applied to one Reference per id, in order. -/
def appRefs (t : Term) (ids : List DefId) : Term :=
  ids.foldl (fun t i => Term.app t (Term.ref i)) t

/-- The dispatcher term asserted by (amended) claim C5: an outer lambda for
the scrutinee; inside it one lambda per variable slot of the committed
path; the body applies the scrutinee to the constructor case references in
declared order and then to the path variables. -/
def dispatcherSpec (subIds : List DefId) (matchPath : List RulePat) : Term :=
  Term.lam (some "x")
    (lamXVars 0 (pathVarCount matchPath)
      (appXVars (appRefs (Term.var "x") subIds) 0 (pathVarCount matchPath)))

theorem appXVars_add (k : Nat) : ∀ (t : Term) (c m : Nat),
    appXVars (appXVars t c k) (c + k) m = appXVars t c (k + m) := by
  induction k with
  | zero =>
    intro t c m
    rw [show c + 0 = c from rfl, show 0 + m = m by omega]
    rfl
  | succ k ih =>
    intro t c m
    rw [show c + (k + 1) = (c + 1) + k by omega]
    rw [show appXVars t c (k + 1) = appXVars (Term.app t (Term.var (xName c))) (c + 1) k
      from rfl]
    rw [ih]
    rw [show (k + 1) + m = (k + m) + 1 by omega]
    rfl

theorem lamXVars_add (k : Nat) : ∀ (t : Term) (lo m : Nat),
    lamXVars lo k (lamXVars (lo + k) m t) = lamXVars lo (k + m) t := by
  induction k with
  | zero =>
    intro t lo m
    rw [show lo + 0 = lo from rfl, show 0 + m = m by omega]
    rfl
  | succ k ih =>
    intro t lo m
    rw [show lamXVars lo (k + 1) (lamXVars (lo + (k + 1)) m t) =
      Term.lam (some (xName lo)) (lamXVars (lo + 1) k (lamXVars (lo + (k + 1)) m t))
      from rfl]
    rw [show lo + (k + 1) = (lo + 1) + k by omega]
    rw [ih]
    rw [show (k + 1) + m = (k + m) + 1 by omega]
    rfl

theorem inner_app_fold (vars : List RulePat) : ∀ (t : Term) (c : Nat),
    vars.foldl (fun (tc : Term × Nat) _ =>
      (Term.app tc.1 (Term.var (xName tc.2)), tc.2 + 1)) (t, c) =
    (appXVars t c vars.length, c + vars.length) := by
  induction vars with
  | nil => intro t c; rfl
  | cons v vs ih =>
    intro t c
    simp only [List.foldl_cons]
    rw [ih]
    simp only [Prod.mk.injEq, List.length_cons]
    constructor
    · rfl
    · omega

theorem inner_lam_fold (vars : List RulePat) : ∀ (t : Term) (d : Nat),
    vars.foldl (fun (tc : Term × Nat) _ =>
      (Term.lam (some (xName (tc.2 - 1))) tc.1, tc.2 - 1)) (t, d + vars.length) =
    (lamXVars d vars.length t, d) := by
  induction vars with
  | nil => intro t d; rfl
  | cons v vs ih =>
    intro t d
    simp only [List.foldl_cons, List.length_cons]
    have h1 : d + (vs.length + 1) - 1 = d + vs.length := by omega
    rw [h1, ih]
    have h2 : lamXVars d vs.length (Term.lam (some (xName (d + vs.length))) t) =
        lamXVars d (vs.length + 1) t := by
      have h3 : Term.lam (some (xName (d + vs.length))) t =
          lamXVars (d + vs.length) 1 t := rfl
      rw [h3, lamXVars_add]
    rw [h2]

theorem branch_app_fold (mp : List RulePat) : ∀ (t : Term) (c : Nat),
    mp.foldl (fun tc pat =>
      match pat with
      | RulePat.var _ => (Term.app tc.1 (Term.var (xName tc.2)), tc.2 + 1)
      | RulePat.ctr _ vars =>
        vars.foldl (fun (tc : Term × Nat) _ =>
          (Term.app tc.1 (Term.var (xName tc.2)), tc.2 + 1)) tc) (t, c) =
    (appXVars t c (pathVarCount mp), c + pathVarCount mp) := by
  induction mp with
  | nil => intro t c; rfl
  | cons p rest ih =>
    intro t c
    simp only [List.foldl_cons]
    cases p with
    | var v =>
      dsimp only
      rw [show (pathVarCount (RulePat.var v :: rest)) = pathVarCount rest + 1 by
        simp [pathVarCount, patVars]; omega]
      rw [ih]
      simp only [Prod.mk.injEq]
      refine ⟨by trivial, by omega⟩
    | ctr n vs =>
      dsimp only
      rw [inner_app_fold, ih, show pathVarCount (RulePat.ctr n vs :: rest) =
        vs.length + pathVarCount rest by simp [pathVarCount, patVars]]
      rw [appXVars_add]
      simp only [Prod.mk.injEq]
      refine ⟨by trivial, by omega⟩

theorem branch_lam_fold (mp : List RulePat) : ∀ (t : Term) (d : Nat),
    mp.foldl (fun tc pat =>
      match pat with
      | RulePat.var _ => (Term.lam (some (xName (tc.2 - 1))) tc.1, tc.2 - 1)
      | RulePat.ctr _ vars =>
        vars.foldl (fun (tc : Term × Nat) _ =>
          (Term.lam (some (xName (tc.2 - 1))) tc.1, tc.2 - 1)) tc) (t, d + pathVarCount mp) =
    (lamXVars d (pathVarCount mp) t, d) := by
  induction mp with
  | nil => intro t d; rfl
  | cons p rest ih =>
    intro t d
    simp only [List.foldl_cons]
    cases p with
    | var v =>
      dsimp only
      have hc : pathVarCount (RulePat.var v :: rest) = 1 + pathVarCount rest := by
        simp [pathVarCount, patVars]
      rw [hc]
      have h1 : d + (1 + pathVarCount rest) - 1 = d + pathVarCount rest := by omega
      rw [h1, ih]
      have h3 : Term.lam (some (xName (d + pathVarCount rest))) t =
          lamXVars (d + pathVarCount rest) 1 t := rfl
      rw [h3, lamXVars_add]
      rw [show pathVarCount rest + 1 = 1 + pathVarCount rest by omega]
    | ctr n vs =>
      dsimp only
      have hc : pathVarCount (RulePat.ctr n vs :: rest) = vs.length + pathVarCount rest := by
        simp [pathVarCount, patVars]
      rw [hc]
      rw [show d + (vs.length + pathVarCount rest) = (d + pathVarCount rest) + vs.length
        by omega]
      rw [inner_lam_fold, ih, lamXVars_add]
      rw [show pathVarCount rest + vs.length = vs.length + pathVarCount rest by omega]

theorem pathVarCount_append (l1 l2 : List RulePat) :
    pathVarCount (l1 ++ l2) = pathVarCount l1 + pathVarCount l2 := by
  induction l1 with
  | nil => simp [pathVarCount]
  | cons p rest ih => simp [pathVarCount, ih]; omega

theorem pathVarCount_reverse (l : List RulePat) :
    pathVarCount l.reverse = pathVarCount l := by
  induction l with
  | nil => rfl
  | cons p rest ih =>
    simp only [List.reverse_cons, pathVarCount_append, ih, pathVarCount]
    omega

theorem foldlM_sub_refs (b1 : Book) (crntName : Name) :
    ∀ (ctrs : List (Name × Nat)) (subIds : List DefId) (t : Term),
      ctrs.mapM (fun q => b1.idOfName (make_next_fn_name crntName q.1)) = some subIds →
      ctrs.foldlM (fun term (ctr : Name × Nat) => do
          let subId ← b1.idOfName (make_next_fn_name crntName ctr.1)
          some (Term.app term (Term.ref subId))) t = some (appRefs t subIds) := by
  intro ctrs
  induction ctrs with
  | nil =>
    intro subIds t h
    simp only [List.mapM_nil] at h
    injection h with h
    rw [← h]
    rfl
  | cons q rest ih =>
    intro subIds t h
    simp only [List.mapM_cons, Option.bind_eq_bind, Option.bind_eq_some, Option.pure_def,
      Option.some.injEq] at h
    obtain ⟨j, hj, js, hjs, heq⟩ := h
    simp only [List.foldlM_cons, hj, Option.bind_eq_bind, Option.some_bind]
    have ih' := ih js (Term.app t (Term.ref j)) hjs
    simp only [Option.bind_eq_bind] at ih'
    rw [ih', ← heq]
    rfl

/-- Claim C5 (amended): the term the branch builder installs under the
current name is an outermost lambda binding the scrutinee; inside it one
lambda per variable slot of the committed path in reverse order (one slot
per Var element, one per field of each Ctr element); the body applies the
scrutinee to a Reference to each constructor sub-function in the declared
constructor order and then to the path variables. -/
theorem claim_c5 {next : CaseCont} {book b1 : Book} {defType : List Ty}
    {defId : DefId} {crntName : Name} {crntRules : List Nat}
    {matchPath : List RulePat} {tn : Name} {ctrs : List (Name × Nat)}
    {subIds : List DefId}
    (hty : defType.get? matchPath.length = some (Ty.adt tn))
    (hctrs : assocLookup book.adts tn = some ctrs)
    (hb1 : make_branch_sub_cases next book defId crntName crntRules matchPath ctrs =
      some b1)
    (hids : ctrs.mapM (fun q => b1.idOfName (make_next_fn_name crntName q.1)) =
      some subIds) :
    make_branch_pattern_matching_case next book defType defId crntName crntRules
        matchPath =
      add_case_to_book b1 crntName (dispatcherSpec subIds matchPath) := by
  have hfold := foldlM_sub_refs b1 crntName ctrs subIds (Term.var "x") hids
  simp only [Option.bind_eq_bind] at hfold
  simp only [make_branch_pattern_matching_case, hty, Option.bind_eq_bind,
    Option.some_bind, hctrs, hb1, hfold]
  rw [branch_app_fold]
  rw [show (0 : Nat) + pathVarCount matchPath = 0 + pathVarCount matchPath.reverse by
    rw [pathVarCount_reverse]]
  rw [branch_lam_fold]
  simp only [dispatcherSpec, pathVarCount_reverse]

/-- Counterexample program for the literal reading of claim C5: ADT Pair
with one binary constructor P, ADT B2 with constructors N and C, and a
definition f matching P(h,t) at parameter 0 and then N or C at
parameter 1, so that the inner dispatcher for f$PP is built with the
committed path element Ctr P (two fields). -/
def pairBook : Book :=
  { defs := [(0, [{ pats := [], body := Term.era }]),
             (1, [{ pats := [], body := Term.era }]),
             (2, [{ pats := [], body := Term.era }]),
             (3, [{ pats := [RulePat.ctr "P" [RulePat.var "h", RulePat.var "t"],
                             RulePat.ctr "N" []], body := Term.ref 1 },
                  { pats := [RulePat.ctr "P" [RulePat.var "a", RulePat.var "b"],
                             RulePat.ctr "C" []], body := Term.ref 2 }])],
    defNames := [(0, "P"), (1, "N"), (2, "C"), (3, "f")],
    adts := [("Pair", [("P", 2)]), ("B2", [("N", 0), ("C", 0)])],
    fresh := 4 }

/-- TypeInfo for the counterexample program. -/
def pairTypes : List (DefId × List Ty) :=
  [(0, []), (1, []), (2, []), (3, [Ty.adt "Pair", Ty.adt "B2"])]

/-- The dispatcher the pass actually installs for f$PP: two path lambdas,
one per field of the committed Ctr P element. -/
def fPPActual : Term :=
  Term.lam (some "x") (Term.lam (some "x0") (Term.lam (some "x1")
    (Term.app
      (Term.app (Term.app (Term.app (Term.var "x") (Term.ref 6)) (Term.ref 7))
        (Term.var "x0"))
      (Term.var "x1"))))

/-- The dispatcher shape claim C5 literally asserts: one fresh variable per
already-committed path element, so a single path lambda for the single
committed element Ctr P. -/
def fPPOneVarPerElement : Term :=
  Term.lam (some "x") (Term.lam (some "x0")
    (Term.app (Term.app (Term.app (Term.var "x") (Term.ref 6)) (Term.ref 7))
      (Term.var "x0")))

/-- Counterexample to claim C5 as stated: on the pair program the term
installed under f$PP applies the scrutinee result to two fresh variables
for the single committed path element (one per constructor field) and
binds two path lambdas, so it differs from the one-variable-per-element
shape the claim asserts. -/
theorem claim_c5_counterexample :
    ∃ b, encode_pattern_matching_functions 10 pairBook pairTypes = some b ∧
      b.idOfName "f$PP" = some 8 ∧
      b.rulesOfId 8 = some [{ pats := [], body := fPPActual }] ∧
      fPPActual ≠ fPPOneVarPerElement :=
  ⟨_, rfl, rfl, rfl, by decide⟩

/-- The book reached after the branch builder has compiled both Bool
sub-functions of the not example (before the dispatcher is installed). -/
def notSubOut : Book :=
  { defs := [(0, [{ pats := [], body := bTrue }]),
             (1, [{ pats := [], body := bFalse }]),
             (2, [notMidRule0, notMidRule1]),
             (3, [{ pats := [], body := Term.ref 1 }]),
             (4, [{ pats := [], body := Term.ref 0 }]),
             (5, [{ pats := [], body := Term.ref 3 }]),
             (6, [{ pats := [], body := Term.ref 4 }])],
    defNames := [(0, "True"), (1, "False"), (2, "not"), (3, "not$R0"), (4, "not$R1"),
                 (5, "not$PTrue"), (6, "not$PFalse")],
    adts := [("Bool", [("True", 0), ("False", 0)])],
    fresh := 7 }

/-- Witness for (amended) claim C5 on the not example: the installed
dispatcher is exactly the spec shape for sub-ids [5, 6] and the empty
path. -/
theorem claim_c5_witness :
    [Ty.adt "Bool"].get? ([] : List RulePat).length = some (Ty.adt "Bool") ∧
    assocLookup notMid.adts "Bool" = some [("True", 0), ("False", 0)] ∧
    make_branch_sub_cases
        (fun b nm rs mp => make_pattern_matching_case 2 b [Ty.adt "Bool"] 2 nm rs mp)
        notMid 2 "not" [0, 1] [] [("True", 0), ("False", 0)] = some notSubOut ∧
    ([("True", 0), ("False", 0)] : List (Name × Nat)).mapM
        (fun q => notSubOut.idOfName (make_next_fn_name "not" q.1)) = some [5, 6] ∧
    make_branch_pattern_matching_case
        (fun b nm rs mp => make_pattern_matching_case 2 b [Ty.adt "Bool"] 2 nm rs mp)
        notMid [Ty.adt "Bool"] 2 "not" [0, 1] [] =
      add_case_to_book notSubOut "not" (dispatcherSpec [5, 6] []) :=
  ⟨rfl, rfl, rfl, rfl, claim_c5 rfl rfl rfl rfl⟩

/-! Claim C8: the generated-name grammar and its injectivity. -/

theorem digitChar_toNat : ∀ d, d < 10 → (digitChar d).toNat = 48 + d := by decide

theorem digitChar_ne_dollar : ∀ d, d < 10 → digitChar d ≠ '$' := by decide

theorem decDigitsAux_digits (fuel : Nat) : ∀ n c, c ∈ decDigitsAux fuel n →
    ∃ d, d < 10 ∧ c = digitChar d := by
  induction fuel with
  | zero => intro n c hc; simp [decDigitsAux] at hc
  | succ fuel ih =>
    intro n c hc
    simp only [decDigitsAux] at hc
    by_cases h : n < 10
    · rw [if_pos h] at hc
      simp only [List.mem_singleton] at hc
      exact ⟨n, h, hc⟩
    · rw [if_neg h] at hc
      rcases List.mem_append.mp hc with hc | hc
      · exact ih _ _ hc
      · simp only [List.mem_singleton] at hc
        exact ⟨n % 10, Nat.mod_lt _ (by omega), hc⟩

theorem decDigitsAux_ne_nil (fuel n : Nat) (h : n < fuel) :
    decDigitsAux fuel n ≠ [] := by
  cases fuel with
  | zero => omega
  | succ fuel =>
    simp only [decDigitsAux]
    by_cases h10 : n < 10
    · simp [h10]
    · simp [h10]

/-- Value of a most-significant-first digit string. -/
def digitsVal (l : List Char) : Nat :=
  l.foldl (fun a c => 10 * a + (c.toNat - 48)) 0

theorem digitsVal_append_one (l : List Char) (c : Char) :
    digitsVal (l ++ [c]) = 10 * digitsVal l + (c.toNat - 48) := by
  simp [digitsVal, List.foldl_append]

theorem decDigitsAux_val (fuel : Nat) : ∀ n, n < fuel →
    digitsVal (decDigitsAux fuel n) = n := by
  induction fuel with
  | zero => intro n h; omega
  | succ fuel ih =>
    intro n h
    simp only [decDigitsAux]
    by_cases h10 : n < 10
    · rw [if_pos h10]
      show 10 * 0 + ((digitChar n).toNat - 48) = n
      rw [digitChar_toNat n h10]
      omega
    · rw [if_neg h10]
      rw [digitsVal_append_one]
      rw [ih (n / 10) (by omega)]
      rw [digitChar_toNat (n % 10) (Nat.mod_lt _ (by omega))]
      omega

theorem natStr_inj {m n : Nat} (h : natStr m = natStr n) : m = n := by
  have hd : decDigitsAux (m + 1) m = decDigitsAux (n + 1) n := congrArg String.data h
  have hm := decDigitsAux_val (m + 1) m (Nat.lt_succ_self m)
  have hn := decDigitsAux_val (n + 1) n (Nat.lt_succ_self n)
  rw [← hm, ← hn, hd]

theorem natStr_digits {n : Nat} {c : Char} (hc : c ∈ (natStr n).data) :
    ∃ d, d < 10 ∧ c = digitChar d :=
  decDigitsAux_digits (n + 1) n c hc

theorem natStr_ne_dollar {n : Nat} {c : Char} (hc : c ∈ (natStr n).data) : c ≠ '$' := by
  obtain ⟨d, hd, rfl⟩ := natStr_digits hc
  exact digitChar_ne_dollar d hd

theorem dollar_split : ∀ (a : List Char) (b A B : List Char),
    (∀ c ∈ a, c ≠ '$') → (∀ c ∈ b, c ≠ '$') →
    (A = [] ∨ A.head? = some '$') → (B = [] ∨ B.head? = some '$') →
    a ++ A = b ++ B → a = b ∧ A = B := by
  intro a
  induction a with
  | nil =>
    intro b A B _ hb hA hB h
    cases b with
    | nil => exact ⟨rfl, h⟩
    | cons y b' =>
      simp only [List.nil_append, List.cons_append] at h
      rcases hA with hA | hA
      · rw [hA] at h
        exact absurd h (by simp)
      · rw [h] at hA
        simp only [List.head?] at hA
        injection hA with hA
        exact absurd hA (hb y (List.mem_cons_self _ _))
  | cons x a' ih =>
    intro b A B ha hb hA hB h
    cases b with
    | nil =>
      simp only [List.cons_append, List.nil_append] at h
      rcases hB with hB | hB
      · rw [hB] at h
        exact absurd h.symm (by simp)
      · rw [← h] at hB
        simp only [List.head?] at hB
        injection hB with hB
        exact absurd hB (ha x (List.mem_cons_self _ _))
    | cons y b' =>
      simp only [List.cons_append, List.cons.injEq] at h
      obtain ⟨hxy, h⟩ := h
      obtain ⟨h1, h2⟩ := ih b' A B (fun c hc => ha c (List.mem_cons_of_mem _ hc))
        (fun c hc => hb c (List.mem_cons_of_mem _ hc)) hA hB h
      exact ⟨by rw [hxy, h1], h2⟩

/-- A name contains no dollar character (source-language names; the dollar
is reserved for generated names). -/
def dollarFree (s : String) : Prop := ∀ c ∈ s.data, c ≠ '$'

/-- One recursion step of the driver extends the current name by one token:
by $P and the constructor name for a branch child, by $P alone for a
pass-through child. -/
def pathName (root : Name) : List (Option Name) → Name
  | [] => root
  | some c :: ts => pathName (make_next_fn_name root c) ts
  | none :: ts => pathName (root ++ "$P") ts

/-- The characters one token contributes. -/
def tokChars : Option Name → List Char
  | some c => '$' :: 'P' :: c.data
  | none => ['$', 'P']

/-- The characters a token list contributes. -/
def toksChars : List (Option Name) → List Char
  | [] => []
  | t :: ts => tokChars t ++ toksChars ts

/-- A well-formed token: a branch token carries a nonempty dollar-free
constructor name. -/
def tokOk : Option Name → Prop
  | some c => c.data ≠ [] ∧ ∀ ch ∈ c.data, ch ≠ '$'
  | none => True

theorem pathName_data : ∀ (ts : List (Option Name)) (root : Name),
    (pathName root ts).data = root.data ++ toksChars ts := by
  intro ts
  induction ts with
  | nil => intro root; simp [pathName, toksChars]
  | cons t ts ih =>
    intro root
    cases t with
    | some c =>
      rw [show pathName root (some c :: ts) = pathName (make_next_fn_name root c) ts
        from rfl]
      rw [ih, make_next_fn_name]
      simp only [String.data_append, toksChars, tokChars]
      simp [List.append_assoc]
    | none =>
      rw [show pathName root (none :: ts) = pathName (root ++ "$P") ts from rfl]
      rw [ih]
      simp only [String.data_append, toksChars, tokChars]
      simp [List.append_assoc]

theorem toksChars_head (ts : List (Option Name)) :
    toksChars ts = [] ∨ (toksChars ts).head? = some '$' := by
  cases ts with
  | nil => exact Or.inl rfl
  | cons t ts =>
    right
    cases t <;> rfl

theorem toksChars_inj : ∀ (ts ts' : List (Option Name)),
    (∀ t ∈ ts, tokOk t) → (∀ t ∈ ts', tokOk t) →
    toksChars ts = toksChars ts' → ts = ts' := by
  intro ts
  induction ts with
  | nil =>
    intro ts' _ _ h
    cases ts' with
    | nil => rfl
    | cons t' rest' =>
      exfalso
      cases t' <;> simp [toksChars, tokChars] at h
  | cons t rest ih =>
    intro ts' hok hok' h
    cases ts' with
    | nil =>
      exfalso
      cases t <;> simp [toksChars, tokChars] at h
    | cons t' rest' =>
      have hw : ∀ (u : Option Name), tokOk u → ∃ w, tokChars u = '$' :: 'P' :: w ∧
          (∀ ch ∈ w, ch ≠ '$') ∧ (u = none ↔ w = []) := by
        intro u hu
        cases u with
        | none => exact ⟨[], rfl, by simp, by simp⟩
        | some c =>
          refine ⟨c.data, rfl, hu.2, ?_⟩
          constructor
          · intro hc; exact absurd hc (by simp)
          · intro hc; exact absurd hc hu.1
      obtain ⟨w, hwc, hwd, hwn⟩ := hw t (hok t (List.mem_cons_self _ _))
      obtain ⟨w', hwc', hwd', hwn'⟩ := hw t' (hok' t' (List.mem_cons_self _ _))
      rw [show toksChars (t :: rest) = tokChars t ++ toksChars rest from rfl,
        show toksChars (t' :: rest') = tokChars t' ++ toksChars rest' from rfl,
        hwc, hwc'] at h
      simp only [List.cons_append, List.cons.injEq] at h
      obtain ⟨-, -, h⟩ := h
      obtain ⟨hww, hrr⟩ := dollar_split w w' (toksChars rest) (toksChars rest')
        hwd hwd' (toksChars_head rest) (toksChars_head rest') h
      have ht : t = t' := by
        cases t with
        | none =>
          cases t' with
          | none => rfl
          | some c' =>
            exfalso
            have hw0 : w = [] := hwn.mp rfl
            have hw0' : w' = [] := by rw [← hww, hw0]
            exact Option.noConfusion (hwn'.mpr hw0')
        | some c =>
          cases t' with
          | none =>
            exfalso
            have : w' = [] := hwn'.mp rfl
            rw [this] at hww
            exact Option.noConfusion (hwn.mpr hww)
          | some c' =>
            have hc : c.data = w := by
              have := hwc
              simp only [tokChars, List.cons.injEq] at this
              exact this.2.2
            have hc' : c'.data = w' := by
              have := hwc'
              simp only [tokChars, List.cons.injEq] at this
              exact this.2.2
            have : c = c' := String.ext (by rw [hc, hc', hww])
            rw [this]
      rw [ht, ih rest' (fun u hu => hok u (List.mem_cons_of_mem _ hu))
        (fun u hu => hok' u (List.mem_cons_of_mem _ hu)) hrr]

theorem make_rule_name_data (d : Name) (i : Nat) :
    (make_rule_name d i).data = d.data ++ '$' :: 'R' :: (natStr i).data := by
  simp [make_rule_name, String.data_append]

/-- Claim C8: the generated-name grammar (rule bodies named
name$R index, branch sub-functions parent$P constructor, pass-through
sub-functions parent$P), and its injectivity: with dollar-free source and
constructor names, distinct rule indices, distinct roots or distinct
branch/pass-through recursion paths always yield distinct generated names,
so no two distinct generation sites of one run share a name. -/
theorem claim_c8 :
    (∀ (d : Name) (i : Nat), make_rule_name d i = d ++ "$R" ++ natStr i) ∧
    (∀ (nm c : Name), make_next_fn_name nm c = nm ++ "$P" ++ c) ∧
    (∀ nm : Name, pathName nm [none] = nm ++ "$P") ∧
    (∀ (d d' : Name) (i i' : Nat), dollarFree d → dollarFree d' →
      make_rule_name d i = make_rule_name d' i' → d = d' ∧ i = i') ∧
    (∀ (root root' : Name) (ts ts' : List (Option Name)),
      dollarFree root → dollarFree root' →
      (∀ t ∈ ts, tokOk t) → (∀ t ∈ ts', tokOk t) →
      pathName root ts = pathName root' ts' → root = root' ∧ ts = ts') ∧
    (∀ (d root : Name) (i : Nat) (ts : List (Option Name)),
      dollarFree d → dollarFree root → ts ≠ [] → (∀ t ∈ ts, tokOk t) →
      make_rule_name d i ≠ pathName root ts) := by
  refine ⟨fun d i => rfl, fun nm c => rfl, fun nm => rfl, ?_, ?_, ?_⟩
  · intro d d' i i' hd hd' h
    have hdata := congrArg String.data h
    rw [make_rule_name_data, make_rule_name_data] at hdata
    obtain ⟨h1, h2⟩ := dollar_split d.data d'.data ('$' :: 'R' :: (natStr i).data)
      ('$' :: 'R' :: (natStr i').data) hd hd' (Or.inr rfl) (Or.inr rfl) hdata
    refine ⟨String.ext h1, ?_⟩
    simp only [List.cons.injEq] at h2
    exact natStr_inj (String.ext h2.2.2)
  · intro root root' ts ts' hr hr' hok hok' h
    have hdata := congrArg String.data h
    rw [pathName_data, pathName_data] at hdata
    obtain ⟨h1, h2⟩ := dollar_split root.data root'.data _ _ hr hr'
      (toksChars_head ts) (toksChars_head ts') hdata
    exact ⟨String.ext h1, toksChars_inj ts ts' hok hok' h2⟩
  · intro d root i ts hd hr hne hok h
    have hdata := congrArg String.data h
    rw [make_rule_name_data, pathName_data] at hdata
    obtain ⟨h1, h2⟩ := dollar_split d.data root.data ('$' :: 'R' :: (natStr i).data)
      (toksChars ts) hd hr (Or.inr rfl) (toksChars_head ts) hdata
    cases ts with
    | nil => exact hne rfl
    | cons t ts0 =>
      rw [show toksChars (t :: ts0) = tokChars t ++ toksChars ts0 from rfl] at h2
      cases t with
      | some c =>
        simp only [tokChars, List.cons_append, List.cons.injEq] at h2
        exact absurd h2.2.1 (by decide)
      | none =>
        simp only [tokChars, List.cons_append, List.cons.injEq] at h2
        exact absurd h2.2.1 (by decide)

/-- Witness for claim C8: concrete dollar-free names and tokens. -/
theorem claim_c8_witness :
    dollarFree "foo" ∧ (∀ t ∈ [some "Cons", none], tokOk t) ∧
    ("foo" = "foo" ∧ (11 : Nat) = 11) ∧
    ("foo" = "foo" ∧ [some "Cons", none] = ([some "Cons", none] : List (Option Name))) ∧
    make_rule_name "foo" 3 ≠ pathName "foo" [some "Cons", none] := by
  have hdf : dollarFree "foo" := by
    intro c hc
    fin_cases hc <;> decide
  have hok : ∀ t ∈ [some "Cons", none], tokOk t := by
    intro t ht
    fin_cases ht
    · exact ⟨by decide, by intro ch hch; fin_cases hch <;> decide⟩
    · trivial
  exact ⟨hdf, hok,
    (claim_c8.2.2.2.1 "foo" "foo" 11 11 hdf hdf rfl),
    (claim_c8.2.2.2.2.1 "foo" "foo" [some "Cons", none] [some "Cons", none]
      hdf hdf hok hok rfl),
    (claim_c8.2.2.2.2.2 "foo" "foo" 3 [some "Cons", none] hdf hdf (by simp) hok)⟩

/-! Claim C2: the output contract of the whole pass. -/

/-- The monotone part of the preservation facts, used across whole-pass
steps (which temporarily break the goodness of the processed entry). -/
structure PresE (b b' : Book) : Prop where
  names_ext : ∃ l, b'.defNames = b.defNames ++ l
  keys_ext : ∃ l, b'.defs.map (fun p => p.1) = b.defs.map (fun p => p.1) ++ l
  adts_eq : b'.adts = b.adts
  fresh_le : b.fresh ≤ b'.fresh
  new_names : ∀ p ∈ b'.defNames, p ∈ b.defNames ∨ b.fresh ≤ p.1
  wf_pres : b.wfc → b'.wfc

theorem presE_refl (b : Book) : PresE b b :=
  ⟨⟨[], by simp⟩, ⟨[], by simp⟩, rfl, Nat.le_refl _, fun p hp => Or.inl hp, fun h => h⟩

theorem presE_trans {b b' b'' : Book} (h1 : PresE b b') (h2 : PresE b' b'') :
    PresE b b'' := by
  refine ⟨?_, ?_, h2.adts_eq.trans h1.adts_eq, Nat.le_trans h1.fresh_le h2.fresh_le, ?_,
    fun h => h2.wf_pres (h1.wf_pres h)⟩
  · obtain ⟨l1, e1⟩ := h1.names_ext
    obtain ⟨l2, e2⟩ := h2.names_ext
    exact ⟨l1 ++ l2, by rw [e2, e1, List.append_assoc]⟩
  · obtain ⟨l1, e1⟩ := h1.keys_ext
    obtain ⟨l2, e2⟩ := h2.keys_ext
    exact ⟨l1 ++ l2, by rw [e2, e1, List.append_assoc]⟩
  · intro p hp
    rcases h2.new_names p hp with h | h
    · exact h1.new_names p h
    · exact Or.inr (Nat.le_trans h1.fresh_le h)

theorem pres_presE {nm : Name} {b b' : Book} (h : Pres nm b b') : PresE b b' :=
  ⟨h.names_ext, h.keys_ext, h.adts_eq, h.fresh_le, h.new_names, h.wf_pres⟩

theorem presE_setRules (b : Book) (i : DefId) (rs : List Rule) :
    PresE b (b.setRules i rs) :=
  ⟨⟨[], by simp [setRules_defNames]⟩, ⟨[], by simp [setRules_keys]⟩, rfl, Nat.le_refl _,
    fun p hp => Or.inl (by rwa [setRules_defNames] at hp),
    fun h => wfc_setRules h i rs⟩

theorem presE_insertDef (b : Book) (n : Name) (rs : List Rule) :
    PresE b (b.insertDef n rs) := by
  refine ⟨⟨[(b.fresh, n)], insertDef_defNames b n rs⟩, ⟨[b.fresh], insertDef_keys b n rs⟩,
    rfl, Nat.le_succ _, ?_, fun h => wfc_insertDef h n rs⟩
  intro p hp
  rw [insertDef_defNames, List.mem_append, List.mem_singleton] at hp
  rcases hp with hp | hp
  · exact Or.inl hp
  · exact Or.inr (by rw [hp])

theorem rulesOfId_insertDef_cases {b : Book} {n : Name} {nrs : List Rule} {i : DefId}
    {rs : List Rule} (h : (b.insertDef n nrs).rulesOfId i = some rs) :
    b.rulesOfId i = some rs ∨ rs = nrs := by
  rw [rulesOfId_insertDef] at h
  cases hb : b.rulesOfId i with
  | some w =>
    rw [hb] at h
    simp only [Option.or] at h
    exact Or.inl h
  | none =>
    rw [hb] at h
    simp only [Option.or] at h
    by_cases hf : b.fresh = i
    · rw [if_pos (beq_iff_eq.mpr hf)] at h
      injection h with h
      exact Or.inr h.symm
    · rw [if_neg (by simp [hf])] at h
      exact absurd h (by simp)

theorem foldl_insertDef_presE (defName : Name) :
    ∀ (l : List (Nat × Term)) (b : Book),
      PresE b (l.foldl (fun (bk : Book) p =>
        bk.insertDef (make_rule_name defName p.1) [{ pats := [], body := p.2 }]) b) := by
  intro l
  induction l with
  | nil => intro b; exact presE_refl b
  | cons p rest ih =>
    intro b
    simp only [List.foldl_cons]
    exact presE_trans (presE_insertDef b _ _) (ih _)

theorem foldl_insertDef_entries (defName : Name) :
    ∀ (l : List (Nat × Term)) (b : Book) (i : DefId) (rs : List Rule),
      (l.foldl (fun (bk : Book) p =>
        bk.insertDef (make_rule_name defName p.1)
          [{ pats := [], body := p.2 }]) b).rulesOfId i = some rs →
      b.rulesOfId i = some rs ∨ goodRules rs := by
  intro l
  induction l with
  | nil => intro b i rs h; exact Or.inl h
  | cons p rest ih =>
    intro b i rs h
    simp only [List.foldl_cons] at h
    rcases ih _ i rs h with h' | h'
    · rcases rulesOfId_insertDef_cases h' with h'' | h''
      · exact Or.inl h''
      · exact Or.inr ⟨p.2, h''⟩
    · exact Or.inr h'

theorem nameOfId_append_bound {book b : Book} {id : DefId} {n : Name}
    (hext : ∃ l, b.defNames = book.defNames ++ l)
    (hnew : ∀ p ∈ b.defNames, p ∈ book.defNames ∨ book.fresh ≤ p.1)
    (hid : id < book.fresh)
    (h : b.nameOfId id = some n) : (id, n) ∈ book.defNames := by
  obtain ⟨l, hl⟩ := hext
  simp only [Book.nameOfId, hl, assocLookup_append] at h
  cases hb : assocLookup book.defNames id with
  | some m =>
    rw [hb] at h
    simp only [Option.or] at h
    injection h with h
    rw [← h]
    exact assocLookup_mem hb
  | none =>
    rw [hb] at h
    simp only [Option.or] at h
    have hmem : (id, n) ∈ l := assocLookup_mem h
    have hmem' : (id, n) ∈ b.defNames := by
      rw [hl]
      exact List.mem_append_right _ hmem
    rcases hnew _ hmem' with hm | hm
    · exact hm
    · exfalso
      have hm' : book.fresh ≤ id := hm
      exact Nat.lt_irrefl id (Nat.lt_of_lt_of_le hid hm')

theorem find?_name_first : ∀ (l : List (DefId × Name)) (id : DefId) (nm : Name),
    (l.map (fun p => p.2)).Nodup → (id, nm) ∈ l →
    l.find? (fun p => p.2 == nm) = some (id, nm) := by
  intro l
  induction l with
  | nil => intro id nm _ hmem; simp at hmem
  | cons p rest ih =>
    intro id nm hnames hmem
    rw [List.find?_cons]
    by_cases hp : p.2 = nm
    · have : p = (id, nm) := by
        rcases List.mem_cons.mp hmem with h | h
        · exact h.symm
        · exfalso
          simp only [List.map_cons, List.nodup_cons] at hnames
          exact hnames.1 (hp ▸ List.mem_map.mpr ⟨(id, nm), h, rfl⟩)
      rw [beq_iff_eq.mpr hp, this]
    · have hbe : (p.2 == nm) = false := by simp [hp]
      rw [hbe]
      apply ih
      · simp only [List.map_cons, List.nodup_cons] at hnames
        exact hnames.2
      · rcases List.mem_cons.mp hmem with h | h
        · exact absurd (congrArg (fun q => Prod.snd q) h.symm) hp
        · exact h

theorem idOfName_first {book b : Book} {id : DefId} {nm : Name}
    (hext : ∃ l, b.defNames = book.defNames ++ l)
    (hnames : (book.defNames.map (fun p => p.2)).Nodup)
    (hmem : (id, nm) ∈ book.defNames) :
    b.idOfName nm = some id := by
  obtain ⟨l, hl⟩ := hext
  have hfind := find?_name_first book.defNames id nm hnames hmem
  simp only [Book.idOfName, hl, List.find?_append, hfind, Option.or]
  rfl

theorem make_pattern_matching_def_step {fuel : Nat} {b_t b_next : Book} {id : DefId}
    {ts : List Ty} (book : Book)
    (hnames : (book.defNames.map (fun p => p.2)).Nodup)
    (hext : ∃ l, b_t.defNames = book.defNames ++ l)
    (hnew : ∀ p ∈ b_t.defNames, p ∈ book.defNames ∨ book.fresh ≤ p.1)
    (hid : id < book.fresh)
    (hwf : b_t.wfc)
    (hstep : make_pattern_matching_def fuel b_t id ts = some b_next) :
    PresE b_t b_next ∧
    (∀ i rs, b_next.rulesOfId i = some rs →
      goodRules rs ∨ (b_t.rulesOfId i = some rs ∧ i ≠ id)) ∧
    (∃ rs, b_next.rulesOfId id = some rs ∧ goodRules rs) := by
  simp only [make_pattern_matching_def, Option.bind_eq_bind, Option.bind_eq_some] at hstep
  obtain ⟨defName, hdn, rules, hrules, ruleBodies, hrb, hdrv⟩ := hstep
  have hpres1 : PresE b_t (b_t.setRules id (rules.map (fun r => { r with body := Term.era }))) :=
    presE_setRules _ _ _
  have hpres2 := foldl_insertDef_presE defName ruleBodies.enum
    (b_t.setRules id (rules.map (fun r => { r with body := Term.era })))
  have hpres12 := presE_trans hpres1 hpres2
  have hpres3 := make_pattern_matching_case_pres fuel _ ts id defName
    (List.range rules.length) [] b_next hdrv
  have hpresAll : PresE b_t b_next := presE_trans hpres12 (pres_presE hpres3)
  have hwf2 := hpres12.wf_pres hwf
  obtain ⟨j, t, hj, hrj⟩ := make_pattern_matching_case_install hwf2 hdrv
  have hmemName : (id, defName) ∈ book.defNames :=
    nameOfId_append_bound hext hnew hid hdn
  have hextNext : ∃ l, b_next.defNames = book.defNames ++ l := by
    obtain ⟨l1, e1⟩ := hext
    obtain ⟨l2, e2⟩ := hpresAll.names_ext
    exact ⟨l1 ++ l2, by rw [e2, e1, List.append_assoc]⟩
  have hidOf : b_next.idOfName defName = some id := idOfName_first hextNext hnames hmemName
  have hj_id : j = id := by
    rw [hidOf] at hj
    injection hj with hj
    exact hj.symm
  refine ⟨hpresAll, ?_, ⟨_, hj_id ▸ hrj, ⟨t, rfl⟩⟩⟩
  intro i rs hi
  by_cases hii : i = id
  · subst hii
    left
    rw [hj_id] at hrj
    rw [hrj] at hi
    injection hi with hi
    exact ⟨t, hi.symm⟩
  · rcases hpres3.entries i rs hi with h2 | ⟨hg, _⟩
    · rcases foldl_insertDef_entries defName ruleBodies.enum _ i rs h2 with h1 | hg
      · rw [rulesOfId_setRules, if_neg hii] at h1
        exact Or.inr ⟨h1, hii⟩
      · exact Or.inl hg
    · exact Or.inl hg

theorem make_non_pattern_matching_def_step {b_t b_next : Book} {id : DefId}
    (hstep : make_non_pattern_matching_def b_t id = some b_next) :
    PresE b_t b_next ∧
    (∀ i rs, b_next.rulesOfId i = some rs →
      (b_t.rulesOfId i = some rs ∧ i ≠ id) ∨
      (∃ rules rule body, b_t.rulesOfId id = some rules ∧ rules.get? 0 = some rule ∧
        i = id ∧ rs = rules.set 0 { pats := [], body := body })) := by
  simp only [make_non_pattern_matching_def, Option.bind_eq_bind, Option.bind_eq_some] at hstep
  obtain ⟨rules, hrules, rule, hrule, body, hbody, hstep⟩ := hstep
  injection hstep with hstep
  subst hstep
  refine ⟨presE_setRules _ _ _, ?_⟩
  intro i rs hi
  rw [rulesOfId_setRules] at hi
  by_cases hii : i = id
  · rw [if_pos hii, hrules] at hi
    simp only [Option.map_some', Option.some.injEq] at hi
    exact Or.inr ⟨rules, rule, body, hrules, hrule, hii, hi.symm⟩
  · rw [if_neg hii] at hi
    exact Or.inl ⟨hi, hii⟩

theorem encode_loop_good (fuel : Nat) (book : Book) (defTypes : List (DefId × List Ty))
    (hnames : (book.defNames.map (fun p => p.2)).Nodup)
    (hsingle : ∀ i rs ts, book.rulesOfId i = some rs → assocLookup defTypes i = some ts →
      ts.any Ty.isAdtTy = false → rs.length = 1) :
    ∀ (L : List DefId) (b_t b' : Book),
      (∀ id ∈ L, id < book.fresh) →
      PresE book b_t →
      b_t.wfc →
      (∀ i rs, b_t.rulesOfId i = some rs →
        goodRules rs ∨ (book.rulesOfId i = some rs ∧ i ∈ L)) →
      L.foldlM (fun (book : Book) defId => do
          let defType ← assocLookup defTypes defId
          if defType.any Ty.isAdtTy then
            make_pattern_matching_def fuel book defId defType
          else
            make_non_pattern_matching_def book defId) b_t = some b' →
      ∀ i rs, b'.rulesOfId i = some rs → goodRules rs := by
  intro L
  induction L with
  | nil =>
    intro b_t b' _ _ _ hinv h
    simp only [List.foldlM_nil, Option.pure_def, Option.some.injEq] at h
    subst h
    intro i rs hi
    rcases hinv i rs hi with hg | ⟨_, hmem⟩
    · exact hg
    · exact absurd hmem (by simp)
  | cons id L' ih =>
    intro b_t b' hbound hpres hwf hinv h
    simp only [List.foldlM_cons, Option.bind_eq_bind, Option.bind_eq_some] at h
    obtain ⟨b_next, ⟨ts, hts, hstep⟩, h⟩ := h
    split at hstep
    · obtain ⟨hpE, hent, hgood⟩ := make_pattern_matching_def_step book hnames
        hpres.names_ext hpres.new_names (hbound id (List.mem_cons_self _ _)) hwf hstep
      apply ih b_next b' (fun j hj => hbound j (List.mem_cons_of_mem _ hj))
        (presE_trans hpres hpE) (hpE.wf_pres hwf) ?_ h
      intro i rs hi
      rcases hent i rs hi with hg | ⟨hunch, hne⟩
      · exact Or.inl hg
      · rcases hinv i rs hunch with hg | ⟨horig, hmem⟩
        · exact Or.inl hg
        · refine Or.inr ⟨horig, ?_⟩
          rcases List.mem_cons.mp hmem with h' | h'
          · exact absurd h' hne
          · exact h'
    · next hadt =>
      obtain ⟨hpE, hent⟩ := make_non_pattern_matching_def_step hstep
      apply ih b_next b' (fun j hj => hbound j (List.mem_cons_of_mem _ hj))
        (presE_trans hpres hpE) (hpE.wf_pres hwf) ?_ h
      intro i rs hi
      rcases hent i rs hi with ⟨hunch, hne⟩ | ⟨rules, rule, body, hrules, hrule, hii, hset⟩
      · rcases hinv i rs hunch with hg | ⟨horig, hmem⟩
        · exact Or.inl hg
        · refine Or.inr ⟨horig, ?_⟩
          rcases List.mem_cons.mp hmem with h' | h'
          · exact absurd h' hne
          · exact h'
      · subst hii
        left
        rcases hinv _ rules hrules with hg | ⟨horig, _⟩
        · obtain ⟨t0, ht0⟩ := hg
          subst ht0
          exact ⟨body, by rw [hset]; rfl⟩
        · have hlen := hsingle _ rules ts horig hts (by
            cases hq : ts.any Ty.isAdtTy
            · rfl
            · exact absurd hq hadt)
          obtain ⟨r0, hr0⟩ := List.length_eq_one.mp hlen
          subst hr0
          exact ⟨body, by rw [hset]; rfl⟩

/-- Claim C2: on an input program with a well-formed, name-unique table in
which every definition without an ADT-typed parameter has exactly one
rule, a successful run of the pass leaves every definition of the
resulting program (original and generated) with exactly one rule whose
pattern list is empty.  In this model a Term is built from exactly the
five primitives by construction, so no Pattern value remains anywhere in
the program. -/
theorem claim_c2 (fuel : Nat) (book : Book) (defTypes : List (DefId × List Ty))
    (b' : Book)
    (hwfc : book.wfc)
    (hnames : (book.defNames.map (fun p => p.2)).Nodup)
    (hsingle : ∀ i rs ts, book.rulesOfId i = some rs →
      assocLookup defTypes i = some ts → ts.any Ty.isAdtTy = false → rs.length = 1)
    (henc : encode_pattern_matching_functions fuel book defTypes = some b') :
    ∀ i rs, b'.rulesOfId i = some rs → ∃ t, rs = [{ pats := [], body := t }] := by
  rw [encode_pattern_matching_functions] at henc
  intro i rs hi
  exact encode_loop_good fuel book defTypes hnames hsingle
    (book.defs.map (fun p => p.1)) book b'
    (by
      intro id hid
      obtain ⟨p, hp, hpe⟩ := List.mem_map.mp hid
      rw [← hpe]
      exact hwfc.1 p hp)
    (presE_refl book) hwfc
    (by
      intro j rsj hj
      refine Or.inr ⟨hj, ?_⟩
      exact List.mem_map.mpr ⟨(j, rsj), assocLookup_mem hj, rfl⟩)
    henc i rs hi

/-- The full output book of the pass on the Bool/not example. -/
def notOut : Book :=
  { defs := [(0, [{ pats := [], body := bTrue }]),
             (1, [{ pats := [], body := bFalse }]),
             (2, [{ pats := [], body := notDispatch }]),
             (3, [{ pats := [], body := Term.ref 1 }]),
             (4, [{ pats := [], body := Term.ref 0 }]),
             (5, [{ pats := [], body := Term.ref 3 }]),
             (6, [{ pats := [], body := Term.ref 4 }])],
    defNames := [(0, "True"), (1, "False"), (2, "not"), (3, "not$R0"), (4, "not$R1"),
                 (5, "not$PTrue"), (6, "not$PFalse")],
    adts := [("Bool", [("True", 0), ("False", 0)])],
    fresh := 7 }

/-- Well-formedness of the example input book. -/
theorem notBook_wfc : notBook.wfc := by
  refine ⟨by decide, by decide, ?_⟩
  intro p hp
  fin_cases hp <;> exact ⟨_, rfl⟩

/-- Witness for claim C2 on the Bool/not example. -/
theorem claim_c2_witness :
    notBook.wfc ∧
    (notBook.defNames.map (fun p => p.2)).Nodup ∧
    encode_pattern_matching_functions 10 notBook notTypes = some notOut ∧
    ∀ i rs, notOut.rulesOfId i = some rs → ∃ t, rs = [{ pats := [], body := t }] := by
  have hsingle : ∀ i rs ts, notBook.rulesOfId i = some rs →
      assocLookup notTypes i = some ts → ts.any Ty.isAdtTy = false → rs.length = 1 := by
    intro i rs ts h1 h2 h3
    have hmem := assocLookup_mem h1
    fin_cases hmem
    · rfl
    · rfl
    · exfalso
      rw [show assocLookup notTypes 2 = some [Ty.adt "Bool"] from rfl] at h2
      injection h2 with h2
      rw [← h2] at h3
      simp [Ty.isAdtTy] at h3
  exact ⟨notBook_wfc, by decide, rfl,
    claim_c2 10 notBook notTypes notOut notBook_wfc (by decide) hsingle rfl⟩

/-! The input contract of the pass and the totality argument for claim C10:
head-constructor selections formalise exhaustiveness, a per-definition
context is shown stable under every elaboration step, and success of the
decision-tree driver follows by fuel induction. -/

/-- Patterns flattened to one level: every constructor pattern carries only
variable sub-patterns. -/
def patsOneLevel (r : Rule) : Prop :=
  ∀ p ∈ r.pats, (∃ v, p = RulePat.var v) ∨
    ∃ c vs, p = RulePat.ctr c vs ∧ ∀ q ∈ vs, ∃ v, q = RulePat.var v

/-- Pattern/type coherence: a constructor pattern occurs only at an
ADT-typed parameter position and names a declared constructor of that
ADT. -/
def patsTyped (adts : List (Name × List (Name × Nat))) (defType : List Ty)
    (r : Rule) : Prop :=
  ∀ j c vs, r.pats.get? j = some (RulePat.ctr c vs) →
    ∃ T ctrs, defType.get? j = some (Ty.adt T) ∧ assocLookup adts T = some ctrs ∧
      c ∈ ctrs.map (fun q => q.1)

/-- A head-constructor selection for the parameter list: one optional
constructor choice per parameter, naming a declared constructor of the
parameter's ADT at every ADT-typed position. -/
def HeadSel (adts : List (Name × List (Name × Nat))) (defType : List Ty)
    (σ : List (Option Name)) : Prop :=
  σ.length = defType.length ∧
  ∀ j T, defType.get? j = some (Ty.adt T) →
    ∃ ctrs c, assocLookup adts T = some ctrs ∧ σ.get? j = some (some c) ∧
      c ∈ ctrs.map (fun q => q.1)

/-- Compatibility of a pattern row with a head selection: every
constructor pattern of the row names the selected constructor at its
position. -/
def rowSel (ps : List RulePat) (σ : List (Option Name)) : Prop :=
  ∀ j c vs, ps.get? j = some (RulePat.ctr c vs) → σ.get? j = some (some c)

/-- Exhaustiveness of a rule list: every head selection is matched by some
rule. -/
def ExhaustiveDef (adts : List (Name × List (Name × Nat))) (defType : List Ty)
    (rs : List Rule) : Prop :=
  ∀ σ, HeadSel adts defType σ → ∃ i r, rs.get? i = some r ∧ rowSel r.pats σ

/-- The per-definition part of the input contract that stays fixed through
the driver recursion. -/
structure DefCtx (adts : List (Name × List (Name × Nat))) (defType : List Ty)
    (rs₀ : List Rule) : Prop where
  arity : ∀ r ∈ rs₀, r.pats.length = defType.length
  typed : ∀ r ∈ rs₀, patsTyped adts defType r
  adtsNE : ∀ j T, defType.get? j = some (Ty.adt T) →
    ∃ ctrs, assocLookup adts T = some ctrs ∧ ctrs ≠ []

/-- The book facts about the definition under elaboration that every
driver step preserves: well-formed tables, the fixed ADT table, the Era'd
rule list and the name of the definition, uniqueness of its name entry,
and resolvability of the extracted rule-body names and of every relevant
constructor name. -/
structure StableCtx (adts : List (Name × List (Name × Nat))) (defType : List Ty)
    (defId : DefId) (defName : Name) (rs₀ : List Rule) (book : Book) : Prop where
  wf : book.wfc
  adts_eq : book.adts = adts
  rules : book.rulesOfId defId = some rs₀
  name : book.nameOfId defId = some defName
  uniq : ∀ n, (defId, n) ∈ book.defNames → n = defName
  ruleNames : ∀ i, i < rs₀.length →
    ∃ ri, book.idOfName (make_rule_name defName i) = some ri
  ctrNames : ∀ j T ctrs, defType.get? j = some (Ty.adt T) →
    assocLookup adts T = some ctrs → ∀ q ∈ ctrs, ∃ ci, book.idOfName q.1 = some ci

theorem zip_get?_eq {α β : Type} :
    ∀ (l₁ : List α) (l₂ : List β) (n : Nat) (p : α × β),
      (l₁.zip l₂).get? n = some p → l₁.get? n = some p.1 ∧ l₂.get? n = some p.2 := by
  intro l₁
  induction l₁ with
  | nil => intro l₂ n p h; simp [List.zip] at h
  | cons a as ih =>
    intro l₂ n p h
    cases l₂ with
    | nil => simp [List.zip] at h
    | cons b bs =>
      cases n with
      | zero =>
        simp only [List.zip_cons_cons, List.get?] at h ⊢
        injection h with h
        rw [← h]
        exact ⟨rfl, rfl⟩
      | succ n =>
        simp only [List.zip_cons_cons, List.get?] at h ⊢
        exact ih bs n p h

theorem get?_concat_cases {α : Type} {l : List α} {e : α} {j : Nat} {x : α}
    (h : (l ++ [e]).get? j = some x) :
    l.get? j = some x ∨ (j = l.length ∧ x = e) := by
  by_cases hj : j < l.length
  · rw [List.get?_append hj] at h
    exact Or.inl h
  · right
    have hge : l.length ≤ j := Nat.le_of_not_lt hj
    rw [List.get?_append_right hge] at h
    cases hd : j - l.length with
    | zero =>
      rw [hd] at h
      injection h with h
      exact ⟨by omega, h.symm⟩
    | succ m =>
      rw [hd] at h
      simp at h

theorem mapM_isSome {α β : Type} (f : α → Option β) :
    ∀ (l : List α), (∀ a ∈ l, ∃ b, f a = some b) →
      ∃ bs, l.mapM f = some bs ∧ bs.length = l.length := by
  intro l
  induction l with
  | nil => intro _; exact ⟨[], rfl, rfl⟩
  | cons a as ih =>
    intro h
    obtain ⟨b, hb⟩ := h a (List.mem_cons_self _ _)
    obtain ⟨bs, hbs, hlen⟩ := ih (fun x hx => h x (List.mem_cons_of_mem _ hx))
    refine ⟨b :: bs, ?_, by simp [hlen]⟩
    simp only [List.mapM_cons, hb, hbs, Option.bind_eq_bind, Option.some_bind,
      Option.pure_def]

theorem mapM_length {α β : Type} (f : α → Option β) :
    ∀ (l : List α) (bs : List β), l.mapM f = some bs → bs.length = l.length := by
  intro l
  induction l with
  | nil =>
    intro bs h
    simp only [List.mapM_nil, Option.pure_def, Option.some.injEq] at h
    rw [← h]
    rfl
  | cons a as ih =>
    intro bs h
    simp only [List.mapM_cons, Option.bind_eq_bind, Option.bind_eq_some, Option.pure_def,
      Option.some.injEq] at h
    obtain ⟨b, hb, cs, hcs, heq⟩ := h
    rw [← heq]
    simp [ih cs hcs]

theorem stable_pres {adts : List (Name × List (Name × Nat))} {defType : List Ty}
    {defId : DefId} {defName : Name} {rs₀ : List Rule} {e : String} {b b' : Book}
    (hst : StableCtx adts defType defId defName rs₀ b)
    (hp : Pres (defName ++ e) b b') (he : e.data ≠ []) :
    StableCtx adts defType defId defName rs₀ b' := by
  have hidlt : defId < b.fresh := hst.wf.1 (defId, rs₀) (assocLookup_mem hst.rules)
  have huniq' : ∀ n, (defId, n) ∈ b'.defNames → n = defName := by
    intro n hmem
    rcases hp.new_names _ hmem with hm | hm
    · exact hst.uniq n hm
    · exact absurd (Nat.lt_of_lt_of_le hidlt hm) (Nat.lt_irrefl defId)
  refine
    { wf := hp.wf_pres hst.wf
      adts_eq := hp.adts_eq.trans hst.adts_eq
      name := nameOfId_mono hp.names_ext hst.name
      uniq := huniq'
      ruleNames := fun i hi =>
        (hst.ruleNames i hi).imp (fun ri hri => idOfName_mono hp.names_ext hri)
      ctrNames := fun j T ctrs hT hC q hq =>
        (hst.ctrNames j T ctrs hT hC q hq).imp
          (fun ci hci => idOfName_mono hp.names_ext hci)
      rules := ?_ }
  have hmemkeys : defId ∈ b'.defs.map (fun p => p.1) := by
    obtain ⟨l, hl⟩ := hp.keys_ext
    rw [hl]
    exact List.mem_append_left _
      (List.mem_map.mpr ⟨(defId, rs₀), assocLookup_mem hst.rules, rfl⟩)
  obtain ⟨q, hqmem, hq1⟩ := List.mem_map.mp hmemkeys
  obtain ⟨q1, q2⟩ := q
  have hq1' : q1 = defId := hq1
  subst hq1'
  obtain ⟨rs', hrs'⟩ := assocLookup_isSome_of_mem hqmem
  have hrs'' : b'.rulesOfId q1 = some rs' := hrs'
  rcases hp.entries q1 rs' hrs'' with hunch | ⟨_, n, s, hnmem, hn, _⟩
  · rw [hst.rules] at hunch
    injection hunch with hunch
    rw [hrs'', hunch]
  · exfalso
    have hnd : n = defName := huniq' n hnmem
    rw [hnd] at hn
    have hdata := congrArg String.data hn
    simp only [String.data_append] at hdata
    have hlen := congrArg List.length hdata
    simp only [List.length_append] at hlen
    have hze : e.data.length = 0 := by omega
    exact he (List.length_eq_zero.mp hze)

/-- First declared constructor of an ADT-typed parameter, if any. -/
def tyHeadCtr (adts : List (Name × List (Name × Nat))) : Ty → Option Name
  | Ty.any => none
  | Ty.adt T => (assocLookup adts T).bind (fun ctrs => ctrs.head?.map (fun q => q.1))

/-- Default choice of a head selection away from the committed path: the
given constructor at position k, else the first declared constructor of
the parameter's ADT. -/
def headSelDefault (adts : List (Name × List (Name × Nat))) (defType : List Ty)
    (k : Nat) (c : Name) (j : Nat) : Option Name :=
  if j = k then some c
  else (defType.get? j).bind (tyHeadCtr adts)

/-- The canonical head selection at one position: follow the committed
path's constructor if there is one, else the default choice. -/
def headSelAt (adts : List (Name × List (Name × Nat))) (defType : List Ty)
    (mp : List RulePat) (k : Nat) (c : Name) (j : Nat) : Option Name :=
  match mp.get? j with
  | some (RulePat.ctr n _) => some n
  | some (RulePat.var _) => headSelDefault adts defType k c j
  | none => headSelDefault adts defType k c j

/-- The canonical head selection for the whole parameter list. -/
def headSelFor (adts : List (Name × List (Name × Nat))) (defType : List Ty)
    (mp : List RulePat) (k : Nat) (c : Name) : List (Option Name) :=
  (List.range defType.length).map (headSelAt adts defType mp k c)

theorem headSelFor_get {adts : List (Name × List (Name × Nat))} {defType : List Ty}
    {mp : List RulePat} {k : Nat} {c : Name} {j : Nat} (hjlt : j < defType.length) :
    (headSelFor adts defType mp k c).get? j =
      some (headSelAt adts defType mp k c j) := by
  rw [headSelFor, List.get?_map, List.get?_range hjlt, Option.map_some']

theorem get?_some_lt {α : Type} {l : List α} {j : Nat} {x : α}
    (h : l.get? j = some x) : j < l.length := by
  by_contra hcon
  rw [List.get?_eq_none.mpr (Nat.le_of_not_lt hcon)] at h
  exact Option.noConfusion h

theorem headSelAt_ctr {adts : List (Name × List (Name × Nat))} {defType : List Ty}
    {mp : List RulePat} {k : Nat} {c : Name} {j : Nat} {n : Name} {vs : List RulePat}
    (hm : mp.get? j = some (RulePat.ctr n vs)) :
    headSelAt adts defType mp k c j = some n := by
  unfold headSelAt
  rw [hm]

theorem headSelAt_default {adts : List (Name × List (Name × Nat))} {defType : List Ty}
    {mp : List RulePat} {k : Nat} {c : Name} {j : Nat}
    (hnc : ∀ n vs, mp.get? j ≠ some (RulePat.ctr n vs)) :
    headSelAt adts defType mp k c j = headSelDefault adts defType k c j := by
  unfold headSelAt
  cases hm : mp.get? j with
  | none => rfl
  | some p =>
    cases p with
    | var v => rfl
    | ctr n vs => exact absurd hm (hnc n vs)

theorem headSelDefault_first {adts : List (Name × List (Name × Nat))}
    {defType : List Ty} {k : Nat} {c : Name} {j : Nat} {T : Name}
    {q : Name × Nat} {rest : List (Name × Nat)}
    (hjk : j ≠ k) (hT : defType.get? j = some (Ty.adt T))
    (hC : assocLookup adts T = some (q :: rest)) :
    headSelDefault adts defType k c j = some q.1 := by
  unfold headSelDefault
  rw [if_neg hjk, hT, Option.some_bind]
  simp only [tyHeadCtr, hC, Option.some_bind, List.head?, Option.map_some']

theorem headSelFor_valid {adts : List (Name × List (Name × Nat))} {defType : List Ty}
    {mp : List RulePat} {k : Nat} {c : Name}
    (hNE : ∀ j T, defType.get? j = some (Ty.adt T) →
      ∃ ctrs, assocLookup adts T = some ctrs ∧ ctrs ≠ [])
    (hpath : ∀ j n vs, mp.get? j = some (RulePat.ctr n vs) →
      ∃ T ctrs, defType.get? j = some (Ty.adt T) ∧ assocLookup adts T = some ctrs ∧
        n ∈ ctrs.map (fun q => q.1))
    (hk : mp.length ≤ k)
    (hkc : k < defType.length →
      ∃ T ctrs, defType.get? k = some (Ty.adt T) ∧ assocLookup adts T = some ctrs ∧
        c ∈ ctrs.map (fun q => q.1)) :
    HeadSel adts defType (headSelFor adts defType mp k c) ∧
    rowSel mp (headSelFor adts defType mp k c) ∧
    (k < defType.length →
      (headSelFor adts defType mp k c).get? k = some (some c)) := by
  have hnotc : ∀ j, mp.get? j = none ∨ (∃ v, mp.get? j = some (RulePat.var v)) →
      ∀ n vs, mp.get? j ≠ some (RulePat.ctr n vs) := by
    intro j hj n vs hcon
    rcases hj with hj | ⟨v, hj⟩
    · rw [hj] at hcon; exact Option.noConfusion hcon
    · rw [hj] at hcon
      exact RulePat.noConfusion (Option.some.inj hcon)
  have hdefault : ∀ j T, j ≠ k → defType.get? j = some (Ty.adt T) →
      ∃ ctrs c0, assocLookup adts T = some ctrs ∧
        headSelDefault adts defType k c j = some c0 ∧ c0 ∈ ctrs.map (fun q => q.1) := by
    intro j T hjk hT
    obtain ⟨ctrs, hC, hne⟩ := hNE j T hT
    obtain ⟨q, rest, hqr⟩ := List.exists_cons_of_ne_nil hne
    subst hqr
    exact ⟨q :: rest, q.1, hC, headSelDefault_first hjk hT hC,
      List.mem_map.mpr ⟨q, List.mem_cons_self _ _, rfl⟩⟩
  have hselk : ∀ j T, j = k → defType.get? j = some (Ty.adt T) → j < defType.length →
      ∃ ctrs c0, assocLookup adts T = some ctrs ∧
        headSelDefault adts defType k c j = some c0 ∧ c0 ∈ ctrs.map (fun q => q.1) := by
    intro j T hjk hT hjlt
    subst hjk
    obtain ⟨T', ctrs, hT', hC, hc⟩ := hkc hjlt
    rw [hT] at hT'
    injection hT' with hT'
    injection hT' with hT'
    subst hT'
    refine ⟨ctrs, c, hC, ?_, hc⟩
    unfold headSelDefault
    rw [if_pos rfl]
  refine ⟨⟨by simp [headSelFor], ?_⟩, ?_, ?_⟩
  · intro j T hT
    have hjlt : j < defType.length := get?_some_lt hT
    rw [headSelFor_get hjlt]
    cases hm : mp.get? j with
    | some p =>
      cases p with
      | ctr n vs =>
        obtain ⟨T', ctrs, hT', hC, hn⟩ := hpath j n vs hm
        rw [hT] at hT'
        injection hT' with hT'
        injection hT' with hT'
        subst hT'
        exact ⟨ctrs, n, hC, by rw [headSelAt_ctr hm], hn⟩
      | var v =>
        rw [headSelAt_default (hnotc j (Or.inr ⟨v, hm⟩))]
        by_cases hjk : j = k
        · obtain ⟨ctrs, c0, hC, hD, hc0⟩ := hselk j T hjk hT hjlt
          exact ⟨ctrs, c0, hC, by rw [hD], hc0⟩
        · obtain ⟨ctrs, c0, hC, hD, hc0⟩ := hdefault j T hjk hT
          exact ⟨ctrs, c0, hC, by rw [hD], hc0⟩
    | none =>
      rw [headSelAt_default (hnotc j (Or.inl hm))]
      by_cases hjk : j = k
      · obtain ⟨ctrs, c0, hC, hD, hc0⟩ := hselk j T hjk hT hjlt
        exact ⟨ctrs, c0, hC, by rw [hD], hc0⟩
      · obtain ⟨ctrs, c0, hC, hD, hc0⟩ := hdefault j T hjk hT
        exact ⟨ctrs, c0, hC, by rw [hD], hc0⟩
  · intro j n vs hm
    obtain ⟨T, ctrs, hT, _, _⟩ := hpath j n vs hm
    rw [headSelFor_get (get?_some_lt hT), headSelAt_ctr hm]
  · intro hklt
    have hmk : mp.get? k = none := List.get?_eq_none.mpr hk
    rw [headSelFor_get hklt, headSelAt_default (hnotc k (Or.inl hmk))]
    unfold headSelDefault
    rw [if_pos rfl]

theorem rowSel_append_elem {mp : List RulePat} {e : RulePat} {σ : List (Option Name)}
    (h : rowSel (mp ++ [e]) σ) : rowSel mp σ := by
  intro j n vs hj
  exact h j n vs (by rw [List.get?_append (get?_some_lt hj)]; exact hj)

theorem keepRule_of_sel {rs₀ : List Rule} {k : Nat} {c : Name} {i : Nat} {r : Rule}
    {σ : List (Option Name)}
    (hr : rs₀.get? i = some r) (hlen : k < r.pats.length)
    (hsel : rowSel r.pats σ) (hσk : σ.get? k = some (some c)) :
    keepRule rs₀ k c i = true := by
  obtain ⟨p, hp⟩ : ∃ p, r.pats.get? k = some p := ⟨_, List.get?_eq_get hlen⟩
  cases p with
  | var v =>
    unfold keepRule
    rw [hr, Option.some_bind, hp]
  | ctr n vs =>
    have hkeep : keepRule rs₀ k c i = (n == c) := by
      unfold keepRule
      rw [hr, Option.some_bind, hp]
    rw [hkeep]
    have h2 := hsel k n vs hp
    rw [hσk] at h2
    injection h2 with h2
    injection h2 with h2
    rw [← h2]
    exact beq_self_eq_true c

theorem exhaustive_branch_child {adts : List (Name × List (Name × Nat))}
    {defType : List Ty} {rs₀ : List Rule} {crntRules : List Nat}
    {mp : List RulePat} {c : Name} {a : Nat}
    (hAr : ∀ r ∈ rs₀, r.pats.length = defType.length)
    (hkA : mp.length < defType.length)
    (h10 : ∀ σ, HeadSel adts defType σ → rowSel mp σ →
      ∃ i ∈ crntRules, ∃ r, rs₀.get? i = some r ∧ rowSel r.pats σ) :
    ∀ σ, HeadSel adts defType σ →
      rowSel (mp ++ [RulePat.ctr c (List.replicate a (RulePat.var ""))]) σ →
      ∃ i ∈ crntRules.filter (keepRule rs₀ mp.length c), ∃ r,
        rs₀.get? i = some r ∧ rowSel r.pats σ := by
  intro σ hσ hps
  obtain ⟨i, hmem, r, hr, hsel⟩ := h10 σ hσ (rowSel_append_elem hps)
  have hσk : σ.get? mp.length = some (some c) :=
    hps mp.length c _ (by rw [List.get?_concat_length])
  have hlen : mp.length < r.pats.length := by
    rw [hAr r (List.get?_mem hr)]
    exact hkA
  exact ⟨i, List.mem_filter.mpr ⟨hmem, keepRule_of_sel hr hlen hsel hσk⟩, r, hr, hsel⟩

theorem leafAppStep_total (book : Book) :
    ∀ (l : List (RulePat × RulePat)),
      (∀ pr ∈ l,
        (∀ c vs, pr.1 = RulePat.ctr c vs → ∃ ci, book.idOfName c = some ci) ∧
        ∀ v c vs, pr.1 = RulePat.var v → pr.2 ≠ RulePat.ctr c vs) →
      ∀ tc, ∃ res, l.foldlM (leafAppStep book) tc = some res := by
  intro l
  induction l with
  | nil => intro _ tc; exact ⟨tc, rfl⟩
  | cons pr rest ih =>
    intro h tc
    obtain ⟨p, q⟩ := pr
    have hpr := h (p, q) (List.mem_cons_self _ _)
    have hrest := ih (fun x hx => h x (List.mem_cons_of_mem _ hx))
    cases p with
    | var v =>
      cases q with
      | var w =>
        obtain ⟨res, hres⟩ :=
          hrest (Term.app tc.1 (Term.var (xName tc.2)), tc.2 + 1)
        refine ⟨res, ?_⟩
        rw [List.foldlM_cons]
        show (leafAppStep book tc (RulePat.var v, RulePat.var w)).bind _ = some res
        rw [show leafAppStep book tc (RulePat.var v, RulePat.var w) =
          some (Term.app tc.1 (Term.var (xName tc.2)), tc.2 + 1) from rfl,
          Option.some_bind]
        exact hres
      | ctr c vs => exact absurd rfl (hpr.2 v c vs rfl)
    | ctr c vs =>
      cases q with
      | ctr c' vs' =>
        obtain ⟨res, hres⟩ := hrest
          (vs.foldl (fun (tc : Term × Nat) _ =>
            (Term.app tc.1 (Term.var (xName tc.2)), tc.2 + 1)) tc)
        refine ⟨res, ?_⟩
        rw [List.foldlM_cons]
        show (leafAppStep book tc (RulePat.ctr c vs, RulePat.ctr c' vs')).bind _ = some res
        rw [show leafAppStep book tc (RulePat.ctr c vs, RulePat.ctr c' vs') =
          some (vs.foldl (fun (tc : Term × Nat) _ =>
            (Term.app tc.1 (Term.var (xName tc.2)), tc.2 + 1)) tc) from rfl,
          Option.some_bind]
        exact hres
      | var w =>
        obtain ⟨ci, hci⟩ := hpr.1 c vs rfl
        obtain ⟨res, hres⟩ := hrest
          (Term.app tc.1
            (vs.foldl (fun (tc : Term × Nat) _ =>
              (Term.app tc.1 (Term.var (xName tc.2)), tc.2 + 1)) (Term.ref ci, tc.2)).1,
           (vs.foldl (fun (tc : Term × Nat) _ =>
              (Term.app tc.1 (Term.var (xName tc.2)), tc.2 + 1)) (Term.ref ci, tc.2)).2)
        refine ⟨res, ?_⟩
        rw [List.foldlM_cons]
        show (leafAppStep book tc (RulePat.ctr c vs, RulePat.var w)).bind _ = some res
        have hstep : leafAppStep book tc (RulePat.ctr c vs, RulePat.var w) =
            some (Term.app tc.1
              (vs.foldl (fun (tc : Term × Nat) _ =>
                (Term.app tc.1 (Term.var (xName tc.2)), tc.2 + 1)) (Term.ref ci, tc.2)).1,
             (vs.foldl (fun (tc : Term × Nat) _ =>
                (Term.app tc.1 (Term.var (xName tc.2)), tc.2 + 1)) (Term.ref ci, tc.2)).2) := by
          show (book.idOfName c).bind _ = _
          rw [hci, Option.some_bind]
        rw [hstep, Option.some_bind]
        exact hres

theorem make_leaf_total {book : Book} {defId : DefId} {crntName : Name}
    {ruleIdx : Nat} {matchPath : List RulePat} {defName : Name} {rules : List Rule}
    {rule : Rule} {ri : DefId}
    (hwf : book.wfc)
    (hdn : book.nameOfId defId = some defName)
    (hrid : book.idOfName (make_rule_name defName ruleIdx) = some ri)
    (hrules : book.rulesOfId defId = some rules)
    (hrule : rules.get? ruleIdx = some rule)
    (hctr : ∀ j c vs, matchPath.get? j = some (RulePat.ctr c vs) →
      ∃ ci, book.idOfName c = some ci)
    (hnomis : ∀ j v, matchPath.get? j = some (RulePat.var v) →
      ∀ c vs, rule.pats.get? j ≠ some (RulePat.ctr c vs)) :
    ∃ b', make_leaf_pattern_matching_case book defId crntName ruleIdx matchPath
      = some b' := by
  have hzip : ∀ pr ∈ matchPath.zip rule.pats,
      (∀ c vs, pr.1 = RulePat.ctr c vs → ∃ ci, book.idOfName c = some ci) ∧
      ∀ v c vs, pr.1 = RulePat.var v → pr.2 ≠ RulePat.ctr c vs := by
    intro pr hpr
    obtain ⟨j, hj⟩ := List.mem_iff_get?.mp hpr
    obtain ⟨h1, h2⟩ := zip_get?_eq matchPath rule.pats j pr hj
    constructor
    · intro c vs hc
      exact hctr j c vs (by rw [← hc]; exact h1)
    · intro v c vs hv hcon
      refine hnomis j v (by rw [← hv]; exact h1) c vs ?_
      rw [← hcon]
      exact h2
  obtain ⟨tc, htc⟩ := leafAppStep_total book (matchPath.zip rule.pats) hzip
    (Term.ref ri, 0)
  obtain ⟨b', hb'⟩ := add_case_total hwf crntName
    (matchPath.reverse.foldl leafLamStep tc).1
  refine ⟨b', ?_⟩
  simp only [make_leaf_pattern_matching_case, hdn, hrid, hrules, hrule,
    Option.bind_eq_bind, Option.some_bind, htc, hb']

theorem dollarP_suffix_ne_nil (sfx c : String) : (sfx ++ "$P" ++ c).data ≠ [] := by
  rw [String.data_append, String.data_append]
  intro hcon
  have h2 : ("$P").data = [] := (List.append_eq_nil.mp (List.append_eq_nil.mp hcon).1).2
  exact absurd h2 (by decide)

theorem dollarP_suffix2_ne_nil (sfx : String) : (sfx ++ "$P").data ≠ [] := by
  rw [String.data_append]
  intro hcon
  have h2 : ("$P").data = [] := (List.append_eq_nil.mp hcon).2
  exact absurd h2 (by decide)

theorem next_fn_name_assoc (defName sfx c : String) :
    make_next_fn_name (defName ++ sfx) c = defName ++ (sfx ++ "$P" ++ c) := by
  apply String.ext
  simp [make_next_fn_name, String.data_append, List.append_assoc]

theorem make_branch_total {next : CaseCont} {book : Book} {defType : List Ty}
    {defId : DefId} {crntName : Name} {crntRules : List Nat} {mp : List RulePat}
    {T : Name} {ctrs : List (Name × Nat)} {b1 : Book}
    (hTy : defType.get? mp.length = some (Ty.adt T))
    (hCtrs : assocLookup book.adts T = some ctrs)
    (hsub : make_branch_sub_cases next book defId crntName crntRules mp ctrs = some b1)
    (hres : ∀ q ∈ ctrs, ∃ j, b1.idOfName (make_next_fn_name crntName q.1) = some j)
    (hwf1 : b1.wfc) :
    ∃ b', make_branch_pattern_matching_case next book defType defId crntName
      crntRules mp = some b' := by
  obtain ⟨subIds, hmapm, _⟩ := mapM_isSome
    (fun q => b1.idOfName (make_next_fn_name crntName q.1)) ctrs hres
  have hfold := foldlM_sub_refs b1 crntName ctrs subIds (Term.var "x") hmapm
  simp only [Option.bind_eq_bind] at hfold
  simp only [make_branch_pattern_matching_case, hTy, hCtrs, hsub, hfold,
    Option.bind_eq_bind, Option.some_bind]
  exact add_case_total hwf1 crntName _

theorem make_non_case_total {next : CaseCont} {book b1 : Book} {crntName : Name}
    {crntRules : List Nat} {mp : List RulePat} {nid : DefId}
    (hnext : next book (crntName ++ "$P") crntRules (mp ++ [RulePat.var "x"]) = some b1)
    (hnid : b1.idOfName (crntName ++ "$P") = some nid)
    (hwf1 : b1.wfc) :
    ∃ b', make_non_pattern_matching_case next book crntName crntRules mp = some b' := by
  obtain ⟨b', hb'⟩ := add_case_total hwf1 crntName
    (Term.lam (some "x") (Term.lam (some "nxt")
      (Term.app (Term.app (Term.ref nid) (Term.var "nxt")) (Term.var "x"))))
  refine ⟨b', ?_⟩
  simp only [make_non_pattern_matching_case, hnext, hnid, Option.bind_eq_bind,
    Option.some_bind]
  exact hb'

theorem make_pattern_matching_case_total
    {adts : List (Name × List (Name × Nat))} {defType : List Ty} {defId : DefId}
    {defName : Name} {rs₀ : List Rule} (hdc : DefCtx adts defType rs₀) :
    ∀ (fuel : Nat) (book : Book) (sfx : Name) (crntRules : List Nat)
      (matchPath : List RulePat),
      StableCtx adts defType defId defName rs₀ book →
      (∀ i ∈ crntRules, i < rs₀.length) →
      matchPath.length ≤ defType.length →
      defType.length < fuel + matchPath.length →
      (∀ j n vs, matchPath.get? j = some (RulePat.ctr n vs) →
        ∃ T ctrs, defType.get? j = some (Ty.adt T) ∧ assocLookup adts T = some ctrs ∧
          n ∈ ctrs.map (fun q => q.1)) →
      (∀ i ∈ crntRules, ∀ r, rs₀.get? i = some r →
        ∀ j v, matchPath.get? j = some (RulePat.var v) →
          ∃ v', r.pats.get? j = some (RulePat.var v')) →
      (∀ σ, HeadSel adts defType σ → rowSel matchPath σ →
        ∃ i ∈ crntRules, ∃ r, rs₀.get? i = some r ∧ rowSel r.pats σ) →
      ∃ b', make_pattern_matching_case fuel book defType defId (defName ++ sfx)
        crntRules matchPath = some b' := by
  intro fuel
  induction fuel with
  | zero =>
    intro book sfx crntRules mp hst h5 hk hfuel h9 h15 h10
    exfalso
    omega
  | succ fuel ih =>
    intro book sfx crntRules mp hst h5 hk hfuel h9 h15 h10
    have hvalidσ := @headSelFor_valid adts defType mp defType.length ""
      hdc.adtsNE h9 hk (fun hcon => absurd hcon (Nat.lt_irrefl _))
    obtain ⟨iw, hiwmem, rw0, hrw0, hselw⟩ := h10 _ hvalidσ.1 hvalidσ.2.1
    obtain ⟨i0, rest0, hcr⟩ := List.exists_cons_of_ne_nil (List.ne_nil_of_mem hiwmem)
    subst hcr
    have hi0mem : i0 ∈ i0 :: rest0 := List.mem_cons_self _ _
    have hi0lt := h5 i0 hi0mem
    obtain ⟨fstRule, hfst⟩ : ∃ r, rs₀.get? i0 = some r := ⟨_, List.get?_eq_get hi0lt⟩
    have hfstmem : fstRule ∈ rs₀ := List.get?_mem hfst
    have hfstA : fstRule.pats.length = defType.length := hdc.arity _ hfstmem
    simp only [make_pattern_matching_case, Option.bind_eq_bind]
    rw [hst.rules, Option.some_bind,
      show (i0 :: rest0).get? 0 = some i0 from rfl, Option.some_bind,
      hfst, Option.some_bind]
    by_cases hleaf :
      (decide (fstRule.arity ≤ mp.length) ||
        (fstRule.pats.drop mp.length).all RulePat.isVarPat) = true
    · rw [if_pos hleaf]
      obtain ⟨ri, hri⟩ := hst.ruleNames i0 hi0lt
      apply make_leaf_total hst.wf hst.name hri hst.rules hfst
      · intro j c vs hj
        obtain ⟨T, ctrs, hT, hC, hc⟩ := h9 j c vs hj
        obtain ⟨q, hqmem, hq1⟩ := List.mem_map.mp hc
        obtain ⟨ci, hci⟩ := hst.ctrNames j T ctrs hT hC q hqmem
        exact ⟨ci, by rw [← hq1]; exact hci⟩
      · intro j v hj c vs hcon
        obtain ⟨v', hv'⟩ := h15 i0 hi0mem fstRule hfst j v hj
        rw [hv'] at hcon
        injection hcon with hcon
        exact RulePat.noConfusion hcon
    · rw [if_neg hleaf]
      have hkA : mp.length < defType.length := by
        rcases Nat.lt_or_ge mp.length fstRule.arity with h | h
        · rw [← hfstA]
          exact h
        · exfalso
          apply hleaf
          rw [Bool.or_eq_true, decide_eq_true_iff]
          exact Or.inl h
      have hvalid : ∀ i ∈ (i0 :: rest0),
          ∃ r, rs₀.get? i = some r ∧ mp.length < r.pats.length := by
        intro i hi
        obtain ⟨r, hr⟩ : ∃ r, rs₀.get? i = some r := ⟨_, List.get?_eq_get (h5 i hi)⟩
        refine ⟨r, hr, ?_⟩
        rw [hdc.arity r (List.get?_mem hr)]
        exact hkA
      obtain ⟨bv, hbv, hbviff⟩ := any_ctr_at_spec rs₀ mp.length (i0 :: rest0) hvalid
      rw [hbv, Option.some_bind]
      have hnextPres : ∀ b nm' rs' mp' b'',
          make_pattern_matching_case fuel b defType defId nm' rs' mp' = some b'' →
          Pres nm' b b'' := fun b nm' rs' mp' b'' hb =>
        make_pattern_matching_case_pres fuel b defType defId nm' rs' mp' b'' hb
      by_cases hbr : bv = true
      · rw [if_pos hbr]
        obtain ⟨ib, hibmem, rb, hrb, cb, vsb, hpb⟩ := hbviff.mp hbr
        obtain ⟨T, ctrs, hTy, hCtrs, _⟩ :=
          hdc.typed rb (List.get?_mem hrb) mp.length cb vsb hpb
        have hsub : ∀ (todo : List (Name × Nat)), (∀ q ∈ todo, q ∈ ctrs) →
            ∀ b, StableCtx adts defType defId defName rs₀ b →
            ∃ b1, make_branch_sub_cases
              (fun book nm rs mp =>
                make_pattern_matching_case fuel book defType defId nm rs mp)
              b defId (defName ++ sfx) (i0 :: rest0) mp todo = some b1 ∧
              StableCtx adts defType defId defName rs₀ b1 := by
          intro todo
          induction todo with
          | nil =>
            intro _ b hstb
            exact ⟨b, rfl, hstb⟩
          | cons q todoRest ihq =>
            intro hqmem b hstb
            obtain ⟨c, a⟩ := q
            have hcmem : (c, a) ∈ ctrs := hqmem _ (List.mem_cons_self _ _)
            have hfilter := filter_rules_spec rs₀ mp.length c (i0 :: rest0) hvalid
            have h9' : ∀ j n vs,
                (mp ++ [RulePat.ctr c (List.replicate a (RulePat.var ""))]).get? j =
                  some (RulePat.ctr n vs) →
                ∃ T' ctrs', defType.get? j = some (Ty.adt T') ∧
                  assocLookup adts T' = some ctrs' ∧ n ∈ ctrs'.map (fun q => q.1) := by
              intro j n vs hj
              rcases get?_concat_cases hj with hj' | ⟨hjlen, helem⟩
              · exact h9 j n vs hj'
              · subst hjlen
                injection helem with hn hvs
                refine ⟨T, ctrs, hTy, hCtrs, ?_⟩
                rw [hn]
                exact List.mem_map.mpr ⟨(c, a), hcmem, rfl⟩
            have h15' : ∀ i ∈ (i0 :: rest0).filter (keepRule rs₀ mp.length c),
                ∀ r, rs₀.get? i = some r →
                ∀ j v, (mp ++ [RulePat.ctr c (List.replicate a (RulePat.var ""))]).get? j =
                  some (RulePat.var v) →
                ∃ v', r.pats.get? j = some (RulePat.var v') := by
              intro i hi r hr j v hj
              rcases get?_concat_cases hj with hj' | ⟨hjlen, helem⟩
              · exact h15 i (List.mem_filter.mp hi).1 r hr j v hj'
              · exact RulePat.noConfusion helem
            obtain ⟨bc, hbc⟩ := ih b (sfx ++ "$P" ++ c)
              ((i0 :: rest0).filter (keepRule rs₀ mp.length c))
              (mp ++ [RulePat.ctr c (List.replicate a (RulePat.var ""))])
              hstb
              (fun i hi => h5 i (List.mem_filter.mp hi).1)
              (by rw [List.length_append]; simp only [List.length_singleton]; omega)
              (by rw [List.length_append]; simp only [List.length_singleton]; omega)
              h9' h15'
              (@exhaustive_branch_child adts defType rs₀ (i0 :: rest0) mp c a
                hdc.arity hkA h10)
            rw [← next_fn_name_assoc defName sfx c] at hbc
            have hpresc : Pres (make_next_fn_name (defName ++ sfx) c) b bc :=
              make_pattern_matching_case_pres fuel _ _ _ _ _ _ _ hbc
            have hstc : StableCtx adts defType defId defName rs₀ bc :=
              stable_pres hstb
                (by rw [next_fn_name_assoc defName sfx c] at hpresc; exact hpresc)
                (dollarP_suffix_ne_nil sfx c)
            obtain ⟨b1, hrest, hst1⟩ :=
              ihq (fun q hq => hqmem q (List.mem_cons_of_mem _ hq)) bc hstc
            refine ⟨b1, ?_, hst1⟩
            simp only [make_branch_sub_cases, Option.bind_eq_bind]
            rw [hstb.rules, Option.some_bind, hfilter, Option.some_bind]
            show (make_pattern_matching_case fuel b defType defId
              (make_next_fn_name (defName ++ sfx) c)
              ((i0 :: rest0).filter (keepRule rs₀ mp.length c))
              (mp ++ [RulePat.ctr c (List.replicate a (RulePat.var ""))])).bind _ = some b1
            rw [hbc, Option.some_bind]
            exact hrest
        obtain ⟨b1, hsubeq, hst1⟩ := hsub ctrs (fun q hq => hq) book hst
        have hinstalls := make_branch_sub_cases_installs hnextPres
          (fun b nm rs mp b'' hw hb => make_pattern_matching_case_install hw hb)
          ctrs hst.wf hsubeq
        exact make_branch_total hTy (by rw [hst.adts_eq]; exact hCtrs) hsubeq
          hinstalls hst1.wf
      · rw [if_neg hbr]
        have hbfalse : bv = false := by
          cases bv
          · rfl
          · exact absurd rfl hbr
        have hnoctr : ¬ branchCondition rs₀ (i0 :: rest0) mp.length := by
          intro hcon
          rw [← hbviff] at hcon
          rw [hbfalse] at hcon
          exact Bool.noConfusion hcon
        have h15' : ∀ i ∈ (i0 :: rest0), ∀ r, rs₀.get? i = some r →
            ∀ j v, (mp ++ [RulePat.var "x"]).get? j = some (RulePat.var v) →
            ∃ v', r.pats.get? j = some (RulePat.var v') := by
          intro i hi r hr j v hj
          rcases get?_concat_cases hj with hj' | ⟨hjlen, _⟩
          · exact h15 i hi r hr j v hj'
          · subst hjlen
            obtain ⟨r', hr', hlen'⟩ := hvalid i hi
            rw [hr] at hr'
            injection hr' with hr'
            subst hr'
            obtain ⟨p, hp⟩ : ∃ p, r.pats.get? mp.length = some p :=
              ⟨_, List.get?_eq_get hlen'⟩
            cases p with
            | var v' => exact ⟨v', hp⟩
            | ctr n vs =>
              exact absurd ⟨i, hi, r, hr, n, vs, hp⟩ hnoctr
        have h9' : ∀ j n vs, (mp ++ [RulePat.var "x"]).get? j = some (RulePat.ctr n vs) →
            ∃ T ctrs, defType.get? j = some (Ty.adt T) ∧ assocLookup adts T = some ctrs ∧
              n ∈ ctrs.map (fun q => q.1) := by
          intro j n vs hj
          rcases get?_concat_cases hj with hj' | ⟨_, helem⟩
          · exact h9 j n vs hj'
          · exact RulePat.noConfusion helem
        have h10' : ∀ σ, HeadSel adts defType σ → rowSel (mp ++ [RulePat.var "x"]) σ →
            ∃ i ∈ (i0 :: rest0), ∃ r, rs₀.get? i = some r ∧ rowSel r.pats σ :=
          fun σ hσ hps => h10 σ hσ (rowSel_append_elem hps)
        obtain ⟨bc, hbc⟩ := ih book (sfx ++ "$P") (i0 :: rest0) (mp ++ [RulePat.var "x"])
          hst h5
          (by rw [List.length_append]; simp only [List.length_singleton]; omega)
          (by rw [List.length_append]; simp only [List.length_singleton]; omega)
          h9' h15' h10'
        rw [show defName ++ (sfx ++ "$P") = (defName ++ sfx) ++ "$P" from
          (String.append_assoc defName sfx "$P").symm] at hbc
        obtain ⟨nid, t, hnid, _⟩ := make_pattern_matching_case_install hst.wf hbc
        have hwfc : bc.wfc :=
          (make_pattern_matching_case_pres fuel _ _ _ _ _ _ _ hbc).wf_pres hst.wf
        exact make_non_case_total hbc hnid hwfc

theorem foldrM_varLamStep_total :
    ∀ (pats : List RulePat), (∀ p ∈ pats, ∃ v, p = RulePat.var v) →
      ∀ b, ∃ t, pats.foldrM varLamStep b = some t := by
  intro pats
  induction pats with
  | nil => intro _ b; exact ⟨b, rfl⟩
  | cons p ps ih =>
    intro h b
    obtain ⟨t', ht'⟩ := ih (fun x hx => h x (List.mem_cons_of_mem _ hx)) b
    obtain ⟨v, hv⟩ := h p (List.mem_cons_self _ _)
    subst hv
    refine ⟨Term.lam (some v) t', ?_⟩
    rw [List.foldrM_cons, ht']
    rfl

theorem make_rule_body_total :
    ∀ (pats : List RulePat),
      (∀ p ∈ pats, (∃ v, p = RulePat.var v) ∨
        ∃ c vs, p = RulePat.ctr c vs ∧ ∀ q ∈ vs, ∃ v, q = RulePat.var v) →
      ∀ body, ∃ t, make_rule_body body pats = some t := by
  intro pats
  induction pats with
  | nil => intro _ body; exact ⟨body, rfl⟩
  | cons p ps ih =>
    intro h body
    obtain ⟨t', ht'⟩ := ih (fun x hx => h x (List.mem_cons_of_mem _ hx)) body
    rw [make_rule_body] at ht'
    rcases h p (List.mem_cons_self _ _) with ⟨v, hv⟩ | ⟨c, vs, hc, hvs⟩
    · subst hv
      refine ⟨Term.lam (some v) t', ?_⟩
      rw [make_rule_body, List.foldrM_cons, ht']
      rfl
    · subst hc
      obtain ⟨t'', ht''⟩ := foldrM_varLamStep_total vs hvs t'
      refine ⟨t'', ?_⟩
      rw [make_rule_body, List.foldrM_cons, ht']
      show vs.foldrM varLamStep t' = some t''
      exact ht''

theorem make_non_pattern_matching_def_total {book : Book} {defId : DefId}
    {rules : List Rule} {r0 : Rule}
    (hrules : book.rulesOfId defId = some rules) (hr0 : rules.get? 0 = some r0)
    (hvars : ∀ p ∈ r0.pats, ∃ v, p = RulePat.var v) :
    ∃ b', make_non_pattern_matching_def book defId = some b' := by
  obtain ⟨t, ht⟩ := foldrM_varLamStep_total r0.pats hvars r0.body
  refine ⟨book.setRules defId (rules.set 0 { pats := [], body := t }), ?_⟩
  simp only [make_non_pattern_matching_def, hrules, hr0, ht, Option.bind_eq_bind,
    Option.some_bind]

theorem foldl_insertDef_rules_mono (defName : Name) :
    ∀ (l : List (Nat × Term)) (b : Book) {i : DefId} {rs : List Rule},
      b.rulesOfId i = some rs →
      (l.foldl (fun (bk : Book) p =>
        bk.insertDef (make_rule_name defName p.1)
          [{ pats := [], body := p.2 }]) b).rulesOfId i = some rs := by
  intro l
  induction l with
  | nil => intro b i rs h; exact h
  | cons p rest ihl =>
    intro b i rs h
    simp only [List.foldl_cons]
    apply ihl
    rw [rulesOfId_insertDef, h]
    rfl

theorem foldl_insertDef_rules_keep (defName : Name) :
    ∀ (l : List (Nat × Term)) (b : Book) {i : DefId} {rs' : List Rule},
      i < b.fresh →
      (l.foldl (fun (bk : Book) p =>
        bk.insertDef (make_rule_name defName p.1)
          [{ pats := [], body := p.2 }]) b).rulesOfId i = some rs' →
      b.rulesOfId i = some rs' := by
  intro l
  induction l with
  | nil => intro b i rs' _ h; exact h
  | cons p rest ihl =>
    intro b i rs' hlt h
    simp only [List.foldl_cons] at h
    have h2 := ihl _ (by rw [insertDef_fresh]; exact Nat.lt_succ_of_lt hlt) h
    rw [rulesOfId_insertDef] at h2
    cases hb : b.rulesOfId i with
    | some w =>
      rw [hb] at h2
      simp only [Option.or] at h2
      exact h2
    | none =>
      rw [hb] at h2
      simp only [Option.or] at h2
      by_cases hf : b.fresh = i
      · exfalso
        rw [hf] at hlt
        exact Nat.lt_irrefl i hlt
      · rw [if_neg (by simp [hf])] at h2
        exact Option.noConfusion h2

theorem foldl_insertDef_registers (defName : Name) :
    ∀ (l : List (Nat × Term)) (b : Book) (p : Nat × Term), p ∈ l →
      ∃ j, (l.foldl (fun (bk : Book) q =>
        bk.insertDef (make_rule_name defName q.1)
          [{ pats := [], body := q.2 }]) b).idOfName
        (make_rule_name defName p.1) = some j := by
  intro l
  induction l with
  | nil => intro b p hp; exact absurd hp (by simp)
  | cons q rest ihl =>
    intro b p hp
    rcases List.mem_cons.mp hp with hp | hp
    · subst hp
      have hreg : ∃ j, (b.insertDef (make_rule_name defName p.1)
          [{ pats := [], body := p.2 }]).idOfName (make_rule_name defName p.1)
          = some j := by
        rw [idOfName_insertDef]
        cases hb : b.idOfName (make_rule_name defName p.1) with
        | some j => exact ⟨j, rfl⟩
        | none => exact ⟨b.fresh, by simp [Option.or]⟩
      obtain ⟨j, hj⟩ := hreg
      have hpres := foldl_insertDef_presE defName rest
        (b.insertDef (make_rule_name defName p.1) [{ pats := [], body := p.2 }])
      exact ⟨j, by simp only [List.foldl_cons]; exact idOfName_mono hpres.names_ext hj⟩
    · obtain ⟨j, hj⟩ := ihl (b.insertDef (make_rule_name defName q.1)
        [{ pats := [], body := q.2 }]) p hp
      exact ⟨j, by simp only [List.foldl_cons]; exact hj⟩

theorem enum_mem_of_lt {α : Type} {l : List α} {i : Nat} (h : i < l.length) :
    ∃ x, (i, x) ∈ l.enum := by
  obtain ⟨x, hx⟩ : ∃ x, l.get? i = some x := ⟨_, List.get?_eq_get h⟩
  exact ⟨x, List.mem_enum_iff_get?.mpr hx⟩

theorem era_pats_mem {rules : List Rule} {r' : Rule}
    (h : r' ∈ rules.map (fun r => { r with body := Term.era })) :
    ∃ r ∈ rules, r'.pats = r.pats := by
  obtain ⟨r, hr, hre⟩ := List.mem_map.mp h
  exact ⟨r, hr, by rw [← hre]⟩

theorem defCtx_era {adts : List (Name × List (Name × Nat))} {defType : List Ty}
    {rules : List Rule} (h : DefCtx adts defType rules) :
    DefCtx adts defType (rules.map (fun r => { r with body := Term.era })) := by
  refine ⟨?_, ?_, h.adtsNE⟩
  · intro r' hr'
    obtain ⟨r, hr, hpe⟩ := era_pats_mem hr'
    rw [hpe]
    exact h.arity r hr
  · intro r' hr'
    obtain ⟨r, hr, hpe⟩ := era_pats_mem hr'
    intro j c vs hj
    rw [hpe] at hj
    exact h.typed r hr j c vs hj

theorem exhaustive_era {adts : List (Name × List (Name × Nat))} {defType : List Ty}
    {rules : List Rule} (h : ExhaustiveDef adts defType rules) :
    ExhaustiveDef adts defType (rules.map (fun r => { r with body := Term.era })) := by
  intro σ hσ
  obtain ⟨i, r, hr, hsel⟩ := h σ hσ
  refine ⟨i, { r with body := Term.era }, ?_, ?_⟩
  · rw [List.get?_map, hr]
    rfl
  · intro j c vs hj
    exact hsel j c vs hj

theorem make_pattern_matching_def_total {fuel : Nat} {book : Book} {defId : DefId}
    {defType : List Ty} {defName : Name} {rules : List Rule}
    (hwf : book.wfc)
    (hdn : book.nameOfId defId = some defName)
    (huniq : ∀ n, (defId, n) ∈ book.defNames → n = defName)
    (hrules : book.rulesOfId defId = some rules)
    (hdc : DefCtx book.adts defType rules)
    (honelevel : ∀ r ∈ rules, patsOneLevel r)
    (hex : ExhaustiveDef book.adts defType rules)
    (hctr : ∀ j T ctrs, defType.get? j = some (Ty.adt T) →
      assocLookup book.adts T = some ctrs →
      ∀ q ∈ ctrs, ∃ ci, book.idOfName q.1 = some ci)
    (hfuel : defType.length < fuel) :
    ∃ b', make_pattern_matching_def fuel book defId defType = some b' := by
  obtain ⟨ruleBodies, hrb, hrblen⟩ := mapM_isSome
    (fun r => make_rule_body r.body r.pats) rules
    (fun r hr => make_rule_body_total r.pats (honelevel r hr) r.body)
  set b1 := book.setRules defId (rules.map (fun r => { r with body := Term.era }))
    with hb1def
  set b2 := ruleBodies.enum.foldl (fun (bk : Book) p =>
    bk.insertDef (make_rule_name defName p.1) [{ pats := [], body := p.2 }]) b1
    with hb2def
  have hpres1 : PresE book b1 := presE_setRules book defId _
  have hpres2 : PresE b1 b2 := foldl_insertDef_presE defName ruleBodies.enum b1
  have hpres12 : PresE book b2 := presE_trans hpres1 hpres2
  have hwf2 : b2.wfc := hpres12.wf_pres hwf
  have hb1rules : b1.rulesOfId defId =
      some (rules.map (fun r => { r with body := Term.era })) := by
    rw [hb1def, rulesOfId_setRules, if_pos rfl, hrules]
    rfl
  have hb2rules : b2.rulesOfId defId =
      some (rules.map (fun r => { r with body := Term.era })) :=
    foldl_insertDef_rules_mono defName ruleBodies.enum b1 hb1rules
  have hb2name : b2.nameOfId defId = some defName :=
    nameOfId_mono hpres12.names_ext hdn
  have hidlt : defId < book.fresh := hwf.1 (defId, rules) (assocLookup_mem hrules)
  have hb2uniq : ∀ n, (defId, n) ∈ b2.defNames → n = defName := by
    intro n hn
    rcases hpres12.new_names _ hn with hn' | hn'
    · exact huniq n hn'
    · exact absurd (Nat.lt_of_lt_of_le hidlt hn') (Nat.lt_irrefl defId)
  have hb2rn : ∀ i, i < (rules.map (fun r => { r with body := Term.era })).length →
      ∃ ri, b2.idOfName (make_rule_name defName i) = some ri := by
    intro i hi
    rw [List.length_map, ← hrblen] at hi
    obtain ⟨x, hx⟩ := enum_mem_of_lt hi
    exact foldl_insertDef_registers defName ruleBodies.enum b1 (i, x) hx
  have hb2ctr : ∀ j T ctrs, defType.get? j = some (Ty.adt T) →
      assocLookup book.adts T = some ctrs →
      ∀ q ∈ ctrs, ∃ ci, b2.idOfName q.1 = some ci := by
    intro j T ctrs hT hC q hq
    obtain ⟨ci, hci⟩ := hctr j T ctrs hT hC q hq
    exact ⟨ci, idOfName_mono hpres12.names_ext hci⟩
  have hst : StableCtx book.adts defType defId defName
      (rules.map (fun r => { r with body := Term.era })) b2 :=
    { wf := hwf2, adts_eq := hpres12.adts_eq, rules := hb2rules, name := hb2name,
      uniq := hb2uniq, ruleNames := hb2rn, ctrNames := hb2ctr }
  obtain ⟨b', hb'⟩ := make_pattern_matching_case_total (defCtx_era hdc) fuel b2 ""
    (List.range rules.length) [] hst
    (by
      intro i hi
      rw [List.length_map]
      exact List.mem_range.mp hi)
    (by simp)
    (by simpa using hfuel)
    (by intro j n vs hj; exact absurd hj (by simp))
    (by intro i _ r _ j v hj; exact absurd hj (by simp))
    (by
      intro σ hσ _
      obtain ⟨i, r, hr, hsel⟩ := exhaustive_era hex σ hσ
      have hilt := get?_some_lt hr
      rw [List.length_map] at hilt
      exact ⟨i, List.mem_range.mpr hilt, r, hr, hsel⟩)
  rw [string_append_empty] at hb'
  refine ⟨b', ?_⟩
  simp only [make_pattern_matching_def, hdn, hrules, hrb, Option.bind_eq_bind,
    Option.some_bind]
  exact hb'

theorem rulesOfId_ext_isSome {b b' : Book}
    (hkeys : ∃ l, b'.defs.map (fun p => p.1) = b.defs.map (fun p => p.1) ++ l)
    {i : DefId} {rs : List Rule} (h : b.rulesOfId i = some rs) :
    ∃ rs', b'.rulesOfId i = some rs' := by
  obtain ⟨l, hl⟩ := hkeys
  have hmem : i ∈ b'.defs.map (fun p => p.1) := by
    rw [hl]
    exact List.mem_append_left _ (List.mem_map.mpr ⟨(i, rs), assocLookup_mem h, rfl⟩)
  obtain ⟨q, hq, hq1⟩ := List.mem_map.mp hmem
  obtain ⟨q1, q2⟩ := q
  have hq1' : q1 = i := hq1
  subst hq1'
  exact assocLookup_isSome_of_mem hq

theorem nodup_names_unique : ∀ (l : List (DefId × Name)),
    (l.map (fun p => p.2)).Nodup → ∀ {i j : DefId} {n : Name},
    (i, n) ∈ l → (j, n) ∈ l → i = j := by
  intro l
  induction l with
  | nil => intro _ i j n h1 _; exact absurd h1 (by simp)
  | cons p rest ihl =>
    intro hnd i j n h1 h2
    simp only [List.map_cons, List.nodup_cons] at hnd
    rcases List.mem_cons.mp h1 with h1 | h1 <;> rcases List.mem_cons.mp h2 with h2 | h2
    · have h3 := h1.trans h2.symm
      exact congrArg Prod.fst h3
    · exfalso
      apply hnd.1
      have hp2 : p.2 = n := by rw [← h1]
      rw [hp2]
      exact List.mem_map.mpr ⟨(j, n), h2, rfl⟩
    · exfalso
      apply hnd.1
      have hp2 : p.2 = n := by rw [← h2]
      rw [hp2]
      exact List.mem_map.mpr ⟨(i, n), h1, rfl⟩
    · exact ihl hnd.2 h1 h2

theorem nodup_ids_unique : ∀ (l : List (DefId × Name)),
    (l.map (fun p => p.1)).Nodup → ∀ {i : DefId} {n m : Name},
    (i, n) ∈ l → (i, m) ∈ l → n = m := by
  intro l
  induction l with
  | nil => intro _ i n m h1 _; exact absurd h1 (by simp)
  | cons p rest ihl =>
    intro hnd i n m h1 h2
    simp only [List.map_cons, List.nodup_cons] at hnd
    rcases List.mem_cons.mp h1 with h1 | h1 <;> rcases List.mem_cons.mp h2 with h2 | h2
    · have h3 := h1.trans h2.symm
      exact congrArg Prod.snd h3
    · exfalso
      apply hnd.1
      have hp1 : p.1 = i := by rw [← h1]
      rw [hp1]
      exact List.mem_map.mpr ⟨(i, m), h2, rfl⟩
    · exfalso
      apply hnd.1
      have hp1 : p.1 = i := by rw [← h2]
      rw [hp1]
      exact List.mem_map.mpr ⟨(i, n), h1, rfl⟩
    · exact ihl hnd.2 h1 h2

theorem make_pattern_matching_def_keep {fuel : Nat} {b_t b_next : Book} {id : DefId}
    {ts : List Ty} (book : Book)
    (hnames : (book.defNames.map (fun p => p.2)).Nodup)
    (hfree : ∀ p ∈ book.defNames, dollarFree p.2)
    (hext : ∃ l, b_t.defNames = book.defNames ++ l)
    (hnew : ∀ p ∈ b_t.defNames, p ∈ book.defNames ∨ book.fresh ≤ p.1)
    (hfreshle : book.fresh ≤ b_t.fresh)
    (hid : id < book.fresh)
    (hstep : make_pattern_matching_def fuel b_t id ts = some b_next) :
    ∀ i, i ≠ id → i < book.fresh → ∀ rsi, b_t.rulesOfId i = some rsi →
      b_next.rulesOfId i = some rsi := by
  simp only [make_pattern_matching_def, Option.bind_eq_bind, Option.bind_eq_some] at hstep
  obtain ⟨defName, hdn, rules, hrules, ruleBodies, hrb, hdrv⟩ := hstep
  intro i hne hilt rsi hrsi
  have hpres3 := make_pattern_matching_case_pres fuel _ ts id defName
    (List.range rules.length) [] b_next hdrv
  have hpres1 : PresE b_t
      (b_t.setRules id (rules.map (fun r => { r with body := Term.era }))) :=
    presE_setRules _ _ _
  have hpres2 := foldl_insertDef_presE defName ruleBodies.enum
    (b_t.setRules id (rules.map (fun r => { r with body := Term.era })))
  have hpres12 := presE_trans hpres1 hpres2
  have hpresAll : PresE b_t b_next := presE_trans hpres12 (pres_presE hpres3)
  obtain ⟨rs', hrs'⟩ := rulesOfId_ext_isSome hpresAll.keys_ext hrsi
  rcases hpres3.entries i rs' hrs' with h2 | ⟨_, n, s, hnmem, hneq, hsd⟩
  · have hifresh : i <
        (b_t.setRules id (rules.map (fun r => { r with body := Term.era }))).fresh := by
      rw [setRules_fresh]
      exact Nat.lt_of_lt_of_le hilt hfreshle
    have h1 := foldl_insertDef_rules_keep defName ruleBodies.enum _ hifresh h2
    rw [rulesOfId_setRules, if_neg hne] at h1
    rw [h1] at hrsi
    injection hrsi with hrsi
    rw [hrs', hrsi]
  · exfalso
    have hb2fresh := hpres12.fresh_le
    have hnbook : (i, n) ∈ book.defNames := by
      rcases hpres3.new_names _ hnmem with hn2 | hn2
      · rcases hpres2.new_names _ hn2 with hn3 | hn3
        · rw [setRules_defNames] at hn3
          rcases hnew _ hn3 with hn4 | hn4
          · exact hn4
          · exact absurd (Nat.lt_of_lt_of_le hilt hn4) (Nat.lt_irrefl i)
        · rw [setRules_fresh] at hn3
          exact absurd (Nat.lt_of_lt_of_le (Nat.lt_of_lt_of_le hilt hfreshle) hn3)
            (Nat.lt_irrefl i)
      · have hble : b_t.fresh ≤ i := Nat.le_trans hb2fresh hn2
        exact absurd (Nat.lt_of_lt_of_le (Nat.lt_of_lt_of_le hilt hfreshle) hble)
          (Nat.lt_irrefl i)
    have hmemid : (id, defName) ∈ book.defNames :=
      nameOfId_append_bound hext hnew hid hdn
    rcases hsd with hsE | hsD
    · rw [hsE, string_append_empty] at hneq
      rw [hneq] at hnbook
      exact hne (nodup_names_unique book.defNames hnames hnbook hmemid)
    · have hdollar : '$' ∈ n.data := by
        rw [hneq, String.data_append]
        apply List.mem_append_right
        cases hsdata : s.data with
        | nil => rw [hsdata] at hsD; exact absurd hsD (by simp [List.head?])
        | cons c cs =>
          rw [hsdata] at hsD
          simp only [List.head?] at hsD
          injection hsD with hsD
          rw [← hsD]
          exact List.mem_cons_self _ _
      exact (hfree (i, n) hnbook '$' hdollar) rfl

theorem encode_loop_total (fuel : Nat) (book : Book) (defTypes : List (DefId × List Ty))
    (hwfc : book.wfc)
    (hids : (book.defNames.map (fun p => p.1)).Nodup)
    (hnames : (book.defNames.map (fun p => p.2)).Nodup)
    (hfree : ∀ p ∈ book.defNames, dollarFree p.2)
    (hnamed : ∀ i rs, book.rulesOfId i = some rs → ∃ n, book.nameOfId i = some n)
    (htypes : ∀ i rs, book.rulesOfId i = some rs →
      ∃ ts, assocLookup defTypes i = some ts)
    (hcontract : ∀ i rs ts, book.rulesOfId i = some rs →
      assocLookup defTypes i = some ts →
      (∀ r ∈ rs, r.pats.length = ts.length) ∧
      (∀ r ∈ rs, patsOneLevel r) ∧
      (∀ r ∈ rs, patsTyped book.adts ts r) ∧
      (∀ j T, ts.get? j = some (Ty.adt T) →
        ∃ ctrs, assocLookup book.adts T = some ctrs ∧ ctrs ≠ [] ∧
          ∀ q ∈ ctrs, ∃ ci, book.idOfName q.1 = some ci) ∧
      ExhaustiveDef book.adts ts rs)
    (hfuel : ∀ i ts, assocLookup defTypes i = some ts → ts.length < fuel) :
    ∀ (L : List DefId), L.Nodup → ∀ (b_t : Book),
      (∀ id ∈ L, id < book.fresh ∧ ∃ rs, book.rulesOfId id = some rs) →
      PresE book b_t →
      (∀ id ∈ L, ∀ rs, book.rulesOfId id = some rs → b_t.rulesOfId id = some rs) →
      ∃ b', L.foldlM (fun (book : Book) defId => do
          let defType ← assocLookup defTypes defId
          if defType.any Ty.isAdtTy then
            make_pattern_matching_def fuel book defId defType
          else
            make_non_pattern_matching_def book defId) b_t = some b' := by
  intro L
  induction L with
  | nil => intro _ b_t _ _ _; exact ⟨b_t, rfl⟩
  | cons id L' ihl =>
    intro hnd b_t hbound hpres hkeep
    obtain ⟨hnotin, hndL'⟩ := List.nodup_cons.mp hnd
    obtain ⟨hidlt, rs, hrs⟩ := hbound id (List.mem_cons_self _ _)
    obtain ⟨ts, hts⟩ := htypes id rs hrs
    obtain ⟨harity, honelevel, htyped, hadt, hex⟩ := hcontract id rs ts hrs hts
    have hbtrs : b_t.rulesOfId id = some rs := hkeep id (List.mem_cons_self _ _) rs hrs
    obtain ⟨n0, hn0⟩ := hnamed id rs hrs
    have hbtn0 : b_t.nameOfId id = some n0 := nameOfId_mono hpres.names_ext hn0
    have hbadts : b_t.adts = book.adts := hpres.adts_eq
    have hne' : ∀ j ∈ L', j ≠ id := fun j hj hcon => hnotin (hcon ▸ hj)
    by_cases hadty : ts.any Ty.isAdtTy = true
    · have huniq : ∀ n, (id, n) ∈ b_t.defNames → n = n0 := by
        intro n hn
        rcases hpres.new_names _ hn with hn' | hn'
        · exact nodup_ids_unique book.defNames hids hn' (assocLookup_mem hn0)
        · exact absurd (Nat.lt_of_lt_of_le hidlt hn') (Nat.lt_irrefl id)
      have hdc : DefCtx b_t.adts ts rs := by
        rw [hbadts]
        exact ⟨harity, htyped,
          fun j T hT => (hadt j T hT).imp (fun ctrs hc => ⟨hc.1, hc.2.1⟩)⟩
      have hexb : ExhaustiveDef b_t.adts ts rs := by
        rw [hbadts]
        exact hex
      have hctrb : ∀ j T ctrs, ts.get? j = some (Ty.adt T) →
          assocLookup b_t.adts T = some ctrs →
          ∀ q ∈ ctrs, ∃ ci, b_t.idOfName q.1 = some ci := by
        rw [hbadts]
        intro j T ctrs hT hC q hq
        obtain ⟨ctrs', hC', _, hres⟩ := hadt j T hT
        rw [hC'] at hC
        injection hC with hC
        subst hC
        obtain ⟨ci, hci⟩ := hres q hq
        exact ⟨ci, idOfName_mono hpres.names_ext hci⟩
      obtain ⟨b_next, hstep⟩ := make_pattern_matching_def_total
        (hpres.wf_pres hwfc) hbtn0 huniq hbtrs hdc honelevel hexb hctrb
        (hfuel id ts hts)
      obtain ⟨hpE, _, _⟩ := make_pattern_matching_def_step book hnames
        hpres.names_ext hpres.new_names hidlt (hpres.wf_pres hwfc) hstep
      have hkeep' : ∀ j ∈ L', ∀ rsj, book.rulesOfId j = some rsj →
          b_next.rulesOfId j = some rsj := by
        intro j hj rsj hrsj
        obtain ⟨hjlt, _⟩ := hbound j (List.mem_cons_of_mem _ hj)
        exact make_pattern_matching_def_keep book hnames hfree hpres.names_ext
          hpres.new_names hpres.fresh_le hidlt hstep j (hne' j hj) hjlt rsj
          (hkeep j (List.mem_cons_of_mem _ hj) rsj hrsj)
      obtain ⟨b', hb'⟩ := ihl hndL' b_next
        (fun j hj => hbound j (List.mem_cons_of_mem _ hj))
        (presE_trans hpres hpE) hkeep'
      refine ⟨b', ?_⟩
      simp only [List.foldlM_cons, Option.bind_eq_bind]
      rw [hts, Option.some_bind, if_pos hadty, hstep, Option.some_bind]
      exact hb'
    · have hnoadt : ts.any Ty.isAdtTy = false := by
        cases hq : ts.any Ty.isAdtTy
        · rfl
        · exact absurd hq hadty
      have hNE : ∀ j T, ts.get? j = some (Ty.adt T) →
          ∃ ctrs, assocLookup book.adts T = some ctrs ∧ ctrs ≠ [] :=
        fun j T hT => (hadt j T hT).imp (fun ctrs hc => ⟨hc.1, hc.2.1⟩)
      have hvalidσ := @headSelFor_valid book.adts ts [] ts.length "" hNE
        (by intro j n vs hj; exact absurd hj (by simp))
        (by simp)
        (fun hcon => absurd hcon (Nat.lt_irrefl _))
      obtain ⟨i0, r0, hr0, _⟩ := hex _ hvalidσ.1
      have hlen0 : 0 < rs.length := Nat.lt_of_le_of_lt (Nat.zero_le _) (get?_some_lt hr0)
      obtain ⟨rfst, hrfst⟩ : ∃ r, rs.get? 0 = some r := ⟨_, List.get?_eq_get hlen0⟩
      have hvars : ∀ p ∈ rfst.pats, ∃ v, p = RulePat.var v := by
        intro p hp
        cases p with
        | var v => exact ⟨v, rfl⟩
        | ctr c vs =>
          exfalso
          obtain ⟨j, hj⟩ := List.mem_iff_get?.mp hp
          obtain ⟨T, ctrs, hT, _, _⟩ := htyped rfst (List.get?_mem hrfst) j c vs hj
          have hany : ts.any Ty.isAdtTy = true := by
            rw [List.any_eq_true]
            exact ⟨Ty.adt T, List.get?_mem hT, rfl⟩
          rw [hnoadt] at hany
          exact Bool.noConfusion hany
      obtain ⟨b_next, hstep⟩ := make_non_pattern_matching_def_total hbtrs hrfst hvars
      obtain ⟨hpE, _⟩ := make_non_pattern_matching_def_step hstep
      have hstep' := hstep
      simp only [make_non_pattern_matching_def, Option.bind_eq_bind,
        Option.bind_eq_some] at hstep'
      obtain ⟨rules', hrules', rule', hrule', body', hbody', hbn⟩ := hstep'
      injection hbn with hbn
      have hkeep' : ∀ j ∈ L', ∀ rsj, book.rulesOfId j = some rsj →
          b_next.rulesOfId j = some rsj := by
        intro j hj rsj hrsj
        have hbt : b_t.rulesOfId j = some rsj :=
          hkeep j (List.mem_cons_of_mem _ hj) rsj hrsj
        rw [← hbn, rulesOfId_setRules, if_neg (hne' j hj)]
        exact hbt
      obtain ⟨b', hb'⟩ := ihl hndL' b_next
        (fun j hj => hbound j (List.mem_cons_of_mem _ hj))
        (presE_trans hpres hpE) hkeep'
      refine ⟨b', ?_⟩
      simp only [List.foldlM_cons, Option.bind_eq_bind]
      rw [hts, Option.some_bind,
        if_neg (by intro hcon; rw [hnoadt] at hcon; exact Bool.noConfusion hcon),
        hstep, Option.some_bind]
      exact hb'

/-- Claim C10: panic-freedom under the input contract.  On a well-formed
program with duplicate-free, dollar-free names, one TypeInfo row per
definition, rules of pairwise-equal arity matching the row length,
one-level patterns coherent with the parameter types, a non-empty declared
constructor list with resolvable constructor names for every relevant ADT,
exhaustive rule sets, and enough fuel for the deepest parameter list, the
whole pass succeeds: none of the partial operations of the driver or the
builders is ever reached in a failing state, so the encoding returns a
result rather than the none that models a panic. -/
theorem claim_c10 (fuel : Nat) (book : Book) (defTypes : List (DefId × List Ty))
    (hwfc : book.wfc)
    (hkeys : (book.defs.map (fun p => p.1)).Nodup)
    (hids : (book.defNames.map (fun p => p.1)).Nodup)
    (hnames : (book.defNames.map (fun p => p.2)).Nodup)
    (hfree : ∀ p ∈ book.defNames, dollarFree p.2)
    (hnamed : ∀ i rs, book.rulesOfId i = some rs → ∃ n, book.nameOfId i = some n)
    (htypes : ∀ i rs, book.rulesOfId i = some rs →
      ∃ ts, assocLookup defTypes i = some ts)
    (hcontract : ∀ i rs ts, book.rulesOfId i = some rs →
      assocLookup defTypes i = some ts →
      (∀ r ∈ rs, r.pats.length = ts.length) ∧
      (∀ r ∈ rs, patsOneLevel r) ∧
      (∀ r ∈ rs, patsTyped book.adts ts r) ∧
      (∀ j T, ts.get? j = some (Ty.adt T) →
        ∃ ctrs, assocLookup book.adts T = some ctrs ∧ ctrs ≠ [] ∧
          ∀ q ∈ ctrs, ∃ ci, book.idOfName q.1 = some ci) ∧
      ExhaustiveDef book.adts ts rs)
    (hfuel : ∀ i ts, assocLookup defTypes i = some ts → ts.length < fuel) :
    ∃ b', encode_pattern_matching_functions fuel book defTypes = some b' := by
  rw [encode_pattern_matching_functions]
  apply encode_loop_total fuel book defTypes hwfc hids hnames hfree hnamed htypes
    hcontract hfuel (book.defs.map (fun p => p.1)) hkeys book
  · intro id hid
    obtain ⟨q, hq, hq1⟩ := List.mem_map.mp hid
    obtain ⟨q1, q2⟩ := q
    have hq1' : q1 = id := hq1
    subst hq1'
    refine ⟨hwfc.1 _ hq, ?_⟩
    exact assocLookup_isSome_of_mem hq
  · exact presE_refl book
  · intro id _ rs h
    exact h

/-- Witness for claim C10 on the Bool/not example: the contract holds
concretely and the whole pass succeeds. -/
theorem claim_c10_witness :
    notBook.wfc ∧
    ∃ b', encode_pattern_matching_functions 10 notBook notTypes = some b' := by
  have hfree : ∀ p ∈ notBook.defNames, dollarFree p.2 := by
    intro p hp
    fin_cases hp <;> (unfold dollarFree; decide)
  have hnamed : ∀ i rs, notBook.rulesOfId i = some rs →
      ∃ n, notBook.nameOfId i = some n := by
    intro i rs h
    have hmem := assocLookup_mem h
    fin_cases hmem
    · exact ⟨"True", rfl⟩
    · exact ⟨"False", rfl⟩
    · exact ⟨"not", rfl⟩
  have htypes : ∀ i rs, notBook.rulesOfId i = some rs →
      ∃ ts, assocLookup notTypes i = some ts := by
    intro i rs h
    have hmem := assocLookup_mem h
    fin_cases hmem
    · exact ⟨[], rfl⟩
    · exact ⟨[], rfl⟩
    · exact ⟨[Ty.adt "Bool"], rfl⟩
  have hfuel : ∀ i ts, assocLookup notTypes i = some ts → ts.length < 10 := by
    intro i ts h
    have hmem := assocLookup_mem h
    fin_cases hmem <;> decide
  have hcontract : ∀ i rs ts, notBook.rulesOfId i = some rs →
      assocLookup notTypes i = some ts →
      (∀ r ∈ rs, r.pats.length = ts.length) ∧
      (∀ r ∈ rs, patsOneLevel r) ∧
      (∀ r ∈ rs, patsTyped notBook.adts ts r) ∧
      (∀ j T, ts.get? j = some (Ty.adt T) →
        ∃ ctrs, assocLookup notBook.adts T = some ctrs ∧ ctrs ≠ [] ∧
          ∀ q ∈ ctrs, ∃ ci, notBook.idOfName q.1 = some ci) ∧
      ExhaustiveDef notBook.adts ts rs := by
    intro i rs ts h1 h2
    have hmem := assocLookup_mem h1
    fin_cases hmem
    · rw [show assocLookup notTypes 0 = some [] from rfl] at h2
      injection h2 with h2
      subst h2
      refine ⟨?_, ?_, ?_, ?_, ?_⟩
      · intro r hr
        fin_cases hr
        rfl
      · intro r hr
        fin_cases hr
        intro p hp
        exact absurd hp (by simp)
      · intro r hr
        fin_cases hr
        intro j c vs hj
        exact absurd hj (by simp)
      · intro j T hT
        exact absurd hT (by simp)
      · intro σ _
        refine ⟨0, _, rfl, ?_⟩
        intro j c vs hj
        exact absurd hj (by simp)
    · rw [show assocLookup notTypes 1 = some [] from rfl] at h2
      injection h2 with h2
      subst h2
      refine ⟨?_, ?_, ?_, ?_, ?_⟩
      · intro r hr
        fin_cases hr
        rfl
      · intro r hr
        fin_cases hr
        intro p hp
        exact absurd hp (by simp)
      · intro r hr
        fin_cases hr
        intro j c vs hj
        exact absurd hj (by simp)
      · intro j T hT
        exact absurd hT (by simp)
      · intro σ _
        refine ⟨0, _, rfl, ?_⟩
        intro j c vs hj
        exact absurd hj (by simp)
    · rw [show assocLookup notTypes 2 = some [Ty.adt "Bool"] from rfl] at h2
      injection h2 with h2
      subst h2
      refine ⟨?_, ?_, ?_, ?_, ?_⟩
      · intro r hr
        fin_cases hr <;> rfl
      · intro r hr
        fin_cases hr
        · intro p hp
          fin_cases hp
          exact Or.inr ⟨"True", [], rfl, fun q hq => absurd hq (by simp)⟩
        · intro p hp
          fin_cases hp
          exact Or.inr ⟨"False", [], rfl, fun q hq => absurd hq (by simp)⟩
      · intro r hr
        fin_cases hr
        · intro j c vs hj
          cases j with
          | zero =>
            injection hj with hj
            injection hj with hj1 hj2
            refine ⟨"Bool", [("True", 0), ("False", 0)], rfl, rfl, ?_⟩
            rw [← hj1]
            decide
          | succ j' => exact absurd hj (by simp)
        · intro j c vs hj
          cases j with
          | zero =>
            injection hj with hj
            injection hj with hj1 hj2
            refine ⟨"Bool", [("True", 0), ("False", 0)], rfl, rfl, ?_⟩
            rw [← hj1]
            decide
          | succ j' => exact absurd hj (by simp)
      · intro j T hT
        cases j with
        | zero =>
          injection hT with hT
          injection hT with hT
          refine ⟨[("True", 0), ("False", 0)], ?_, by decide, ?_⟩
          · rw [← hT]
            rfl
          · intro q hq
            fin_cases hq
            · exact ⟨0, rfl⟩
            · exact ⟨1, rfl⟩
        | succ j' => exact absurd hT (by simp)
      · intro σ hσ
        obtain ⟨ctrs, c, hC, hσ0, hcmem⟩ := hσ.2 0 "Bool" rfl
        rw [show assocLookup notBook.adts "Bool" = some [("True", 0), ("False", 0)]
          from rfl] at hC
        injection hC with hC
        subst hC
        simp only [List.map_cons, List.map_nil, List.mem_cons,
          List.not_mem_nil, or_false] at hcmem
        rcases hcmem with hc | hc
        · subst hc
          refine ⟨0, _, rfl, ?_⟩
          intro j c' vs' hj
          cases j with
          | zero =>
            injection hj with hj
            injection hj with hj1 _
            rw [← hj1]
            exact hσ0
          | succ j' => exact absurd hj (by simp)
        · subst hc
          refine ⟨1, _, rfl, ?_⟩
          intro j c' vs' hj
          cases j with
          | zero =>
            injection hj with hj
            injection hj with hj1 _
            rw [← hj1]
            exact hσ0
          | succ j' => exact absurd hj (by simp)
  exact ⟨notBook_wfc, claim_c10 10 notBook notTypes notBook_wfc (by decide) (by decide)
    (by decide) hfree hnamed htypes hcontract hfuel⟩

/-! Claim C1: reference semantics.  The first-match relation and the
evaluator below are spec-side definitions, written from the specification's
words (rules are tried top-to-bottom and the first whose patterns all
match wins; the compiled output is applied to the same arguments and
evaluated), to be compared with the code's output. -/

/-- Values of the reference evaluator: closures over an environment, and
neutral terms (a free variable applied to values), which make the selected
rule-body marker observable. -/
inductive Val where
  | clos (x : Option Name) (b : Term) (env : List (Name × Val))
  | neu (h : Name) (args : List Val)

/-- Reference call-by-value evaluator for the term language, fuel-bounded;
a Reference resolves to the single zero-pattern rule of the definition. -/
def evalT (book : Book) : Nat → List (Name × Val) → Term → Option Val
  | 0, _, _ => none
  | fuel + 1, env, t =>
    match t with
    | Term.era => some (Val.neu "#era" [])
    | Term.var x =>
      match assocLookup env x with
      | some v => some v
      | none => some (Val.neu x [])
    | Term.lam x b => some (Val.clos x b env)
    | Term.ref i =>
      match book.rulesOfId i with
      | some [r] => evalT book fuel [] r.body
      | _ => none
    | Term.app f a => do
      let vf ← evalT book fuel env f
      let va ← evalT book fuel env a
      match vf with
      | Val.clos x b e =>
        evalT book fuel
          (match x with
           | some n => (n, va) :: e
           | none => e) b
      | Val.neu h args => some (Val.neu h (args ++ [va]))

/-- The head of a value: the marker variable of a neutral application. -/
def headOf : Val → Name
  | Val.neu h _ => h
  | Val.clos _ _ _ => "#closure"

/-- Concrete argument values built from the declared ADTs. -/
inductive CVal where
  | mk (c : Name) (args : List CVal)

/-- One pattern against one value: a variable binds the whole value, a
constructor pattern matches the same constructor and binds the fields
recursively (fuel-bounded for the nested patterns). -/
def patMatch : Nat → RulePat → CVal → Option (List (Name × CVal))
  | 0, _, _ => none
  | _ + 1, RulePat.var v, cv => some [(v, cv)]
  | fuel + 1, RulePat.ctr c vs, CVal.mk c' args =>
    if c = c' then
      if vs.length = args.length then
        (vs.zip args).foldlM (fun acc p => do
          let bs ← patMatch fuel p.1 p.2
          pure (acc ++ bs)) []
      else none
    else none

/-- A whole pattern row against the argument list. -/
def rowMatch (fuel : Nat) (ps : List RulePat) (args : List CVal) :
    Option (List (Name × CVal)) :=
  if ps.length = args.length then
    (ps.zip args).foldlM (fun acc p => do
      let bs ← patMatch fuel p.1 p.2
      pure (acc ++ bs)) []
  else none

/-- First-match semantics, as the spec words it: rules are tried
top-to-bottom and the first whose patterns all match wins; returns the
winning 0-based rule index. -/
def firstMatchIdx (fuel : Nat) (rs : List Rule) (args : List CVal) : Option Nat :=
  (rs.enum.filterMap (fun p => (rowMatch fuel p.2.pats args).map (fun _ => p.1))).head?

/-- The Scott encoding of a concrete value: the constructor's Reference
applied to the encoded fields. -/
def scottOf (book : Book) : Nat → CVal → Option Term
  | 0, _ => none
  | fuel + 1, CVal.mk c args => do
    let ci ← book.idOfName c
    args.foldlM (fun acc a => do
      let sa ← scottOf book fuel a
      pure (Term.app acc sa)) (Term.ref ci)

/-- Application of a term to a left-to-right argument list. -/
def applyArgs (t : Term) (args : List Term) : Term := args.foldl Term.app t

def cvTrue : CVal := CVal.mk "True" []

def cvFalse : CVal := CVal.mk "False" []

/-- The rules of the failing definition g2: g2 x y True uses marker RULE0,
g2 x y False uses marker RULE1, each applied to the two bound variables. -/
def g2Rules : List Rule :=
  [{ pats := [RulePat.var "x", RulePat.var "y", RulePat.ctr "True" []],
     body := Term.app (Term.app (Term.var "RULE0") (Term.var "x")) (Term.var "y") },
   { pats := [RulePat.var "x", RulePat.var "y", RulePat.ctr "False" []],
     body := Term.app (Term.app (Term.var "RULE1") (Term.var "x")) (Term.var "y") }]

/-- The failing input program: Scott-encoded Bool constructors and the
three-parameter definition g2 whose first two parameters do not
discriminate. -/
def g2Book : Book :=
  { defs := [(0, [{ pats := [], body := bTrue }]),
             (1, [{ pats := [], body := bFalse }]),
             (2, g2Rules)],
    defNames := [(0, "True"), (1, "False"), (2, "g2")],
    adts := [("Bool", [("True", 0), ("False", 0)])],
    fresh := 3 }

/-- TypeInfo of the failing input: only the third parameter is ADT-typed. -/
def g2Types : List (DefId × List Ty) := [(0, []), (1, []),
  (2, [Ty.any, Ty.any, Ty.adt "Bool"])]

/-- Claim C1 is refuted by the code: precedence is NOT preserved.  The
input g2 satisfies the input contract (well-formed duplicate-free tables,
equal arity matching the TypeInfo row, one-level type-coherent patterns,
resolvable non-empty constructor lists, exhaustive rules), yet on the
arguments (True, True, False) first-match semantics selects rule 1 (the
third argument is False) while the compiled dispatch tree applied to the
same Scott-encoded arguments evaluates to the body marker of rule 0: each
pass-through level swaps the deferred argument with the next value of the
application spine, so after the two pass-throughs the branch dispatcher
scrutinises the first argument instead of the third. -/
theorem claim_c1 :
    g2Book.wfc ∧
    (g2Book.defNames.map (fun p => p.2)).Nodup ∧
    (∀ p ∈ g2Book.defNames, dollarFree p.2) ∧
    (∀ r ∈ g2Rules, r.pats.length = 3 ∧ patsOneLevel r ∧
      patsTyped g2Book.adts [Ty.any, Ty.any, Ty.adt "Bool"] r) ∧
    ExhaustiveDef g2Book.adts [Ty.any, Ty.any, Ty.adt "Bool"] g2Rules ∧
    (∀ j T, ([Ty.any, Ty.any, Ty.adt "Bool"].get? j = some (Ty.adt T)) →
      ∃ ctrs, assocLookup g2Book.adts T = some ctrs ∧ ctrs ≠ [] ∧
        ∀ q ∈ ctrs, ∃ ci, g2Book.idOfName q.1 = some ci) ∧
    firstMatchIdx 5 g2Rules [cvTrue, cvTrue, cvFalse] = some 1 ∧
    ((encode_pattern_matching_functions 10 g2Book g2Types).bind (fun b' => do
      let sargs ← [cvTrue, cvTrue, cvFalse].mapM (scottOf b' 5)
      let v ← evalT b' 60 [] (applyArgs (Term.ref 2) sargs)
      some (headOf v))) = some "RULE0" := by
  refine ⟨⟨by decide, by decide, ?_⟩, by decide, ?_, ?_, ?_, ?_, rfl, rfl⟩
  · intro p hp
    fin_cases hp <;> exact ⟨_, rfl⟩
  · intro p hp
    fin_cases hp <;> (unfold dollarFree; decide)
  · intro r hr
    fin_cases hr
    · refine ⟨rfl, ?_, ?_⟩
      · intro p hp
        fin_cases hp
        · exact Or.inl ⟨"x", rfl⟩
        · exact Or.inl ⟨"y", rfl⟩
        · exact Or.inr ⟨"True", [], rfl, fun q hq => absurd hq (by simp)⟩
      · intro j c vs hj
        cases j with
        | zero =>
          injection hj with hj
          exact RulePat.noConfusion hj
        | succ j =>
          cases j with
          | zero =>
            injection hj with hj
            exact RulePat.noConfusion hj
          | succ j =>
            cases j with
            | zero =>
              injection hj with hj
              injection hj with hj1 hj2
              refine ⟨"Bool", [("True", 0), ("False", 0)], rfl, rfl, ?_⟩
              rw [← hj1]
              decide
            | succ j => exact absurd hj (by simp)
    · refine ⟨rfl, ?_, ?_⟩
      · intro p hp
        fin_cases hp
        · exact Or.inl ⟨"x", rfl⟩
        · exact Or.inl ⟨"y", rfl⟩
        · exact Or.inr ⟨"False", [], rfl, fun q hq => absurd hq (by simp)⟩
      · intro j c vs hj
        cases j with
        | zero =>
          injection hj with hj
          exact RulePat.noConfusion hj
        | succ j =>
          cases j with
          | zero =>
            injection hj with hj
            exact RulePat.noConfusion hj
          | succ j =>
            cases j with
            | zero =>
              injection hj with hj
              injection hj with hj1 hj2
              refine ⟨"Bool", [("True", 0), ("False", 0)], rfl, rfl, ?_⟩
              rw [← hj1]
              decide
            | succ j => exact absurd hj (by simp)
  · intro σ hσ
    obtain ⟨ctrs, c, hC, hσ2, hcmem⟩ := hσ.2 2 "Bool" rfl
    rw [show assocLookup g2Book.adts "Bool" = some [("True", 0), ("False", 0)]
      from rfl] at hC
    injection hC with hC
    subst hC
    simp only [List.map_cons, List.map_nil, List.mem_cons,
      List.not_mem_nil, or_false] at hcmem
    rcases hcmem with hc | hc
    · subst hc
      refine ⟨0, _, rfl, ?_⟩
      intro j c' vs' hj
      cases j with
      | zero =>
        injection hj with hj
        exact RulePat.noConfusion hj
      | succ j =>
        cases j with
        | zero =>
          injection hj with hj
          exact RulePat.noConfusion hj
        | succ j =>
          cases j with
          | zero =>
            injection hj with hj
            injection hj with hj1 _
            rw [← hj1]
            exact hσ2
          | succ j => exact absurd hj (by simp)
    · subst hc
      refine ⟨1, _, rfl, ?_⟩
      intro j c' vs' hj
      cases j with
      | zero =>
        injection hj with hj
        exact RulePat.noConfusion hj
      | succ j =>
        cases j with
        | zero =>
          injection hj with hj
          exact RulePat.noConfusion hj
        | succ j =>
          cases j with
          | zero =>
            injection hj with hj
            injection hj with hj1 _
            rw [← hj1]
            exact hσ2
          | succ j => exact absurd hj (by simp)
  · intro j T hT
    cases j with
    | zero => exact absurd hT (by simp [Ty.any])
    | succ j =>
      cases j with
      | zero => exact absurd hT (by simp [Ty.any])
      | succ j =>
        cases j with
        | zero =>
          injection hT with hT
          injection hT with hT
          refine ⟨[("True", 0), ("False", 0)], ?_, by decide, ?_⟩
          · rw [← hT]
            rfl
          · intro q hq
            fin_cases hq
            · exact ⟨0, rfl⟩
            · exact ⟨1, rfl⟩
        | succ j => exact absurd hT (by simp)
